import Mathlib

/-!
Verification of the LibraFlux control plane (declarative IPVS load-balancer
controller) against its natural-language specification.

The Go sources are shallowly embedded: pure functions become Lean functions,
stateful code becomes explicit state passing, Go `int` becomes `Int`,
`uint16` casts become `% 65536`, fallible operations return `Except`.
Go maps are modelled as association lists with overwrite-on-insert
(`insertKV`), iterated in list order; the properties proved below are
insensitive to Go's randomized map iteration order because every per-key
action is determined by the key alone.
-/

namespace LibraFlux

/-! ## Association-list maps (model of Go `map[string]T`) -/

def findKV {α : Type} : List (String × α) → String → Option α
  | [], _ => none
  | (k', v) :: rest, k => if k' = k then some v else findKV rest k

def insertKV {α : Type} : List (String × α) → String → α → List (String × α)
  | [], k, v => [(k, v)]
  | (k', v') :: rest, k, v =>
    if k' = k then (k, v) :: rest else (k', v') :: insertKV rest k v

def eraseKV {α : Type} : List (String × α) → String → List (String × α)
  | [], _ => []
  | (k', v') :: rest, k =>
    if k' = k then rest else (k', v') :: eraseKV rest k

@[simp] theorem findKV_nil {α : Type} (k : String) : findKV ([] : List (String × α)) k = none := rfl

theorem findKV_cons {α : Type} (k' : String) (v : α) (rest : List (String × α)) (k : String) :
    findKV ((k', v) :: rest) k = if k' = k then some v else findKV rest k := rfl

theorem findKV_insertKV_self {α : Type} (m : List (String × α)) (k : String) (v : α) :
    findKV (insertKV m k v) k = some v := by
  induction m with
  | nil => simp [insertKV, findKV]
  | cons p rest ih =>
    obtain ⟨k', v'⟩ := p
    by_cases h : k' = k
    · simp [insertKV, h, findKV]
    · simp [insertKV, h, findKV, ih]

theorem insertKV_cons_self {α : Type} (k : String) (v v' : α) (rest : List (String × α)) :
    insertKV ((k, v') :: rest) k v = (k, v) :: rest := by
  simp [insertKV]

theorem insertKV_cons_ne {α : Type} (k k₀ : String) (v : α) (v₀ : α) (rest : List (String × α))
    (h : k₀ ≠ k) : insertKV ((k₀, v₀) :: rest) k v = (k₀, v₀) :: insertKV rest k v := by
  simp [insertKV, h]

theorem findKV_insertKV_ne {α : Type} (m : List (String × α)) (k k' : String) (v : α)
    (h : k ≠ k') : findKV (insertKV m k v) k' = findKV m k' := by
  have h' : ¬(k = k') := h
  induction m with
  | nil => simp [insertKV, findKV, h']
  | cons p rest ih =>
    obtain ⟨k₀, v₀⟩ := p
    by_cases h₀ : k₀ = k
    · rw [h₀, insertKV_cons_self, findKV_cons, findKV_cons]
      simp [h']
    · rw [insertKV_cons_ne _ _ _ _ _ h₀, findKV_cons, findKV_cons, ih]

theorem findKV_eraseKV_ne {α : Type} (m : List (String × α)) (k k' : String)
    (h : k ≠ k') : findKV (eraseKV m k) k' = findKV m k' := by
  induction m with
  | nil => simp [eraseKV]
  | cons p rest ih =>
    obtain ⟨k₀, v₀⟩ := p
    by_cases h₀ : k₀ = k
    · have he : eraseKV ((k₀, v₀) :: rest) k = rest := by simp [eraseKV, h₀]
      rw [he, findKV_cons]
      have : ¬(k₀ = k') := h₀ ▸ h
      simp [this]
    · have he : eraseKV ((k₀, v₀) :: rest) k = (k₀, v₀) :: eraseKV rest k := by
        simp [eraseKV, h₀]
      rw [he, findKV_cons, findKV_cons, ih]

theorem mem_keys_insertKV {α : Type} (m : List (String × α)) (k : String) (v : α) (K : String) :
    K ∈ (insertKV m k v).map Prod.fst ↔ K = k ∨ K ∈ m.map Prod.fst := by
  induction m with
  | nil => simp [insertKV]
  | cons p rest ih =>
    obtain ⟨k₀, v₀⟩ := p
    by_cases h₀ : k₀ = k
    · rw [h₀, insertKV_cons_self]
      simp only [List.map_cons, List.mem_cons]
      tauto
    · rw [insertKV_cons_ne _ _ _ _ _ h₀]
      simp only [List.map_cons, List.mem_cons, ih]
      tauto

theorem keys_insertKV_nodup {α : Type} (m : List (String × α)) (k : String) (v : α)
    (h : (m.map Prod.fst).Nodup) : ((insertKV m k v).map Prod.fst).Nodup := by
  induction m with
  | nil => simp [insertKV]
  | cons p rest ih =>
    obtain ⟨k₀, v₀⟩ := p
    simp only [List.map_cons, List.nodup_cons] at h
    by_cases h₀ : k₀ = k
    · subst h₀
      simpa [insertKV] using h
    · simp only [insertKV, h₀, if_false, List.map_cons, List.nodup_cons]
      refine ⟨fun hmem => ?_, ih h.2⟩
      rw [mem_keys_insertKV] at hmem
      rcases hmem with rfl | hmem
      · exact h₀ rfl
      · exact h.1 hmem

theorem mem_of_mem_insertKV {α : Type} (m : List (String × α)) (k : String) (v : α)
    (p : String × α) (h : p ∈ insertKV m k v) : p = (k, v) ∨ p ∈ m := by
  induction m with
  | nil => simpa [insertKV] using h
  | cons q rest ih =>
    obtain ⟨k₀, v₀⟩ := q
    by_cases h₀ : k₀ = k
    · rw [h₀, insertKV_cons_self] at h
      rcases List.mem_cons.1 h with hp | hmem
      · exact Or.inl hp
      · exact Or.inr (List.mem_cons_of_mem _ hmem)
    · rw [insertKV_cons_ne _ _ _ _ _ h₀] at h
      rcases List.mem_cons.1 h with hp | hmem
      · exact Or.inr (hp ▸ List.mem_cons_self _ _)
      · rcases ih hmem with h' | h'
        · exact Or.inl h'
        · exact Or.inr (List.mem_cons_of_mem _ h')

/-- A lookup in an association list with duplicate-free keys finds exactly the
member entry. -/
theorem findKV_eq_of_mem {α : Type} (m : List (String × α)) (k : String) (v : α)
    (hmem : (k, v) ∈ m) (hnd : (m.map Prod.fst).Nodup) : findKV m k = some v := by
  induction m with
  | nil => simp at hmem
  | cons p rest ih =>
    obtain ⟨k₀, v₀⟩ := p
    simp only [List.map_cons, List.nodup_cons] at hnd
    rcases List.mem_cons.1 hmem with h | h
    · cases h
      simp [findKV]
    · have hk : k₀ ≠ k := by
        intro hk
        subst hk
        exact hnd.1 (List.mem_map.2 ⟨(k₀, v), h, rfl⟩)
      simp [findKV, hk, ih h hnd.2]

theorem mem_of_findKV_eq_some {α : Type} (m : List (String × α)) (k : String) (v : α)
    (h : findKV m k = some v) : (k, v) ∈ m := by
  induction m with
  | nil => simp [findKV] at h
  | cons p rest ih =>
    obtain ⟨k₀, v₀⟩ := p
    by_cases h₀ : k₀ = k
    · subst h₀
      have h' : v₀ = v := by simpa [findKV] using h
      subst h'
      exact List.mem_cons_self _ _
    · simp only [findKV, h₀, if_false] at h
      exact List.mem_cons_of_mem _ (ih h)

/-! ## Decimal formatting of ports (Go `%d` on a `uint16` value) -/

def natDecCore : Nat → Nat → List Char → List Char
  | 0, _, acc => acc
  | fuel + 1, n, acc =>
    if n = 0 then acc
    else natDecCore fuel (n / 10) (Char.ofNat (48 + n % 10) :: acc)

/-- Decimal representation of a natural number, as produced by Go's `%d`. -/
def natDec (n : Nat) : String :=
  if n = 0 then "0" else ⟨natDecCore (n + 1) n []⟩

theorem mem_natDecCore (fuel n : Nat) (acc : List Char) (c : Char)
    (h : c ∈ natDecCore fuel n acc) :
    c ∈ acc ∨ ∃ d : Nat, d < 10 ∧ c = Char.ofNat (48 + d) := by
  induction fuel generalizing n acc with
  | zero => exact Or.inl h
  | succ fuel ih =>
    by_cases h0 : n = 0
    · rw [natDecCore, if_pos h0] at h
      exact Or.inl h
    · rw [natDecCore, if_neg h0] at h
      rcases ih _ _ h with h' | h'
      · rcases List.mem_cons.1 h' with hc | hc
        · exact Or.inr ⟨n % 10, Nat.mod_lt _ (by decide), hc⟩
        · exact Or.inl hc
      · exact Or.inr h'

/-- The decimal representation of a number never contains a colon. -/
theorem colon_not_mem_natDec (n : Nat) : ':' ∉ (natDec n).data := by
  unfold natDec
  by_cases h0 : n = 0
  · simp only [h0, if_pos rfl]
    decide
  · rw [if_neg h0]
    intro hmem
    rcases mem_natDecCore (n + 1) n [] _ hmem with h | ⟨d, hd, hc⟩
    · simp at h
    · interval_cases d <;> simp_all

/-! ## Model of `net.ParseIP` restricted to IPv4

The repository is IPv4-only: backends are "IPv4 literal" addresses, the
kernel records use `AF_INET` with netmask `0xFFFFFFFF`.  Go (≥ 1.17)
accepts exactly canonical dotted-quad IPv4 literals (leading zeros are
rejected), and for such a literal `net.ParseIP(s).String() = s`.
Addresses are therefore modelled as their canonical string form and
`parseIP` as a recognizer returning the same string. -/

def splitOnChar (c : Char) : List Char → List (List Char)
  | [] => [[]]
  | x :: rest =>
    let r := splitOnChar c rest
    if x = c then [] :: r
    else
      match r with
      | [] => [[x]]
      | h :: t => (x :: h) :: t

def octetVal (l : List Char) : Nat :=
  l.foldl (fun acc ch => acc * 10 + (ch.toNat - 48)) 0

def octetOK (l : List Char) : Bool :=
  decide (l ≠ []) && l.all Char.isDigit &&
    (decide (l = ['0']) || decide (l.head? ≠ some '0')) &&
    decide (octetVal l ≤ 255)

def isCanonIPv4 (s : String) : Bool :=
  s.data.all (fun c => c.isDigit || c == '.') &&
    (match splitOnChar '.' s.data with
     | [a, b, c, d] => octetOK a && octetOK b && octetOK c && octetOK d
     | _ => false)

def parseIP (s : String) : Option String :=
  if isCanonIPv4 s then some s else none

theorem parseIP_eq_self (s v : String) (h : parseIP s = some v) : v = s := by
  unfold parseIP at h
  by_cases hc : isCanonIPv4 s
  · simp [hc] at h
    exact h.symm
  · simp [hc] at h

theorem colon_not_mem_of_canonIPv4 (s : String) (h : isCanonIPv4 s = true) :
    ':' ∉ s.data := by
  intro hmem
  unfold isCanonIPv4 at h
  rw [Bool.and_eq_true] at h
  have hall := h.1
  rw [List.all_eq_true] at hall
  have := hall _ hmem
  simp at this

/-! ## IPVS record types (internal/ipvs types.go)

`Service.Address` is a `net.IP`; its only uses in the reconciler are
`.String()` (in `Key()` and the tenancy comparison), so it is modelled as
its canonical string form.  A `Destination.Address` can be the `nil`
result of `net.ParseIP` on a backend address (the expansion does not check
it), modelled as `Option String`; Go formats a nil `net.IP` as "<nil>". -/

structure IpvsService where
  address : String
  protocol : String
  port : Nat
  scheduler : String
  deriving DecidableEq, Repr

structure IpvsDest where
  address : Option String
  port : Nat
  weight : Int
  deriving DecidableEq, Repr

def addrString : Option String → String
  | none => "<nil>"
  | some s => s

/-- `Service.Key()`: `fmt.Sprintf("%s:%s:%d", s.Protocol, s.Address.String(), s.Port)`. -/
def svcKey (s : IpvsService) : String :=
  s.protocol ++ ":" ++ s.address ++ ":" ++ natDec s.port

/-- `Destination.Key()`: `fmt.Sprintf("%s:%d", d.Address.String(), d.Port)`. -/
def destKey (d : IpvsDest) : String :=
  addrString d.address ++ ":" ++ natDec d.port

/-! Injectivity of `Service.Key()` on its address component: a key built
from a colon-free protocol, a colon-free address (every IPv4 literal) and
a decimal port determines those components.  Needed because the
reconciler identifies kernel services by the key string alone. -/

theorem append_eq_append_of_sep_not_mem {c : Char} :
    ∀ (xs ys zs ws : List Char), c ∉ xs → c ∉ ys →
      xs ++ c :: zs = ys ++ c :: ws → xs = ys ∧ zs = ws := by
  intro xs
  induction xs with
  | nil =>
    intro ys zs ws _ hys heq
    cases ys with
    | nil => simpa using heq
    | cons y yt =>
      simp only [List.nil_append, List.cons_append, List.cons.injEq] at heq
      exact absurd (heq.1 ▸ List.mem_cons_self y yt) hys
  | cons x xt ih =>
    intro ys zs ws hxs hys heq
    cases ys with
    | nil =>
      simp only [List.nil_append, List.cons_append, List.cons.injEq] at heq
      exact absurd (heq.1 ▸ List.mem_cons_self x xt) hxs
    | cons y yt =>
      simp only [List.cons_append, List.cons.injEq] at heq
      obtain ⟨rfl, heq'⟩ := heq
      have hx' : c ∉ xt := fun hm => hxs (List.mem_cons_of_mem _ hm)
      have hy' : c ∉ yt := fun hm => hys (List.mem_cons_of_mem _ hm)
      obtain ⟨h1, h2⟩ := ih yt zs ws hx' hy' heq'
      exact ⟨by rw [h1], h2⟩

theorem data_append (s t : String) : (s ++ t).data = s.data ++ t.data := rfl

/-- Splitting a three-part colon-joined key whose components other than the
middle one are colon-free. -/
theorem key_parts_eq (p₁ a₁ : String) (n₁ : Nat) (p₂ a₂ : String) (n₂ : Nat)
    (hp₁ : ':' ∉ p₁.data) (hp₂ : ':' ∉ p₂.data)
    (heq : p₁ ++ ":" ++ a₁ ++ ":" ++ natDec n₁ = p₂ ++ ":" ++ a₂ ++ ":" ++ natDec n₂) :
    p₁ = p₂ ∧ a₁ = a₂ := by
  have hdata : p₁.data ++ ':' :: (a₁.data ++ ':' :: (natDec n₁).data) =
      p₂.data ++ ':' :: (a₂.data ++ ':' :: (natDec n₂).data) := by
    have := congrArg String.data heq
    simpa [data_append, List.append_assoc] using this
  obtain ⟨hpe, hrest⟩ := append_eq_append_of_sep_not_mem _ _ _ _ hp₁ hp₂ hdata
  -- split the remainder at its last colon, via reversal
  have hrev : (natDec n₁).data.reverse ++ ':' :: a₁.data.reverse =
      (natDec n₂).data.reverse ++ ':' :: a₂.data.reverse := by
    have := congrArg List.reverse hrest
    simpa [List.reverse_append] using this
  have hn₁ : ':' ∉ (natDec n₁).data.reverse := by
    rw [List.mem_reverse]
    exact colon_not_mem_natDec n₁
  have hn₂ : ':' ∉ (natDec n₂).data.reverse := by
    rw [List.mem_reverse]
    exact colon_not_mem_natDec n₂
  obtain ⟨_, ha⟩ := append_eq_append_of_sep_not_mem _ _ _ _ hn₁ hn₂ hrev
  have ha' : a₁.data = a₂.data := by
    have := congrArg List.reverse ha
    simpa using this
  refine ⟨?_, ?_⟩
  · cases p₁; cases p₂
    exact congrArg String.mk hpe
  · cases a₁; cases a₂
    exact congrArg String.mk ha'

/-- A kernel service whose protocol is colon-free and whose key equals a
key built from a colon-free protocol must have the same address string. -/
theorem svcKey_fixes_address (s : IpvsService) (proto vip : String) (port : Nat)
    (hs : ':' ∉ s.protocol.data) (hp : ':' ∉ proto.data)
    (heq : svcKey s = proto ++ ":" ++ vip ++ ":" ++ natDec port) :
    s.address = vip ∧ s.protocol = proto := by
  unfold svcKey at heq
  obtain ⟨h1, h2⟩ := key_parts_eq _ _ _ _ _ _ hs hp heq
  exact ⟨h2, h1⟩

/-! ## Declarative configuration types (internal/config types.go) -/

structure PortRange where
  start : Int
  stop : Int
  deriving DecidableEq, Repr

structure Backend where
  address : String
  port : Int
  weight : Int
  deriving DecidableEq, Repr

structure HealthCheck where
  enabled : Bool
  type : String
  port : Int
  intervalMS : Int
  timeoutMS : Int
  failAfter : Int
  recoverAfter : Int
  deriving DecidableEq, Repr

structure ConfigService where
  name : String
  protocol : String
  ports : List Int
  portRanges : List PortRange
  scheduler : String
  backends : List Backend
  health : HealthCheck
  deriving DecidableEq, Repr

/-! ## Phase 1 — expansion (`Reconciler.expandConfig`) -/

def charToLower (c : Char) : Char :=
  if 'A' ≤ c ∧ c ≤ 'Z' then Char.ofNat (c.toNat + 32) else c

def isSpaceChar (c : Char) : Bool :=
  c = ' ' || c = '\t' || c = '\n' || c = '\x0d' || c = '\x0b' || c = '\x0c'

def trimLeftChars : List Char → List Char
  | [] => []
  | c :: rest => if isSpaceChar c then trimLeftChars rest else c :: rest

/-- ASCII model of `strings.ToLower(strings.TrimSpace(s))` (the protocol
strings compared against "udp" are ASCII). -/
def trimLower (s : String) : String :=
  ⟨((trimLeftChars ((trimLeftChars s.data.reverse).reverse)).map charToLower)⟩

/-- Composition of `ProtocolToUint16` with the `protoStr` selection of
`expandConfig`: the protocol string is "udp" exactly when the trimmed,
lowercased input is "udp", else "tcp". -/
def protocolToStr (p : String) : String :=
  if trimLower p = "udp" then "udp" else "tcp"

/-- Go's `uint16(x)` conversion of an `int`. -/
def toUInt16 (p : Int) : Nat :=
  (p % 65536).toNat

/-- The ports visited by `for p := pr.Start; p <= pr.End; p++`. -/
def rangePorts (pr : PortRange) : List Int :=
  (List.range (pr.stop + 1 - pr.start).toNat).map (fun i => pr.start + i)

/-- The flat ordered port list of a service: explicit ports, then ranges
expanded left to right, each value cast to `uint16`. -/
def servicePorts (svc : ConfigService) : List Nat :=
  svc.ports.map toUInt16 ++
    svc.portRanges.flatMap (fun pr => (rangePorts pr).map toUInt16)

/-- Pre-resolved backend info: `(parsed address, port-or-zero, weight)`. -/
def expandBackends (svc : ConfigService) : List (Option String × Nat × Int) :=
  svc.backends.map (fun be => (parseIP be.address, toUInt16 be.port, be.weight))

/-- Destination resolution for one expansion port: backend port if nonzero,
else the current expansion port. -/
def resolveDests (backends : List (Option String × Nat × Int)) (port : Nat) : List IpvsDest :=
  backends.map (fun be =>
    { address := be.1, port := if be.2.1 = 0 then port else be.2.1, weight := be.2.2 })

structure DesiredState where
  service : IpvsService
  destinations : List IpvsDest
  deriving DecidableEq, Repr

def expandEntry (parsedVIP : String) (svc : ConfigService) (port : Nat) :
    String × DesiredState :=
  let ipvsSvc : IpvsService :=
    { address := parsedVIP, protocol := protocolToStr svc.protocol,
      port := port, scheduler := svc.scheduler }
  (svcKey ipvsSvc, { service := ipvsSvc, destinations := resolveDests (expandBackends svc) port })

/-- `Reconciler.expandConfig`: expand the declarative services into a map
from service key to desired kernel service + destinations.  The Go map is
an association list built by overwrite-on-insert, in iteration order. -/
def expandConfig (services : List ConfigService) (vip : String) :
    Except String (List (String × DesiredState)) :=
  match parseIP vip with
  | none => .error ("invalid VIP: " ++ vip)
  | some parsedVIP =>
    .ok (services.foldl (fun result svc =>
      (servicePorts svc).foldl (fun result port =>
        let e := expandEntry parsedVIP svc port
        insertKV result e.1 e.2) result) [])

/-- The flat sequence of (key, state) insertions performed by `expandConfig`. -/
def expandEntries (parsedVIP : String) (services : List ConfigService) :
    List (String × DesiredState) :=
  services.flatMap (fun svc => (servicePorts svc).map (expandEntry parsedVIP svc))

def insFold {α : Type} (l : List (String × α)) (m0 : List (String × α)) :
    List (String × α) :=
  l.foldl (fun m e => insertKV m e.1 e.2) m0

theorem insFold_nil {α : Type} (m0 : List (String × α)) : insFold [] m0 = m0 := rfl

theorem insFold_cons {α : Type} (e : String × α) (l m0 : List (String × α)) :
    insFold (e :: l) m0 = insFold l (insertKV m0 e.1 e.2) := rfl

theorem insFold_append {α : Type} (l₁ l₂ m0 : List (String × α)) :
    insFold (l₁ ++ l₂) m0 = insFold l₂ (insFold l₁ m0) := by
  unfold insFold
  exact List.foldl_append ..

theorem expandConfig_fold (pv : String) (services : List ConfigService)
    (acc : List (String × DesiredState)) :
    services.foldl (fun result svc =>
      (servicePorts svc).foldl (fun result port =>
        let e := expandEntry pv svc port
        insertKV result e.1 e.2) result) acc =
    insFold (expandEntries pv services) acc := by
  induction services generalizing acc with
  | nil => rfl
  | cons svc rest ih =>
    rw [List.foldl_cons, ih]
    have hinner : (servicePorts svc).foldl (fun result port =>
        let e := expandEntry pv svc port
        insertKV result e.1 e.2) acc =
        insFold ((servicePorts svc).map (expandEntry pv svc)) acc := by
      unfold insFold
      rw [List.foldl_map]
    rw [hinner]
    unfold expandEntries
    rw [List.flatMap_cons, insFold_append]

theorem expandConfig_eq_insFold (services : List ConfigService) (vip v : String)
    (h : parseIP vip = some v) :
    expandConfig services vip = .ok (insFold (expandEntries v services) []) := by
  unfold expandConfig
  rw [h]
  exact congrArg Except.ok (expandConfig_fold v services [])

theorem findKV_insFold_of_all_eq {α : Type} (l m0 : List (String × α)) (K : String) (V : α)
    (h0 : findKV m0 K = some V ∨ ∃ e ∈ l, e.1 = K)
    (hall : ∀ e ∈ l, e.1 = K → e.2 = V) :
    findKV (insFold l m0) K = some V := by
  induction l generalizing m0 with
  | nil =>
    rcases h0 with h | h
    · exact h
    · simp at h
  | cons e rest ih =>
    rw [insFold_cons]
    by_cases he : e.1 = K
    · refine ih _ (Or.inl ?_) (fun e' he' hk => hall e' (List.mem_cons_of_mem _ he') hk)
      rw [← he, findKV_insertKV_self]
      rw [hall e (List.mem_cons_self _ _) he]
    · refine ih _ ?_ (fun e' he' hk => hall e' (List.mem_cons_of_mem _ he') hk)
      rcases h0 with h | h
      · exact Or.inl (by rw [findKV_insertKV_ne _ _ _ _ he, h])
      · rcases h with ⟨e', he', hk⟩
        rcases List.mem_cons.1 he' with hh | hh
        · exact absurd (hh ▸ hk) he
        · exact Or.inr ⟨e', hh, hk⟩

theorem findKV_insFold_not_mem {α : Type} (l m0 : List (String × α)) (K : String)
    (h : ∀ e ∈ l, e.1 ≠ K) : findKV (insFold l m0) K = findKV m0 K := by
  induction l generalizing m0 with
  | nil => rfl
  | cons e rest ih =>
    rw [insFold_cons, ih _ (fun e' he' => h e' (List.mem_cons_of_mem _ he')),
      findKV_insertKV_ne _ _ _ _ (h e (List.mem_cons_self _ _))]

theorem mem_keys_insFold {α : Type} (l m0 : List (String × α)) (K : String) :
    K ∈ (insFold l m0).map Prod.fst ↔ K ∈ m0.map Prod.fst ∨ ∃ e ∈ l, e.1 = K := by
  induction l generalizing m0 with
  | nil => simp [insFold]
  | cons e rest ih =>
    rw [insFold_cons, ih]
    rw [mem_keys_insertKV]
    constructor
    · rintro (h | h)
      · rcases h with h | h
        · exact Or.inr ⟨e, List.mem_cons_self _ _, h.symm⟩
        · exact Or.inl h
      · rcases h with ⟨e', he', hk⟩
        exact Or.inr ⟨e', List.mem_cons_of_mem _ he', hk⟩
    · rintro (h | h)
      · exact Or.inl (Or.inr h)
      · rcases h with ⟨e', he', hk⟩
        rcases List.mem_cons.1 he' with hh | hh
        · exact Or.inl (Or.inl (by rw [← hk, hh]))
        · exact Or.inr ⟨e', hh, hk⟩

theorem keys_nodup_insFold {α : Type} (l m0 : List (String × α))
    (h : (m0.map Prod.fst).Nodup) : ((insFold l m0).map Prod.fst).Nodup := by
  induction l generalizing m0 with
  | nil => exact h
  | cons e rest ih =>
    rw [insFold_cons]
    exact ih _ (keys_insertKV_nodup _ _ _ h)

theorem insFold_pred {α : Type} (P : String × α → Prop) (l m0 : List (String × α))
    (h0 : ∀ e ∈ m0, P e) (hl : ∀ e ∈ l, P e) : ∀ e ∈ insFold l m0, P e := by
  induction l generalizing m0 with
  | nil => exact h0
  | cons e rest ih =>
    rw [insFold_cons]
    refine ih _ (fun e' he' => ?_) (fun e' he' => hl e' (List.mem_cons_of_mem _ he'))
    rcases mem_of_mem_insertKV _ _ _ _ he' with hh | hh
    · exact hh ▸ hl e (List.mem_cons_self _ _)
    · exact h0 e' hh

/-! ## Kernel state and the Manager interface

The kernel's IPVS tables keyed by `Service.Key()` / `Destination.Key()`,
with the operational semantics of the repository's `MockManager`
(ipvs_test.go): create/update services overwrite by key, destinations are
appended, updates replace the first key match, deletes filter by key.
`Faults` injects kernel/netlink refusals; every operation leaves the state
unchanged when it fails. -/

structure KernelState where
  services : List (String × IpvsService)
  dests : List (String × List IpvsDest)
  deriving DecidableEq, Repr

inductive MutationCall where
  | createService (svc : IpvsService)
  | updateService (svc : IpvsService)
  | deleteService (svc : IpvsService)
  | createDestination (svc : IpvsService) (d : IpvsDest)
  | updateDestination (svc : IpvsService) (d : IpvsDest)
  | deleteDestination (svc : IpvsService) (d : IpvsDest)
  deriving DecidableEq, Repr

/-- The kernel service record named by a mutation call. -/
def MutationCall.svcOf : MutationCall → IpvsService
  | .createService svc => svc
  | .updateService svc => svc
  | .deleteService svc => svc
  | .createDestination svc _ => svc
  | .updateDestination svc _ => svc
  | .deleteDestination svc _ => svc

structure Faults where
  enumFail : Bool
  getDestsFail : String → Bool
  mutFail : MutationCall → Bool

def noFaults : Faults :=
  { enumFail := false, getDestsFail := fun _ => false, mutFail := fun _ => false }

def destsOf (k : KernelState) (key : String) : List IpvsDest :=
  (findKV k.dests key).getD []

def mgrGetServices (f : Faults) (k : KernelState) : Except String (List IpvsService) :=
  if f.enumFail then .error "netlink failure" else .ok (k.services.map Prod.snd)

def mgrGetDestinations (f : Faults) (k : KernelState) (key : String) :
    Except String (List IpvsDest) :=
  if f.getDestsFail key then .error "netlink failure" else .ok (destsOf k key)

def mgrCreateService (f : Faults) (k : KernelState) (svc : IpvsService) :
    Except String Unit × KernelState :=
  if f.mutFail (.createService svc) then (.error "create service failed", k)
  else (.ok (), { k with services := insertKV k.services (svcKey svc) svc })

def mgrUpdateService (f : Faults) (k : KernelState) (svc : IpvsService) :
    Except String Unit × KernelState :=
  if f.mutFail (.updateService svc) then (.error "update service failed", k)
  else (.ok (), { k with services := insertKV k.services (svcKey svc) svc })

def mgrDeleteService (f : Faults) (k : KernelState) (svc : IpvsService) :
    Except String Unit × KernelState :=
  if f.mutFail (.deleteService svc) then (.error "delete service failed", k)
  else (.ok (), { k with
    services := eraseKV k.services (svcKey svc)
    dests := eraseKV k.dests (svcKey svc) })

def mgrCreateDestination (f : Faults) (k : KernelState) (svc : IpvsService) (d : IpvsDest) :
    Except String Unit × KernelState :=
  if f.mutFail (.createDestination svc d) then (.error "create destination failed", k)
  else (.ok (), { k with
    dests := insertKV k.dests (svcKey svc) (destsOf k (svcKey svc) ++ [d]) })

/-- Replace the first destination whose key matches; `none` when absent. -/
def replaceDest : List IpvsDest → IpvsDest → Option (List IpvsDest)
  | [], _ => none
  | d0 :: rest, d =>
    if destKey d0 = destKey d then some (d :: rest)
    else (replaceDest rest d).map (fun l => d0 :: l)

def mgrUpdateDestination (f : Faults) (k : KernelState) (svc : IpvsService) (d : IpvsDest) :
    Except String Unit × KernelState :=
  if f.mutFail (.updateDestination svc d) then (.error "update destination failed", k)
  else
    match replaceDest (destsOf k (svcKey svc)) d with
    | some ds => (.ok (), { k with dests := insertKV k.dests (svcKey svc) ds })
    | none => (.error "destination not found", k)

def mgrDeleteDestination (f : Faults) (k : KernelState) (svc : IpvsService) (d : IpvsDest) :
    Except String Unit × KernelState :=
  if f.mutFail (.deleteDestination svc d) then (.error "delete destination failed", k)
  else
    let remaining := (destsOf k (svcKey svc)).filter (fun d0 => ¬(destKey d0 = destKey d))
    (.ok (), { k with dests := insertKV k.dests (svcKey svc) remaining })

/-! ## Phase 2 — diff and apply (`Reconciler.reconcile`) -/

def buildDestMap (current : List IpvsDest) : List (String × IpvsDest) :=
  current.foldl (fun m d => insertKV m (destKey d) d) []

/-- First loop of `reconcileDestinations`: create missing destinations,
update weight-changed ones; abort on the first mutation error.  The map
entry is overwritten on weight update because the Go code mutates the
shared `*Destination` in place. -/
def rdLoop1 (f : Faults) (svc : IpvsService) :
    List IpvsDest → List (String × IpvsDest) → KernelState → List MutationCall →
    Except String Unit × List (String × IpvsDest) × KernelState × List MutationCall
  | [], cmap, k, calls => (.ok (), cmap, k, calls)
  | d :: rest, cmap, k, calls =>
    match findKV cmap (destKey d) with
    | none =>
      let r := mgrCreateDestination f k svc d
      match r.1 with
      | .error e => (.error e, cmap, r.2, calls ++ [.createDestination svc d])
      | .ok _ => rdLoop1 f svc rest cmap r.2 (calls ++ [.createDestination svc d])
    | some curr =>
      if curr.weight ≠ d.weight then
        let r := mgrUpdateDestination f k svc { curr with weight := d.weight }
        match r.1 with
        | .error e =>
          (.error e, insertKV cmap (destKey d) { curr with weight := d.weight }, r.2,
            calls ++ [.updateDestination svc { curr with weight := d.weight }])
        | .ok _ =>
          rdLoop1 f svc rest (insertKV cmap (destKey d) { curr with weight := d.weight }) r.2
            (calls ++ [.updateDestination svc { curr with weight := d.weight }])
      else rdLoop1 f svc rest cmap k calls

/-- Second loop of `reconcileDestinations`: delete destinations that are no
longer desired; abort on the first mutation error. -/
def rdLoop2 (f : Faults) (svc : IpvsService) (desired : List IpvsDest) :
    List (String × IpvsDest) → KernelState → List MutationCall →
    Except String Unit × KernelState × List MutationCall
  | [], k, calls => (.ok (), k, calls)
  | (key, dest) :: rest, k, calls =>
    if desired.any (fun d => destKey d = key) then rdLoop2 f svc desired rest k calls
    else
      let r := mgrDeleteDestination f k svc dest
      match r.1 with
      | .error e => (.error e, r.2, calls ++ [.deleteDestination svc dest])
      | .ok _ => rdLoop2 f svc desired rest r.2 (calls ++ [.deleteDestination svc dest])

def reconcileDestinations (f : Faults) (svc : IpvsService) (desired current : List IpvsDest)
    (k : KernelState) : Except String Unit × KernelState × List MutationCall :=
  let r := rdLoop1 f svc desired (buildDestMap current) k []
  match r.1 with
  | .error e => (.error e, r.2.2.1, r.2.2.2)
  | .ok _ => rdLoop2 f svc desired r.2.1 r.2.2.1 r.2.2.2

def buildSvcMap (current : List IpvsService) : List (String × IpvsService) :=
  current.foldl (fun m s => insertKV m (svcKey s) s) []

/-- Destination reconciliation part of the exists-branch of the add/update
loop: fetch current destinations (on failure, log and continue), then
reconcile them. -/
def recDests (f : Faults) (st : DesiredState) (currentSvc' : IpvsService)
    (k1 : KernelState) (calls1 : List MutationCall) : KernelState × List MutationCall :=
  match mgrGetDestinations f k1 (svcKey currentSvc') with
  | .error _ => (k1, calls1)
  | .ok currDests =>
    let r := reconcileDestinations f currentSvc' st.destinations currDests k1
    (r.2.1, calls1 ++ r.2.2)

/-- Add/Update handling for one desired entry.  Per-service errors are
logged and skipped (`continue`), so the step returns no error. -/
def recAddStep (f : Faults) (cmap : List (String × IpvsService)) (k : KernelState)
    (entry : String × DesiredState) : KernelState × List MutationCall :=
  match findKV cmap entry.1 with
  | none =>
    let r := mgrCreateService f k entry.2.service
    match r.1 with
    | .error _ => (r.2, [.createService entry.2.service])
    | .ok _ =>
      let r2 := reconcileDestinations f entry.2.service entry.2.destinations [] r.2
      (r2.2.1, .createService entry.2.service :: r2.2.2)
  | some currentSvc =>
    if currentSvc.scheduler ≠ entry.2.service.scheduler then
      let upd : IpvsService := { currentSvc with scheduler := entry.2.service.scheduler }
      let r := mgrUpdateService f k upd
      recDests f entry.2 upd r.2 [.updateService upd]
    else recDests f entry.2 currentSvc k []

def recAdd (f : Faults) (cmap : List (String × IpvsService)) :
    List (String × DesiredState) → KernelState → List MutationCall →
    KernelState × List MutationCall
  | [], k, calls => (k, calls)
  | e :: rest, k, calls =>
    let r := recAddStep f cmap k e
    recAdd f cmap rest r.1 (calls ++ r.2)

/-- Delete pass: only services whose address equals the managed VIP and
whose key is no longer desired are deleted; errors are logged and skipped. -/
def recDelete (f : Faults) (desired : List (String × DesiredState)) (vip : String) :
    List (String × IpvsService) → KernelState → List MutationCall →
    KernelState × List MutationCall
  | [], k, calls => (k, calls)
  | (key, svc) :: rest, k, calls =>
    if svc.address ≠ vip then recDelete f desired vip rest k calls
    else
      match findKV desired key with
      | some _ => recDelete f desired vip rest k calls
      | none =>
        let r := mgrDeleteService f k svc
        recDelete f desired vip rest r.2 (calls ++ [.deleteService svc])

/-- `Reconciler.reconcile`: every return path in the Go function yields
`nil`, so the model returns only the final state and the issued calls. -/
def reconcile (f : Faults) (desired : List (String × DesiredState))
    (current : List IpvsService) (managedVIP : String) (k : KernelState) :
    KernelState × List MutationCall :=
  let cmap := buildSvcMap current
  let r := recAdd f cmap desired k []
  recDelete f desired managedVIP cmap r.1 r.2

structure ApplyResult where
  result : Except String Unit
  kernel : KernelState
  calls : List MutationCall
  deriving Repr

/-- `Reconciler.Apply`: expand the declarative config, enumerate the
current kernel services, then reconcile. -/
def Apply (f : Faults) (services : List ConfigService) (vip : String)
    (k : KernelState) : ApplyResult :=
  match expandConfig services vip with
  | .error e => ⟨.error e, k, []⟩
  | .ok desired =>
    match mgrGetServices f k with
    | .error e => ⟨.error ("failed to get current IPVS services: " ++ e), k, []⟩
    | .ok current =>
      let r := reconcile f desired current vip k
      ⟨.ok (), r.1, r.2⟩

/-! ## Claim C5 — Apply's result value -/

/-- C5: `Reconciler.Apply` returns an error exactly when a systemic step
fails — the VIP fails to parse during expansion, or the initial enumeration
of current kernel services fails.  The fault model `f` injects arbitrary
per-service read failures and per-call mutation failures; none of them
(nor the inherent "destination not found" update error) affects the
result, because `reconcile` logs and continues, so Apply still returns
success after a successful enumeration. -/
theorem C5_apply_error_iff_systemic (f : Faults) (services : List ConfigService)
    (vip : String) (k : KernelState) :
    (∃ e, (Apply f services vip k).result = .error e) ↔
      (parseIP vip = none ∨ f.enumFail = true) := by
  unfold Apply expandConfig mgrGetServices
  cases hp : parseIP vip with
  | none => simp
  | some v =>
    cases he : f.enumFail with
    | false => simp
    | true => simp

/-! ## Claim C1 — expansion faithfulness -/

def healthOff : HealthCheck :=
  { enabled := false, type := "tcp", port := 80, intervalMS := 1000,
    timeoutMS := 500, failAfter := 3, recoverAfter := 2 }

def c1svcA : ConfigService :=
  { name := "svc-a", protocol := "tcp", ports := [80], portRanges := [],
    scheduler := "rr", backends := [{ address := "10.0.0.1", port := 0, weight := 1 }],
    health := healthOff }

def c1svcB : ConfigService :=
  { name := "svc-b", protocol := "tcp", ports := [80], portRanges := [],
    scheduler := "wrr", backends := [], health := healthOff }

/-- C1 counterexample: two valid declarative services may share the same
(protocol, port); the expansion map then holds a single recordfor that
key — the later service's — so the claim's "exactly one kernel service
record (V, p, port, s) per port in P with exactly B destinations" fails
for the earlier service `c1svcA` (scheduler "rr", one backend): the whole
expansion of `[c1svcA, c1svcB]` is one record with scheduler "wrr" and no
destinations. -/
theorem C1_counterexample :
    (match expandConfig [c1svcA, c1svcB] "192.0.2.10" with
     | .ok m => m.map (fun e => (e.1, e.2.service.scheduler, e.2.destinations.length))
     | .error _ => []) = [("tcp:192.0.2.10:80", "wrr", 0)] := by
  decide

theorem mem_expandEntries (v : String) (services : List ConfigService)
    (e : String × DesiredState) :
    e ∈ expandEntries v services ↔
      ∃ s ∈ services, ∃ p ∈ servicePorts s, e = expandEntry v s p := by
  unfold expandEntries
  simp only [List.mem_flatMap, List.mem_map]
  constructor
  · rintro ⟨s, hs, p, hp, rfl⟩
    exact ⟨s, hs, p, hp, rfl⟩
  · rintro ⟨s, hs, p, hp, rfl⟩
    exact ⟨s, hs, p, hp, rfl⟩

theorem destinations_expandEntry (v : String) (svc : ConfigService) (p : Nat) :
    (expandEntry v svc p).2.destinations =
      svc.backends.map (fun be =>
        (⟨parseIP be.address,
          if toUInt16 be.port = 0 then p else toUInt16 be.port, be.weight⟩ : IpvsDest)) := by
  unfold expandEntry resolveDests expandBackends
  rw [List.map_map]
  rfl

/-- C1 (amended): for every declarative service in the list and every port
of its flat port list, the expansion holds exactly one kernel service
record `(VIP, protocol, port, scheduler)` under that record's key, carrying
one destination per backend in declared order — destination port is the
backend port when nonzero, else the expansion port; weight is the backend
weight — PROVIDED that any two expansion entries sharing a key are
identical (the counterexample shows the claim fails when two distinct
services collide on (protocol, port)). -/
theorem C1_expansion_faithfulness (services : List ConfigService) (vip v : String)
    (svc : ConfigService) (m : List (String × DesiredState))
    (hparse : parseIP vip = some v)
    (hmem : svc ∈ services)
    (hcoll : ∀ e₁ ∈ expandEntries v services, ∀ e₂ ∈ expandEntries v services,
        e₁.1 = e₂.1 → e₁.2 = e₂.2)
    (hexp : expandConfig services vip = .ok m) :
    (∀ p ∈ servicePorts svc,
      findKV m (svcKey ⟨v, protocolToStr svc.protocol, p, svc.scheduler⟩) =
        some ⟨⟨v, protocolToStr svc.protocol, p, svc.scheduler⟩,
          svc.backends.map (fun be =>
            ⟨parseIP be.address,
             if toUInt16 be.port = 0 then p else toUInt16 be.port, be.weight⟩)⟩) ∧
    (m.map Prod.fst).Nodup ∧
    (∀ K, K ∈ m.map Prod.fst ↔
      ∃ s ∈ services, ∃ p ∈ servicePorts s,
        K = svcKey ⟨v, protocolToStr s.protocol, p, s.scheduler⟩) := by
  have hm : m = insFold (expandEntries v services) [] := by
    have := expandConfig_eq_insFold services vip v hparse
    rw [hexp] at this
    exact Except.ok.inj this
  subst hm
  refine ⟨?_, keys_nodup_insFold _ _ (by simp), ?_⟩
  · intro p hp
    have hent : expandEntry v svc p ∈ expandEntries v services :=
      (mem_expandEntries v services _).2 ⟨svc, hmem, p, hp, rfl⟩
    have h := findKV_insFold_of_all_eq (expandEntries v services) []
      (expandEntry v svc p).1 (expandEntry v svc p).2
      (Or.inr ⟨_, hent, rfl⟩)
      (fun e' he' hk => hcoll e' he' _ hent hk)
    have hkey : (expandEntry v svc p).1 =
        svcKey ⟨v, protocolToStr svc.protocol, p, svc.scheduler⟩ := rfl
    have hval : (expandEntry v svc p).2 =
        ⟨⟨v, protocolToStr svc.protocol, p, svc.scheduler⟩,
          svc.backends.map (fun be =>
            ⟨parseIP be.address,
             if toUInt16 be.port = 0 then p else toUInt16 be.port, be.weight⟩)⟩ := by
      unfold expandEntry resolveDests expandBackends
      rw [List.map_map]
      rfl
    rw [hkey, hval] at h
    exact h
  · intro K
    rw [mem_keys_insFold]
    simp only [List.map_nil, List.not_mem_nil, false_or]
    constructor
    · rintro ⟨e, he, rfl⟩
      obtain ⟨s, hs, p, hp, rfl⟩ := (mem_expandEntries v services e).1 he
      exact ⟨s, hs, p, hp, rfl⟩
    · rintro ⟨s, hs, p, hp, rfl⟩
      exact ⟨expandEntry v s p, (mem_expandEntries v services _).2 ⟨s, hs, p, hp, rfl⟩, rfl⟩

/-- C1 witness: the amended theorem applied to the single-service config
`[c1svcA]` at VIP 192.0.2.10. -/
theorem C1_expansion_faithfulness_witness :
    (parseIP "192.0.2.10" = some "192.0.2.10") ∧
    (c1svcA ∈ [c1svcA]) ∧
    (∀ e₁ ∈ expandEntries "192.0.2.10" [c1svcA],
      ∀ e₂ ∈ expandEntries "192.0.2.10" [c1svcA], e₁.1 = e₂.1 → e₁.2 = e₂.2) ∧
    (expandConfig [c1svcA] "192.0.2.10" =
      .ok ((expandConfig [c1svcA] "192.0.2.10").toOption.getD [])) ∧
    ((∀ p ∈ servicePorts c1svcA,
      findKV ((expandConfig [c1svcA] "192.0.2.10").toOption.getD [])
        (svcKey ⟨"192.0.2.10", protocolToStr c1svcA.protocol, p, c1svcA.scheduler⟩) =
        some ⟨⟨"192.0.2.10", protocolToStr c1svcA.protocol, p, c1svcA.scheduler⟩,
          c1svcA.backends.map (fun be =>
            ⟨parseIP be.address,
             if toUInt16 be.port = 0 then p else toUInt16 be.port, be.weight⟩)⟩) ∧
    (((expandConfig [c1svcA] "192.0.2.10").toOption.getD []).map Prod.fst).Nodup ∧
    (∀ K, K ∈ ((expandConfig [c1svcA] "192.0.2.10").toOption.getD []).map Prod.fst ↔
      ∃ s ∈ [c1svcA], ∃ p ∈ servicePorts s,
        K = svcKey ⟨"192.0.2.10", protocolToStr s.protocol, p, s.scheduler⟩)) :=
  ⟨by decide, by decide, by decide, by rfl,
    C1_expansion_faithfulness [c1svcA] "192.0.2.10" "192.0.2.10" c1svcA
      ((expandConfig [c1svcA] "192.0.2.10").toOption.getD [])
      (by decide) (by decide) (by decide) (by rfl)⟩

/-! ## Map-building helper lemmas shared by the tenancy and idempotence proofs -/

theorem insertKV_append_of_not_mem {α : Type} (m : List (String × α)) (k : String) (v : α)
    (h : k ∉ m.map Prod.fst) : insertKV m k v = m ++ [(k, v)] := by
  induction m with
  | nil => rfl
  | cons p rest ih =>
    obtain ⟨k₀, v₀⟩ := p
    simp only [List.map_cons, List.mem_cons] at h
    push_neg at h
    rw [insertKV_cons_ne _ _ _ _ _ (fun hh => h.1 hh.symm), List.cons_append,
      ih h.2]

theorem insFold_of_disjoint_nodup {α : Type} (l : List (String × α)) :
    ∀ (acc : List (String × α)), (∀ e ∈ l, e.1 ∉ acc.map Prod.fst) →
      (l.map Prod.fst).Nodup → insFold l acc = acc ++ l := by
  induction l with
  | nil => intro acc _ _; simp [insFold]
  | cons e rest ih =>
    intro acc hdis hnd
    simp only [List.map_cons, List.nodup_cons] at hnd
    rw [insFold_cons, insertKV_append_of_not_mem _ _ _ (hdis e (List.mem_cons_self _ _))]
    have : ∀ e' ∈ rest, e'.1 ∉ (acc ++ [(e.1, e.2)]).map Prod.fst := by
      intro e' he'
      simp only [List.map_append, List.mem_append, List.map_cons, List.map_nil,
        List.mem_singleton]
      rintro (h | h)
      · exact hdis e' (List.mem_cons_of_mem _ he') h
      · exact hnd.1 (h ▸ List.mem_map.2 ⟨e', he', rfl⟩)
    rw [ih _ this hnd.2, List.append_assoc]
    rfl

theorem buildSvcMap_eq_insFold (l : List IpvsService) :
    buildSvcMap l = insFold (l.map (fun s => (svcKey s, s))) [] := by
  unfold buildSvcMap insFold
  rw [List.foldl_map]

theorem buildDestMap_eq_insFold (l : List IpvsDest) :
    buildDestMap l = insFold (l.map (fun d => (destKey d, d))) [] := by
  unfold buildDestMap insFold
  rw [List.foldl_map]

theorem mem_buildSvcMap (l : List IpvsService) :
    ∀ e ∈ buildSvcMap l, e.1 = svcKey e.2 ∧ e.2 ∈ l := by
  rw [buildSvcMap_eq_insFold]
  refine insFold_pred _ _ _ (by simp) ?_
  intro e he
  obtain ⟨s, hs, rfl⟩ := List.mem_map.1 he
  exact ⟨rfl, hs⟩

theorem mem_buildDestMap (l : List IpvsDest) :
    ∀ e ∈ buildDestMap l, e.1 = destKey e.2 ∧ e.2 ∈ l := by
  rw [buildDestMap_eq_insFold]
  refine insFold_pred _ _ _ (by simp) ?_
  intro e he
  obtain ⟨s, hs, rfl⟩ := List.mem_map.1 he
  exact ⟨rfl, hs⟩

/-- Rebuilding the service map from the enumerated values of a well-keyed,
duplicate-free kernel table reproduces the table itself. -/
theorem map_eq_self_of_forall {α : Type} (l : List α) (f : α → α)
    (h : ∀ x ∈ l, f x = x) : l.map f = l := by
  induction l with
  | nil => rfl
  | cons x rest ih =>
    rw [List.map_cons, h x (List.mem_cons_self _ _),
      ih (fun y hy => h y (List.mem_cons_of_mem _ hy))]

theorem buildSvcMap_values (m : List (String × IpvsService))
    (hkeys : ∀ e ∈ m, e.1 = svcKey e.2) (hnd : (m.map Prod.fst).Nodup) :
    buildSvcMap (m.map Prod.snd) = m := by
  rw [buildSvcMap_eq_insFold, List.map_map]
  have hmap : m.map ((fun s => (svcKey s, s)) ∘ Prod.snd) = m := by
    refine map_eq_self_of_forall _ _ ?_
    intro e he
    have h := (hkeys e he).symm
    calc ((fun s => (svcKey s, s)) ∘ Prod.snd) e = (svcKey e.2, e.2) := rfl
    _ = (e.1, e.2) := by rw [h]
    _ = e := rfl
  rw [hmap, insFold_of_disjoint_nodup _ _ (by simp) hnd, List.nil_append]

/-! ## Frame lemmas: every manager mutation touches only its own key -/

theorem mgrCreateService_dests (f : Faults) (k : KernelState) (svc : IpvsService) :
    (mgrCreateService f k svc).2.dests = k.dests := by
  unfold mgrCreateService
  split <;> rfl

theorem mgrCreateService_services_ne (f : Faults) (k : KernelState) (svc : IpvsService)
    (K : String) (h : K ≠ svcKey svc) :
    findKV (mgrCreateService f k svc).2.services K = findKV k.services K := by
  unfold mgrCreateService
  split
  · rfl
  · exact findKV_insertKV_ne _ _ _ _ (Ne.symm h)

theorem mgrUpdateService_dests (f : Faults) (k : KernelState) (svc : IpvsService) :
    (mgrUpdateService f k svc).2.dests = k.dests := by
  unfold mgrUpdateService
  split <;> rfl

theorem mgrUpdateService_services_ne (f : Faults) (k : KernelState) (svc : IpvsService)
    (K : String) (h : K ≠ svcKey svc) :
    findKV (mgrUpdateService f k svc).2.services K = findKV k.services K := by
  unfold mgrUpdateService
  split
  · rfl
  · exact findKV_insertKV_ne _ _ _ _ (Ne.symm h)

theorem mgrDeleteService_services_ne (f : Faults) (k : KernelState) (svc : IpvsService)
    (K : String) (h : K ≠ svcKey svc) :
    findKV (mgrDeleteService f k svc).2.services K = findKV k.services K := by
  unfold mgrDeleteService
  split
  · rfl
  · exact findKV_eraseKV_ne _ _ _ (Ne.symm h)

theorem mgrDeleteService_destsOf_ne (f : Faults) (k : KernelState) (svc : IpvsService)
    (K : String) (h : K ≠ svcKey svc) :
    destsOf (mgrDeleteService f k svc).2 K = destsOf k K := by
  unfold mgrDeleteService destsOf
  split
  · rfl
  · simp only []
    rw [findKV_eraseKV_ne _ _ _ (Ne.symm h)]

theorem mgrCreateDestination_services (f : Faults) (k : KernelState) (svc : IpvsService)
    (d : IpvsDest) : (mgrCreateDestination f k svc d).2.services = k.services := by
  unfold mgrCreateDestination
  split <;> rfl

theorem mgrCreateDestination_destsOf_ne (f : Faults) (k : KernelState) (svc : IpvsService)
    (d : IpvsDest) (K : String) (h : K ≠ svcKey svc) :
    destsOf (mgrCreateDestination f k svc d).2 K = destsOf k K := by
  unfold mgrCreateDestination destsOf
  split
  · rfl
  · simp only []
    rw [findKV_insertKV_ne _ _ _ _ (Ne.symm h)]

theorem mgrUpdateDestination_services (f : Faults) (k : KernelState) (svc : IpvsService)
    (d : IpvsDest) : (mgrUpdateDestination f k svc d).2.services = k.services := by
  unfold mgrUpdateDestination
  split
  · rfl
  · split <;> rfl

theorem mgrUpdateDestination_destsOf_ne (f : Faults) (k : KernelState) (svc : IpvsService)
    (d : IpvsDest) (K : String) (h : K ≠ svcKey svc) :
    destsOf (mgrUpdateDestination f k svc d).2 K = destsOf k K := by
  unfold mgrUpdateDestination destsOf
  split
  · rfl
  · split
    · simp only []
      rw [findKV_insertKV_ne _ _ _ _ (Ne.symm h)]
    · rfl

theorem mgrDeleteDestination_services (f : Faults) (k : KernelState) (svc : IpvsService)
    (d : IpvsDest) : (mgrDeleteDestination f k svc d).2.services = k.services := by
  unfold mgrDeleteDestination
  split <;> rfl

theorem mgrDeleteDestination_destsOf_ne (f : Faults) (k : KernelState) (svc : IpvsService)
    (d : IpvsDest) (K : String) (h : K ≠ svcKey svc) :
    destsOf (mgrDeleteDestination f k svc d).2 K = destsOf k K := by
  unfold mgrDeleteDestination destsOf
  split
  · rfl
  · simp only []
    rw [findKV_insertKV_ne _ _ _ _ (Ne.symm h)]

/-- Frame and trace facts for the create/update destination loop: the
service table is untouched, destination lists of other keys are untouched,
and every new call names `svc`. -/
theorem rdLoop1_spec (f : Faults) (svc : IpvsService) :
    ∀ (desired : List IpvsDest) (cmap : List (String × IpvsDest)) (k : KernelState)
      (calls : List MutationCall),
      ((rdLoop1 f svc desired cmap k calls).2.2.1.services = k.services) ∧
      (∀ K, K ≠ svcKey svc →
        destsOf (rdLoop1 f svc desired cmap k calls).2.2.1 K = destsOf k K) ∧
      (∀ c ∈ (rdLoop1 f svc desired cmap k calls).2.2.2, c ∈ calls ∨ c.svcOf = svc) := by
  intro desired
  induction desired with
  | nil => exact fun cmap k calls => ⟨rfl, fun _ _ => rfl, fun c hc => Or.inl hc⟩
  | cons d rest ih =>
    intro cmap k calls
    rw [rdLoop1]
    cases hf : findKV cmap (destKey d) with
    | none =>
      simp only []
      cases hr : (mgrCreateDestination f k svc d).1 with
      | error e =>
        simp only []
        refine ⟨mgrCreateDestination_services .., ?_, ?_⟩
        · exact fun K hK => mgrCreateDestination_destsOf_ne f k svc d K hK
        · intro c hc
          rcases List.mem_append.1 hc with h | h
          · exact Or.inl h
          · exact Or.inr (by simpa using congrArg MutationCall.svcOf (List.mem_singleton.1 h))
      | ok u =>
        simp only []
        obtain ⟨ihs, ihd, ihc⟩ := ih cmap (mgrCreateDestination f k svc d).2
          (calls ++ [.createDestination svc d])
        refine ⟨ihs.trans (mgrCreateDestination_services ..), ?_, ?_⟩
        · exact fun K hK => (ihd K hK).trans (mgrCreateDestination_destsOf_ne f k svc d K hK)
        · intro c hc
          rcases ihc c hc with h | h
          · rcases List.mem_append.1 h with h' | h'
            · exact Or.inl h'
            · exact Or.inr (by simpa using congrArg MutationCall.svcOf (List.mem_singleton.1 h'))
          · exact Or.inr h
    | some curr =>
      simp only []
      by_cases hw : curr.weight ≠ d.weight
      · rw [if_pos hw]
        cases hr : (mgrUpdateDestination f k svc { curr with weight := d.weight }).1 with
        | error e =>
          simp only []
          refine ⟨mgrUpdateDestination_services .., ?_, ?_⟩
          · exact fun K hK => mgrUpdateDestination_destsOf_ne f k svc _ K hK
          · intro c hc
            rcases List.mem_append.1 hc with h | h
            · exact Or.inl h
            · exact Or.inr (by simpa using congrArg MutationCall.svcOf (List.mem_singleton.1 h))
        | ok u =>
          simp only []
          obtain ⟨ihs, ihd, ihc⟩ := ih (insertKV cmap (destKey d) { curr with weight := d.weight })
            (mgrUpdateDestination f k svc { curr with weight := d.weight }).2
            (calls ++ [.updateDestination svc { curr with weight := d.weight }])
          refine ⟨ihs.trans (mgrUpdateDestination_services ..), ?_, ?_⟩
          · exact fun K hK => (ihd K hK).trans (mgrUpdateDestination_destsOf_ne f k svc _ K hK)
          · intro c hc
            rcases ihc c hc with h | h
            · rcases List.mem_append.1 h with h' | h'
              · exact Or.inl h'
              · exact Or.inr (by simpa using congrArg MutationCall.svcOf (List.mem_singleton.1 h'))
            · exact Or.inr h
      · rw [if_neg hw]
        exact ih cmap k calls

/-- Frame and trace facts for the destination delete loop. -/
theorem rdLoop2_spec (f : Faults) (svc : IpvsService) (desired : List IpvsDest) :
    ∀ (cmap : List (String × IpvsDest)) (k : KernelState) (calls : List MutationCall),
      ((rdLoop2 f svc desired cmap k calls).2.1.services = k.services) ∧
      (∀ K, K ≠ svcKey svc →
        destsOf (rdLoop2 f svc desired cmap k calls).2.1 K = destsOf k K) ∧
      (∀ c ∈ (rdLoop2 f svc desired cmap k calls).2.2, c ∈ calls ∨ c.svcOf = svc) := by
  intro cmap
  induction cmap with
  | nil => exact fun k calls => ⟨rfl, fun _ _ => rfl, fun c hc => Or.inl hc⟩
  | cons e rest ih =>
    intro k calls
    obtain ⟨key, dest⟩ := e
    rw [rdLoop2]
    by_cases hany : desired.any (fun d => destKey d = key)
    · rw [if_pos hany]
      exact ih k calls
    · rw [if_neg hany]
      cases hr : (mgrDeleteDestination f k svc dest).1 with
      | error e' =>
        simp only [hr]
        refine ⟨mgrDeleteDestination_services .., ?_, ?_⟩
        · exact fun K hK => mgrDeleteDestination_destsOf_ne f k svc _ K hK
        · intro c hc
          rcases List.mem_append.1 hc with h | h
          · exact Or.inl h
          · exact Or.inr (by simpa using congrArg MutationCall.svcOf (List.mem_singleton.1 h))
      | ok u =>
        simp only [hr]
        obtain ⟨ihs, ihd, ihc⟩ := ih (mgrDeleteDestination f k svc dest).2
          (calls ++ [.deleteDestination svc dest])
        refine ⟨ihs.trans (mgrDeleteDestination_services ..), ?_, ?_⟩
        · exact fun K hK => (ihd K hK).trans (mgrDeleteDestination_destsOf_ne f k svc _ K hK)
        · intro c hc
          rcases ihc c hc with h | h
          · rcases List.mem_append.1 h with h' | h'
            · exact Or.inl h'
            · exact Or.inr (by simpa using congrArg MutationCall.svcOf (List.mem_singleton.1 h'))
          · exact Or.inr h

/-- Frame and trace facts for `reconcileDestinations`. -/
theorem reconcileDestinations_spec (f : Faults) (svc : IpvsService)
    (desired current : List IpvsDest) (k : KernelState) :
    ((reconcileDestinations f svc desired current k).2.1.services = k.services) ∧
    (∀ K, K ≠ svcKey svc →
      destsOf (reconcileDestinations f svc desired current k).2.1 K = destsOf k K) ∧
    (∀ c ∈ (reconcileDestinations f svc desired current k).2.2, c.svcOf = svc) := by
  unfold reconcileDestinations
  obtain ⟨h1s, h1d, h1c⟩ := rdLoop1_spec f svc desired (buildDestMap current) k []
  cases hr : (rdLoop1 f svc desired (buildDestMap current) k []).1 with
  | error e =>
    simp only [hr]
    refine ⟨h1s, h1d, ?_⟩
    intro c hc
    rcases h1c c hc with h | h
    · simp at h
    · exact h
  | ok u =>
    simp only [hr]
    obtain ⟨h2s, h2d, h2c⟩ := rdLoop2_spec f svc desired
      (rdLoop1 f svc desired (buildDestMap current) k []).2.1
      (rdLoop1 f svc desired (buildDestMap current) k []).2.2.1
      (rdLoop1 f svc desired (buildDestMap current) k []).2.2.2
    refine ⟨h2s.trans h1s, fun K hK => (h2d K hK).trans (h1d K hK), ?_⟩
    intro c hc
    rcases h2c c hc with h | h
    · rcases h1c c h with h' | h'
      · simp at h'
      · exact h'
    · exact h

theorem destsOf_congr (k k' : KernelState) (K : String) (h : k'.dests = k.dests) :
    destsOf k' K = destsOf k K := by
  unfold destsOf
  rw [h]

/-- Frame and trace facts for the exists-branch destination handling. -/
theorem recDests_spec (f : Faults) (st : DesiredState) (svc' : IpvsService)
    (k1 : KernelState) (calls1 : List MutationCall) :
    ((recDests f st svc' k1 calls1).1.services = k1.services) ∧
    (∀ K, K ≠ svcKey svc' → destsOf (recDests f st svc' k1 calls1).1 K = destsOf k1 K) ∧
    (∀ c ∈ (recDests f st svc' k1 calls1).2, c ∈ calls1 ∨ c.svcOf = svc') := by
  unfold recDests
  cases hg : mgrGetDestinations f k1 (svcKey svc') with
  | error e =>
    exact ⟨rfl, fun _ _ => rfl, fun c hc => Or.inl hc⟩
  | ok currDests =>
    simp only [hg]
    obtain ⟨hs, hd, hc⟩ := reconcileDestinations_spec f svc' st.destinations currDests k1
    refine ⟨hs, hd, ?_⟩
    intro c hcc
    rcases List.mem_append.1 hcc with h | h
    · exact Or.inl h
    · exact Or.inr (hc c h)

/-- Frame and trace facts for one add/update step: only the entry's own key
is touched, and every emitted call names the desired record, the matching
current record, or the current record with the desired scheduler. -/
theorem recAddStep_spec (f : Faults) (cmap : List (String × IpvsService))
    (k : KernelState) (entry : String × DesiredState)
    (hekey : entry.1 = svcKey entry.2.service)
    (hcm : ∀ e ∈ cmap, e.1 = svcKey e.2) :
    (∀ K, K ≠ entry.1 →
      findKV (recAddStep f cmap k entry).1.services K = findKV k.services K ∧
      destsOf (recAddStep f cmap k entry).1 K = destsOf k K) ∧
    (∀ c ∈ (recAddStep f cmap k entry).2,
      c.svcOf = entry.2.service ∨
      ∃ cs, findKV cmap entry.1 = some cs ∧
        (c.svcOf = cs ∨ c.svcOf = { cs with scheduler := entry.2.service.scheduler })) := by
  unfold recAddStep
  cases hf : findKV cmap entry.1 with
  | none =>
    simp only [hf]
    cases hr : (mgrCreateService f k entry.2.service).1 with
    | error e =>
      simp only [hr]
      constructor
      · intro K hK
        have hK' : K ≠ svcKey entry.2.service := hekey ▸ hK
        exact ⟨mgrCreateService_services_ne f k _ K hK',
          destsOf_congr _ _ _ (mgrCreateService_dests ..)⟩
      · intro c hc
        rw [List.mem_singleton.1 hc]
        exact Or.inl rfl
    | ok u =>
      simp only [hr]
      obtain ⟨hs, hd, hc⟩ := reconcileDestinations_spec f entry.2.service
        entry.2.destinations [] (mgrCreateService f k entry.2.service).2
      constructor
      · intro K hK
        have hK' : K ≠ svcKey entry.2.service := hekey ▸ hK
        constructor
        · rw [congrArg (fun s => findKV s K) hs]
          exact mgrCreateService_services_ne f k _ K hK'
        · exact (hd K hK').trans (destsOf_congr _ _ _ (mgrCreateService_dests ..))
      · intro c hcc
        rcases List.mem_cons.1 hcc with h | h
        · rw [h]
          exact Or.inl rfl
        · exact Or.inl (hc c h)
  | some cs =>
    simp only [hf]
    have hcs : entry.1 = svcKey cs := by
      have hmem := mem_of_findKV_eq_some _ _ _ hf
      exact hcm _ hmem
    by_cases hsch : cs.scheduler ≠ entry.2.service.scheduler
    · rw [if_pos hsch]
      have hupdkey : svcKey { cs with scheduler := entry.2.service.scheduler } = svcKey cs := rfl
      obtain ⟨hs, hd, hc⟩ := recDests_spec f entry.2
        { cs with scheduler := entry.2.service.scheduler }
        (mgrUpdateService f k { cs with scheduler := entry.2.service.scheduler }).2
        [.updateService { cs with scheduler := entry.2.service.scheduler }]
      constructor
      · intro K hK
        have hK' : K ≠ svcKey { cs with scheduler := entry.2.service.scheduler } := by
          rw [hupdkey, ← hcs]
          exact hK
        constructor
        · rw [congrArg (fun s => findKV s K) hs]
          exact mgrUpdateService_services_ne f k _ K hK'
        · exact (hd K hK').trans (destsOf_congr _ _ _ (mgrUpdateService_dests ..))
      · intro c hcc
        rcases hc c hcc with h | h
        · rw [List.mem_singleton.1 h]
          exact Or.inr ⟨cs, rfl, Or.inr rfl⟩
        · exact Or.inr ⟨cs, rfl, Or.inr h⟩
    · rw [if_neg hsch]
      obtain ⟨hs, hd, hc⟩ := recDests_spec f entry.2 cs k []
      constructor
      · intro K hK
        have hK' : K ≠ svcKey cs := hcs ▸ hK
        exact ⟨congrArg (fun s => findKV s K) hs, hd K hK'⟩
      · intro c hcc
        rcases hc c hcc with h | h
        · simp at h
        · exact Or.inr ⟨cs, rfl, Or.inl h⟩

/-- Frame and trace facts for the whole add/update pass. -/
theorem recAdd_spec (f : Faults) (cmap : List (String × IpvsService))
    (hcm : ∀ e ∈ cmap, e.1 = svcKey e.2) :
    ∀ (desired : List (String × DesiredState)) (k : KernelState) (calls : List MutationCall),
      (∀ e ∈ desired, e.1 = svcKey e.2.service) →
      (∀ K, (∀ e ∈ desired, e.1 ≠ K) →
        findKV (recAdd f cmap desired k calls).1.services K = findKV k.services K ∧
        destsOf (recAdd f cmap desired k calls).1 K = destsOf k K) ∧
      (∀ c ∈ (recAdd f cmap desired k calls).2, c ∈ calls ∨
        ∃ entry ∈ desired,
          c.svcOf = entry.2.service ∨
          ∃ cs, findKV cmap entry.1 = some cs ∧
            (c.svcOf = cs ∨ c.svcOf = { cs with scheduler := entry.2.service.scheduler })) := by
  intro desired
  induction desired with
  | nil =>
    intro k calls _
    exact ⟨fun K _ => ⟨rfl, rfl⟩, fun c hc => Or.inl hc⟩
  | cons entry rest ih =>
    intro k calls hdes
    rw [recAdd]
    obtain ⟨hstepA, hstepC⟩ := recAddStep_spec f cmap k entry
      (hdes entry (List.mem_cons_self _ _)) hcm
    obtain ⟨ihA, ihC⟩ := ih (recAddStep f cmap k entry).1
      (calls ++ (recAddStep f cmap k entry).2)
      (fun e he => hdes e (List.mem_cons_of_mem _ he))
    constructor
    · intro K hK
      have h1 := hstepA K (Ne.symm (hK entry (List.mem_cons_self _ _)))
      have h2 := ihA K (fun e he => hK e (List.mem_cons_of_mem _ he))
      exact ⟨h2.1.trans h1.1, h2.2.trans h1.2⟩
    · intro c hc
      rcases ihC c hc with h | h
      · rcases List.mem_append.1 h with h' | h'
        · exact Or.inl h'
        · exact Or.inr ⟨entry, List.mem_cons_self _ _, hstepC c h'⟩
      · obtain ⟨e, he, hprop⟩ := h
        exact Or.inr ⟨e, List.mem_cons_of_mem _ he, hprop⟩

/-- Frame and trace facts for the delete pass: it deletes only services at
the managed VIP, and leaves every key untouched whose map entries are not
at the managed VIP. -/
theorem recDelete_spec (f : Faults) (desired : List (String × DesiredState)) (vip : String) :
    ∀ (cmap : List (String × IpvsService)) (k : KernelState) (calls : List MutationCall),
      (∀ e ∈ cmap, e.1 = svcKey e.2) →
      (∀ K, (∀ e ∈ cmap, e.1 = K → ¬(e.2.address = vip)) →
        findKV (recDelete f desired vip cmap k calls).1.services K = findKV k.services K ∧
        destsOf (recDelete f desired vip cmap k calls).1 K = destsOf k K) ∧
      (∀ c ∈ (recDelete f desired vip cmap k calls).2, c ∈ calls ∨
        ∃ e ∈ cmap, c = .deleteService e.2 ∧ e.2.address = vip) := by
  intro cmap
  induction cmap with
  | nil =>
    intro k calls _
    exact ⟨fun K _ => ⟨rfl, rfl⟩, fun c hc => Or.inl hc⟩
  | cons e rest ih =>
    intro k calls hcm
    obtain ⟨key, svc⟩ := e
    have hkey : key = svcKey svc := hcm _ (List.mem_cons_self _ _)
    rw [recDelete]
    by_cases haddr : svc.address ≠ vip
    · rw [if_pos haddr]
      obtain ⟨ihA, ihC⟩ := ih k calls (fun e' he' => hcm e' (List.mem_cons_of_mem _ he'))
      constructor
      · intro K hK
        exact ihA K (fun e' he' => hK e' (List.mem_cons_of_mem _ he'))
      · intro c hc
        rcases ihC c hc with h | h
        · exact Or.inl h
        · obtain ⟨e', he', hprop⟩ := h
          exact Or.inr ⟨e', List.mem_cons_of_mem _ he', hprop⟩
    · rw [if_neg haddr]
      push_neg at haddr
      cases hfd : findKV desired key with
      | some st =>
        simp only [hfd]
        obtain ⟨ihA, ihC⟩ := ih k calls (fun e' he' => hcm e' (List.mem_cons_of_mem _ he'))
        constructor
        · intro K hK
          exact ihA K (fun e' he' => hK e' (List.mem_cons_of_mem _ he'))
        · intro c hc
          rcases ihC c hc with h | h
          · exact Or.inl h
          · obtain ⟨e', he', hprop⟩ := h
            exact Or.inr ⟨e', List.mem_cons_of_mem _ he', hprop⟩
      | none =>
        simp only [hfd]
        obtain ⟨ihA, ihC⟩ := ih (mgrDeleteService f k svc).2
          (calls ++ [.deleteService svc])
          (fun e' he' => hcm e' (List.mem_cons_of_mem _ he'))
        constructor
        · intro K hK
          have hKne : K ≠ svcKey svc := by
            intro hh
            exact hK (key, svc) (List.mem_cons_self _ _) (by rw [hkey, hh]) haddr
          have h2 := ihA K (fun e' he' => hK e' (List.mem_cons_of_mem _ he'))
          exact ⟨h2.1.trans (mgrDeleteService_services_ne f k svc K hKne),
            h2.2.trans (mgrDeleteService_destsOf_ne f k svc K hKne)⟩
        · intro c hc
          rcases ihC c hc with h | h
          · rcases List.mem_append.1 h with h' | h'
            · exact Or.inl h'
            · exact Or.inr ⟨(key, svc), List.mem_cons_self _ _,
                List.mem_singleton.1 h', haddr⟩
          · obtain ⟨e', he', hprop⟩ := h
            exact Or.inr ⟨e', List.mem_cons_of_mem _ he', hprop⟩

/-! ## Claim C3 — tenancy -/

/-- Every entry emitted by the expansion is keyed by its own record's key,
carries the parsed VIP as address, and has protocol "tcp" or "udp". -/
theorem expand_desired_wf (v : String) (services : List ConfigService) :
    ∀ e ∈ insFold (expandEntries v services) [],
      e.1 = svcKey e.2.service ∧ e.2.service.address = v ∧
      (e.2.service.protocol = "tcp" ∨ e.2.service.protocol = "udp") := by
  refine insFold_pred _ _ _ (by simp) ?_
  intro e he
  obtain ⟨s, hs, p, hp, rfl⟩ := (mem_expandEntries v services e).1 he
  refine ⟨rfl, rfl, ?_⟩
  show protocolToStr s.protocol = "tcp" ∨ protocolToStr s.protocol = "udp"
  unfold protocolToStr
  by_cases h : trimLower s.protocol = "udp"
  · rw [if_pos h]
    exact Or.inr rfl
  · rw [if_neg h]
    exact Or.inl rfl

/-- A desired entry's key can never equal the key of a kernel service at a
different address, because the key string determines the address. -/
theorem desired_key_ne_foreign (vip : String) (e : String × DesiredState)
    (hwf : e.1 = svcKey e.2.service ∧ e.2.service.address = vip ∧
      (e.2.service.protocol = "tcp" ∨ e.2.service.protocol = "udp"))
    (svcF : IpvsService) (hpF : ':' ∉ svcF.protocol.data)
    (haddrF : svcF.address ≠ vip) : e.1 ≠ svcKey svcF := by
  obtain ⟨hkey, haddr, hpr⟩ := hwf
  intro heq
  have heq' : svcKey svcF =
      e.2.service.protocol ++ ":" ++ vip ++ ":" ++ natDec e.2.service.port := by
    rw [← heq, hkey]
    unfold svcKey
    rw [haddr]
  have hpD : ':' ∉ e.2.service.protocol.data := by
    rcases hpr with h | h <;> rw [h] <;> decide
  have := svcKey_fixes_address svcF e.2.service.protocol vip e.2.service.port hpF hpD heq'
  exact haddrF this.1

/-- Tenancy of one reconcile pass (see `C3_tenancy`): every emitted call
names a service at the managed VIP, and the table entries of every other
address survive unchanged. -/
theorem reconcile_tenancy (f : Faults) (desired : List (String × DesiredState))
    (vip : String) (k : KernelState)
    (hdes : ∀ e ∈ desired, e.1 = svcKey e.2.service ∧ e.2.service.address = vip ∧
      (e.2.service.protocol = "tcp" ∨ e.2.service.protocol = "udp"))
    (hkeys : ∀ e ∈ k.services, e.1 = svcKey e.2)
    (hnd : (k.services.map Prod.fst).Nodup)
    (hproto : ∀ e ∈ k.services, ':' ∉ e.2.protocol.data) :
    (∀ c ∈ (reconcile f desired (k.services.map Prod.snd) vip k).2,
      c.svcOf.address = vip) ∧
    (∀ e ∈ k.services, e.2.address ≠ vip →
      findKV (reconcile f desired (k.services.map Prod.snd) vip k).1.services e.1 = some e.2 ∧
      destsOf (reconcile f desired (k.services.map Prod.snd) vip k).1 e.1 = destsOf k e.1) := by
  have hbm : buildSvcMap (k.services.map Prod.snd) = k.services :=
    buildSvcMap_values k.services hkeys hnd
  unfold reconcile
  rw [hbm]
  obtain ⟨haddA, hcallA⟩ := recAdd_spec f k.services hkeys desired k []
    (fun e he => (hdes e he).1)
  obtain ⟨haddD, hcallD⟩ := recDelete_spec f desired vip k.services
    (recAdd f k.services desired k []).1 (recAdd f k.services desired k []).2 hkeys
  constructor
  · intro c hc
    rcases hcallD c hc with h | h
    · rcases hcallA c h with h' | h'
      · simp at h'
      · obtain ⟨entry, hent, hprop⟩ := h'
        obtain ⟨hkey, haddr, hpr⟩ := hdes entry hent
        rcases hprop with h'' | ⟨cs, hcs, h''⟩
        · rw [h'', haddr]
        · have hmem := mem_of_findKV_eq_some _ _ _ hcs
          have hcsk : entry.1 = svcKey cs := hkeys _ hmem
          have hpF : ':' ∉ cs.protocol.data := hproto _ hmem
          have heq' : svcKey cs =
              entry.2.service.protocol ++ ":" ++ vip ++ ":" ++ natDec entry.2.service.port := by
            rw [← hcsk, hkey]
            unfold svcKey
            rw [haddr]
          have hpD : ':' ∉ entry.2.service.protocol.data := by
            rcases hpr with hh | hh <;> rw [hh] <;> decide
          have hfix := svcKey_fixes_address cs entry.2.service.protocol vip
            entry.2.service.port hpF hpD heq'
          rcases h'' with h'' | h'' <;> rw [h'']
          · exact hfix.1
          · exact hfix.1
    · obtain ⟨e, _, hdel, haddr⟩ := h
      rw [hdel]
      exact haddr
  · intro e he haddrF
    obtain ⟨keyF, svcF⟩ := e
    have hkeyF : keyF = svcKey svcF := hkeys _ he
    have hne : ∀ entry ∈ desired, entry.1 ≠ keyF := by
      intro entry hent
      rw [hkeyF]
      exact desired_key_ne_foreign vip entry (hdes entry hent) svcF (hproto _ he) haddrF
    have hA := haddA keyF hne
    have hD := haddD keyF ?hguard
    case hguard =>
      intro e' he' hke'
      obtain ⟨k1', v1'⟩ := e'
      have hf1 : findKV k.services keyF = some svcF := findKV_eq_of_mem _ _ _ he hnd
      have hf2 : findKV k.services k1' = some v1' := findKV_eq_of_mem _ _ _ he' hnd
      have hke'' : k1' = keyF := hke'
      rw [hke''] at hf2
      rw [hf1] at hf2
      have : v1' = svcF := (Option.some.injEq .. ▸ hf2).symm
      rw [this]
      exact haddrF
    exact ⟨hD.1.trans (hA.1.trans (findKV_eq_of_mem _ _ _ he hnd)),
      hD.2.trans hA.2⟩

/-- C3: over any observed kernel state and any fault pattern, Apply never
creates, updates, or deletes a kernel service whose address differs from
the managed VIP, and the kernel table entries at other addresses — the
service record and its destination list — are untouched by the pass.
Hypotheses: the VIP is a canonical IPv4 literal; the observed kernel table
is keyed by `Service.Key()` with duplicate-free keys (a kernel invariant);
kernel protocol strings are colon-free (they are "tcp"/"udp"). -/
theorem C3_tenancy (f : Faults) (services : List ConfigService) (vip : String)
    (k : KernelState)
    (hparse : parseIP vip = some vip)
    (hkeys : ∀ e ∈ k.services, e.1 = svcKey e.2)
    (hnd : (k.services.map Prod.fst).Nodup)
    (hproto : ∀ e ∈ k.services, ':' ∉ e.2.protocol.data) :
    (∀ c ∈ (Apply f services vip k).calls, c.svcOf.address = vip) ∧
    (∀ e ∈ k.services, e.2.address ≠ vip →
      findKV (Apply f services vip k).kernel.services e.1 = some e.2 ∧
      destsOf (Apply f services vip k).kernel e.1 = destsOf k e.1) := by
  have hexp := expandConfig_eq_insFold services vip vip hparse
  unfold Apply
  rw [hexp]
  unfold mgrGetServices
  cases he : f.enumFail with
  | true =>
    simp only [he, if_true]
    refine ⟨fun c hc => absurd hc (List.not_mem_nil c), ?_⟩
    intro e hemem _
    exact ⟨findKV_eq_of_mem _ _ _ hemem hnd, trivial⟩
  | false =>
    simp only [he, if_false]
    exact reconcile_tenancy f (insFold (expandEntries vip services) []) vip k
      (expand_desired_wf vip services) hkeys hnd hproto

/-! ## Claim C2 — idempotence groundwork: destination-list reasoning -/

/-- First destination with the given key (the set-semantics view of a
kernel destination list). -/
def findDest : List IpvsDest → String → Option IpvsDest
  | [], _ => none
  | c :: rest, K => if destKey c = K then some c else findDest rest K

def dkeys (l : List IpvsDest) : List String := l.map destKey

theorem findDest_cons (c : IpvsDest) (rest : List IpvsDest) (K : String) :
    findDest (c :: rest) K = if destKey c = K then some c else findDest rest K := rfl

theorem findDest_append (l₁ l₂ : List IpvsDest) (K : String) :
    findDest (l₁ ++ l₂) K =
      match findDest l₁ K with
      | some c => some c
      | none => findDest l₂ K := by
  induction l₁ with
  | nil => rfl
  | cons c rest ih =>
    by_cases h : destKey c = K
    · simp [findDest_cons, h]
    · simp only [List.cons_append, findDest_cons, h, if_false]
      exact ih

theorem findDest_mem (l : List IpvsDest) (K : String) (c : IpvsDest)
    (h : findDest l K = some c) : c ∈ l ∧ destKey c = K := by
  induction l with
  | nil => simp [findDest] at h
  | cons c0 rest ih =>
    rw [findDest_cons] at h
    by_cases h0 : destKey c0 = K
    · rw [if_pos h0] at h
      cases h
      exact ⟨List.mem_cons_self _ _, h0⟩
    · rw [if_neg h0] at h
      obtain ⟨hm, hk⟩ := ih h
      exact ⟨List.mem_cons_of_mem _ hm, hk⟩

theorem findDest_isSome_of_mem (l : List IpvsDest) (c : IpvsDest) (h : c ∈ l) :
    (findDest l (destKey c)).isSome := by
  induction l with
  | nil => simp at h
  | cons c0 rest ih =>
    rw [findDest_cons]
    by_cases h0 : destKey c0 = destKey c
    · simp [h0]
    · rcases List.mem_cons.1 h with hh | hh
      · exact absurd (hh ▸ rfl) h0
      · rw [if_neg h0]
        exact ih hh

theorem findDest_eq_none_iff (l : List IpvsDest) (K : String) :
    findDest l K = none ↔ ∀ c ∈ l, destKey c ≠ K := by
  induction l with
  | nil => simp [findDest]
  | cons c0 rest ih =>
    rw [findDest_cons]
    by_cases h0 : destKey c0 = K
    · simp [h0]
    · simp only [h0, if_false, ih]
      constructor
      · intro h c hc
        rcases List.mem_cons.1 hc with hh | hh
        · exact hh ▸ h0
        · exact h c hh
      · intro h c hc
        exact h c (List.mem_cons_of_mem _ hc)

theorem findKV_map_pair (l : List IpvsDest) (K : String) :
    findKV (l.map (fun d => (destKey d, d))) K = findDest l K := by
  induction l with
  | nil => rfl
  | cons c rest ih =>
    rw [List.map_cons, findKV_cons, findDest_cons]
    by_cases h : destKey c = K
    · simp [h]
    · simp [h, ih]

/-- With duplicate-free destination keys, `buildDestMap` is the literal
pairing of each destination with its key. -/
theorem buildDestMap_nodup (l : List IpvsDest) (h : (dkeys l).Nodup) :
    buildDestMap l = l.map (fun d => (destKey d, d)) := by
  rw [buildDestMap_eq_insFold]
  rw [insFold_of_disjoint_nodup _ _ (by simp) (by simpa [dkeys, List.map_map] using h)]
  rfl

theorem replaceDest_none_iff (l : List IpvsDest) (d : IpvsDest) :
    replaceDest l d = none ↔ findDest l (destKey d) = none := by
  induction l with
  | nil => simp [replaceDest, findDest]
  | cons c0 rest ih =>
    rw [replaceDest, findDest_cons]
    by_cases h0 : destKey c0 = destKey d
    · simp [h0]
    · simp [h0, ih]

/-- Effect of a successful in-place destination replacement: keys are
unchanged, the replaced key now maps to the new record, and every other
key is untouched. -/
theorem replaceDest_spec (l : List IpvsDest) (d : IpvsDest) (l' : List IpvsDest)
    (h : replaceDest l d = some l') :
    dkeys l' = dkeys l ∧ findDest l' (destKey d) = some d ∧
    (∀ K, K ≠ destKey d → findDest l' K = findDest l K) := by
  induction l generalizing l' with
  | nil => simp [replaceDest] at h
  | cons c0 rest ih =>
    rw [replaceDest] at h
    by_cases h0 : destKey c0 = destKey d
    · rw [if_pos h0] at h
      cases h
      refine ⟨by simp [dkeys, h0], by simp [findDest_cons], ?_⟩
      intro K hK
      rw [findDest_cons, findDest_cons, if_neg (fun hh => hK hh.symm),
        if_neg (h0 ▸ fun hh => hK hh.symm)]
    · rw [if_neg h0] at h
      cases hrep : replaceDest rest d with
      | none => rw [hrep] at h; simp at h
      | some rest' =>
        rw [hrep] at h
        have h' : c0 :: rest' = l' := by simpa using h
        subst h'
        obtain ⟨hk, hself, hother⟩ := ih rest' hrep
        refine ⟨by simp [dkeys] at hk ⊢; exact hk, ?_, ?_⟩
        · rw [findDest_cons, if_neg h0, hself]
        · intro K hK
          rw [findDest_cons, findDest_cons]
          by_cases hc : destKey c0 = K
          · rw [if_pos hc, if_pos hc]
          · rw [if_neg hc, if_neg hc, hother K hK]

theorem findDest_filter_ne (l : List IpvsDest) (K0 K : String) :
    findDest (l.filter (fun c => ¬(destKey c = K0))) K =
      if K = K0 then none else findDest l K := by
  induction l with
  | nil => simp [findDest]
  | cons c0 rest ih =>
    by_cases h0 : destKey c0 = K0
    · rw [List.filter_cons_of_neg (by simp [h0]), ih]
      by_cases hK : K = K0
      · rw [if_pos hK, if_pos hK]
      · rw [if_neg hK, if_neg hK, findDest_cons, if_neg (by rw [h0]; exact fun hh => hK hh.symm)]
    · rw [List.filter_cons_of_pos (by simp [h0]), findDest_cons]
      by_cases hc : destKey c0 = K
      · rw [if_pos hc, if_neg (fun hh : K = K0 => h0 (hc.trans hh)), findDest_cons, if_pos hc]
      · rw [if_neg hc, ih]
        by_cases hK : K = K0
        · rw [if_pos hK, if_pos hK]
        · rw [if_neg hK, if_neg hK, findDest_cons, if_neg hc]

theorem dkeys_filter_nodup (l : List IpvsDest) (p : IpvsDest → Bool)
    (h : (dkeys l).Nodup) : (dkeys (l.filter p)).Nodup := by
  unfold dkeys at h ⊢
  exact ((List.filter_sublist l).map destKey).nodup h

/-! No-fault equations for the manager operations. -/

theorem mgrGetServices_noFaults (k : KernelState) :
    mgrGetServices noFaults k = .ok (k.services.map Prod.snd) := rfl

theorem mgrGetDestinations_noFaults (k : KernelState) (key : String) :
    mgrGetDestinations noFaults k key = .ok (destsOf k key) := rfl

theorem mgrCreateService_noFaults (k : KernelState) (svc : IpvsService) :
    mgrCreateService noFaults k svc =
      (.ok (), { k with services := insertKV k.services (svcKey svc) svc }) := rfl

theorem mgrUpdateService_noFaults (k : KernelState) (svc : IpvsService) :
    mgrUpdateService noFaults k svc =
      (.ok (), { k with services := insertKV k.services (svcKey svc) svc }) := rfl

theorem mgrDeleteService_noFaults (k : KernelState) (svc : IpvsService) :
    mgrDeleteService noFaults k svc =
      (.ok (), { k with services := eraseKV k.services (svcKey svc)
                        dests := eraseKV k.dests (svcKey svc) }) := rfl

theorem mgrCreateDestination_noFaults (k : KernelState) (svc : IpvsService) (d : IpvsDest) :
    mgrCreateDestination noFaults k svc d =
      (.ok (), { k with
        dests := insertKV k.dests (svcKey svc) (destsOf k (svcKey svc) ++ [d]) }) := rfl

theorem mgrUpdateDestination_noFaults_some (k : KernelState) (svc : IpvsService)
    (d : IpvsDest) (ds : List IpvsDest)
    (h : replaceDest (destsOf k (svcKey svc)) d = some ds) :
    mgrUpdateDestination noFaults k svc d =
      (.ok (), { k with dests := insertKV k.dests (svcKey svc) ds }) := by
  unfold mgrUpdateDestination
  rw [if_neg (by simp [noFaults])]
  rw [h]

theorem mgrDeleteDestination_noFaults (k : KernelState) (svc : IpvsService) (d : IpvsDest) :
    mgrDeleteDestination noFaults k svc d =
      (.ok (), { k with dests := insertKV k.dests (svcKey svc) ((destsOf k (svcKey svc)).filter (fun d0 => ¬(destKey d0 = destKey d))) }) := rfl

theorem destsOf_insert_self (k : KernelState) (K : String) (ds : List IpvsDest) :
    destsOf { k with dests := insertKV k.dests K ds } K = ds := by
  unfold destsOf
  rw [findKV_insertKV_self]
  rfl

theorem findDest_append_left (l₁ l₂ : List IpvsDest) (K : String) (c : IpvsDest)
    (h : findDest l₁ K = some c) : findDest (l₁ ++ l₂) K = some c := by
  rw [findDest_append, h]

theorem findKV_insertKV_isSome {α : Type} (m : List (String × α)) (k K : String) (v : α)
    (h : (findKV m K).isSome) : (findKV (insertKV m k v) K).isSome := by
  by_cases hk : k = K
  · rw [hk, findKV_insertKV_self]
    rfl
  · rw [findKV_insertKV_ne _ _ _ _ hk]
    exact h

theorem mem_dkeys (l : List IpvsDest) (K : String) :
    K ∈ dkeys l ↔ ∃ c ∈ l, destKey c = K := by
  unfold dkeys
  simp [List.mem_map]

/-- With duplicate-free keys, membership after an overwrite-insert is
membership of the new pair or membership of an entry at a different key. -/
theorem mem_insertKV_nodup {α : Type} (m : List (String × α)) (k : String) (v : α)
    (hnd : (m.map Prod.fst).Nodup) :
    ∀ e ∈ insertKV m k v, e = (k, v) ∨ (e ∈ m ∧ e.1 ≠ k) := by
  induction m with
  | nil =>
    intro e he
    simp only [insertKV, List.mem_singleton] at he
    exact Or.inl he
  | cons q rest ih =>
    obtain ⟨k₀, v₀⟩ := q
    simp only [List.map_cons, List.nodup_cons] at hnd
    intro e he
    by_cases h₀ : k₀ = k
    · rw [h₀, insertKV_cons_self] at he
      rcases List.mem_cons.1 he with hp | hmem
      · exact Or.inl hp
      · refine Or.inr ⟨List.mem_cons_of_mem _ hmem, ?_⟩
        intro hk
        subst h₀
        exact hnd.1 (hk ▸ List.mem_map.2 ⟨e, hmem, rfl⟩)
    · rw [insertKV_cons_ne _ _ _ _ _ h₀] at he
      rcases List.mem_cons.1 he with hp | hmem
      · exact Or.inr ⟨hp ▸ List.mem_cons_self _ _, by rw [hp]; exact h₀⟩
      · rcases ih hnd.2 e hmem with h | ⟨hm, hk⟩
        · exact Or.inl h
        · exact Or.inr ⟨List.mem_cons_of_mem _ hm, hk⟩

/-- Full functional specification of the create/update loop under no
faults: it never errors, keeps destination keys duplicate-free, brings
every desired destination to its desired weight, keeps the map entries in
sync with the kernel list, covers every kernel destination by a map entry,
an exempt key (`P`), or a desired key, and touches no other key. -/
theorem rdLoop1_correct (svc : IpvsService) :
    ∀ (ds : List IpvsDest) (cmap : List (String × IpvsDest)) (k : KernelState)
      (calls : List MutationCall) (P : String → Prop),
      (dkeys (destsOf k (svcKey svc))).Nodup →
      (dkeys ds).Nodup →
      (cmap.map Prod.fst).Nodup →
      (∀ e ∈ cmap, e.1 = destKey e.2) →
      (∀ e ∈ cmap, ∃ c, findDest (destsOf k (svcKey svc)) e.1 = some c ∧
        c.weight = e.2.weight) →
      (∀ c ∈ destsOf k (svcKey svc), (findKV cmap (destKey c)).isSome ∨ P (destKey c)) →
      (∀ d ∈ ds, ¬P (destKey d)) →
      (rdLoop1 noFaults svc ds cmap k calls).1 = .ok () ∧
      (dkeys (destsOf (rdLoop1 noFaults svc ds cmap k calls).2.2.1 (svcKey svc))).Nodup ∧
      (((rdLoop1 noFaults svc ds cmap k calls).2.1.map Prod.fst).Nodup) ∧
      (∀ e ∈ (rdLoop1 noFaults svc ds cmap k calls).2.1, e.1 = destKey e.2) ∧
      (∀ d ∈ ds,
        ∃ c, findDest (destsOf (rdLoop1 noFaults svc ds cmap k calls).2.2.1 (svcKey svc))
          (destKey d) = some c ∧ c.weight = d.weight) ∧
      (∀ c ∈ destsOf (rdLoop1 noFaults svc ds cmap k calls).2.2.1 (svcKey svc),
        (findKV (rdLoop1 noFaults svc ds cmap k calls).2.1 (destKey c)).isSome ∨
        P (destKey c) ∨ ∃ d ∈ ds, destKey d = destKey c) ∧
      (∀ K, K ∉ dkeys ds →
        findDest (destsOf (rdLoop1 noFaults svc ds cmap k calls).2.2.1 (svcKey svc)) K =
          findDest (destsOf k (svcKey svc)) K) ∧
      (∀ K, (findKV cmap K).isSome →
        (findKV (rdLoop1 noFaults svc ds cmap k calls).2.1 K).isSome) := by
  intro ds
  induction ds with
  | nil =>
    intro cmap k calls P hLnd hds hcmnd hcm1 hcm2 hcov hPds
    refine ⟨rfl, hLnd, hcmnd, hcm1, by simp, ?_, fun K _ => rfl, fun K h => h⟩
    intro c hc
    rcases hcov c hc with h | h
    · exact Or.inl h
    · exact Or.inr (Or.inl h)
  | cons d rest ih =>
    intro cmap k calls P hLnd hds hcmnd hcm1 hcm2 hcov hPds
    have hdnotinrest : destKey d ∉ dkeys rest := by
      have h := hds
      unfold dkeys at h
      simp only [List.map_cons, List.nodup_cons] at h
      exact h.1
    have hrestnd : (dkeys rest).Nodup := by
      have h := hds
      unfold dkeys at h ⊢
      simp only [List.map_cons, List.nodup_cons] at h
      exact h.2
    rw [rdLoop1]
    cases hf : findKV cmap (destKey d) with
    | none =>
      have hfresh : destKey d ∉ dkeys (destsOf k (svcKey svc)) := by
        intro hmem
        obtain ⟨c, hc, hck⟩ := (mem_dkeys _ _).1 hmem
        rcases hcov c hc with h | h
        · rw [hck, hf] at h
          simp at h
        · exact hPds d (List.mem_cons_self _ _) (hck ▸ h)
      rw [mgrCreateDestination_noFaults]
      simp only []
      have hLc : destsOf { k with dests := insertKV k.dests (svcKey svc) (destsOf k (svcKey svc) ++ [d]) } (svcKey svc) = destsOf k (svcKey svc) ++ [d] :=
        destsOf_insert_self k (svcKey svc) _
      have hLcnd : (dkeys (destsOf { k with dests := insertKV k.dests (svcKey svc) (destsOf k (svcKey svc) ++ [d]) } (svcKey svc))).Nodup := by
        rw [hLc]
        unfold dkeys
        rw [List.map_append, List.nodup_append]
        refine ⟨hLnd, by simp, ?_⟩
        intro a ha hb
        simp only [List.map_cons, List.map_nil, List.mem_singleton] at hb
        subst hb
        exact hfresh ha
      have hcm2c : ∀ e ∈ cmap, ∃ c, findDest (destsOf { k with dests := insertKV k.dests (svcKey svc) (destsOf k (svcKey svc) ++ [d]) } (svcKey svc)) e.1 = some c ∧
          c.weight = e.2.weight := by
        intro e he
        obtain ⟨c, hc, hwc⟩ := hcm2 e he
        exact ⟨c, by rw [hLc]; exact findDest_append_left _ _ _ _ hc, hwc⟩
      have hcovc : ∀ c ∈ destsOf { k with dests := insertKV k.dests (svcKey svc) (destsOf k (svcKey svc) ++ [d]) } (svcKey svc),
          (findKV cmap (destKey c)).isSome ∨ (P (destKey c) ∨ destKey c = destKey d) := by
        rw [hLc]
        intro c hc
        rcases List.mem_append.1 hc with h | h
        · rcases hcov c h with h' | h'
          · exact Or.inl h'
          · exact Or.inr (Or.inl h')
        · rw [List.mem_singleton.1 h]
          exact Or.inr (Or.inr rfl)
      have hPdsc : ∀ d' ∈ rest, ¬(P (destKey d') ∨ destKey d' = destKey d) := by
        intro d' hd'
        rintro (h | h)
        · exact hPds d' (List.mem_cons_of_mem _ hd') h
        · exact hdnotinrest (h ▸ (mem_dkeys rest (destKey d')).2 ⟨d', hd', rfl⟩)
      obtain ⟨ih1, ih2, ih3, ih4, ih5, ih6, ih7, ih8⟩ :=
        ih cmap { k with dests := insertKV k.dests (svcKey svc) (destsOf k (svcKey svc) ++ [d]) }
          (calls ++ [.createDestination svc d])
          (fun K => P K ∨ K = destKey d) hLcnd hrestnd hcmnd hcm1 hcm2c hcovc hPdsc
      refine ⟨ih1, ih2, ih3, ih4, ?_, ?_, ?_, ih8⟩
      · intro d' hd'
        rcases List.mem_cons.1 hd' with h | h
        · have hpres := ih7 (destKey d) hdnotinrest
          rw [h]
          refine ⟨d, ?_, rfl⟩
          rw [hpres, hLc, findDest_append]
          have hnone : findDest (destsOf k (svcKey svc)) (destKey d) = none :=
            (findDest_eq_none_iff _ _).2 (fun c hc hck =>
              hfresh ((mem_dkeys _ _).2 ⟨c, hc, hck⟩))
          rw [hnone]
          simp [findDest_cons]
        · exact ih5 d' h
      · intro c hc
        rcases ih6 c hc with h | h | h
        · exact Or.inl h
        · rcases h with h | h
          · exact Or.inr (Or.inl h)
          · exact Or.inr (Or.inr ⟨d, List.mem_cons_self _ _, h.symm⟩)
        · obtain ⟨d', hd', hk⟩ := h
          exact Or.inr (Or.inr ⟨d', List.mem_cons_of_mem _ hd', hk⟩)
      · intro K hK
        have hKrest : K ∉ dkeys rest := by
          intro hh
          refine hK ?_
          unfold dkeys at hh ⊢
          simp only [List.map_cons]
          exact List.mem_cons_of_mem _ hh
        have hKd : K ≠ destKey d := by
          intro hh
          refine hK ?_
          unfold dkeys
          simp only [List.map_cons]
          exact hh ▸ List.mem_cons_self _ _
        rw [ih7 K hKrest, hLc, findDest_append]
        cases hfd : findDest (destsOf k (svcKey svc)) K with
        | some c => rfl
        | none =>
          simp only []
          rw [findDest_cons, if_neg (fun hh => hKd hh.symm)]
          rfl
    | some curr =>
      simp only []
      have hcurrmem := mem_of_findKV_eq_some _ _ _ hf
      have hcurrk : destKey curr = destKey d := (hcm1 _ hcurrmem).symm
      obtain ⟨c0, hc0x, hw0x⟩ := hcm2 _ hcurrmem
      have hc0 : findDest (destsOf k (svcKey svc)) (destKey d) = some c0 := hc0x
      have hw0 : c0.weight = curr.weight := hw0x
      by_cases hw : curr.weight ≠ d.weight
      · rw [if_pos hw]
        have hupdk : destKey { curr with weight := d.weight } = destKey d := hcurrk
        have hrepne : replaceDest (destsOf k (svcKey svc)) { curr with weight := d.weight } ≠ none := by
          intro hh
          rw [replaceDest_none_iff, hupdk] at hh
          rw [hh] at hc0
          simp at hc0
        cases hrep : replaceDest (destsOf k (svcKey svc)) { curr with weight := d.weight } with
        | none => exact absurd hrep hrepne
        | some ds' =>
          rw [mgrUpdateDestination_noFaults_some k svc _ ds' hrep]
          simp only []
          obtain ⟨hkeq, hself, hother⟩ := replaceDest_spec _ _ _ hrep
          have hLu : destsOf { k with dests := insertKV k.dests (svcKey svc) ds' } (svcKey svc) = ds' :=
            destsOf_insert_self k (svcKey svc) _
          have hLund : (dkeys (destsOf { k with dests := insertKV k.dests (svcKey svc) ds' } (svcKey svc))).Nodup := by
            rw [hLu, hkeq]
            exact hLnd
          have hcm1u : ∀ e ∈ insertKV cmap (destKey d) { curr with weight := d.weight },
              e.1 = destKey e.2 := by
            intro e he
            rcases mem_insertKV_nodup _ _ _ hcmnd e he with h | ⟨hm, _⟩
            · rw [h]
              exact hupdk.symm
            · exact hcm1 e hm
          have hcm2u : ∀ e ∈ insertKV cmap (destKey d) { curr with weight := d.weight },
              ∃ c, findDest (destsOf { k with dests := insertKV k.dests (svcKey svc) ds' } (svcKey svc)) e.1 = some c ∧ c.weight = e.2.weight := by
            intro e he
            rcases mem_insertKV_nodup _ _ _ hcmnd e he with h | ⟨hm, hne⟩
            · rw [h]
              refine ⟨{ curr with weight := d.weight }, ?_, rfl⟩
              rw [hLu]
              exact hupdk ▸ hself
            · obtain ⟨c, hc, hwc⟩ := hcm2 e hm
              refine ⟨c, ?_, hwc⟩
              rw [hLu, hother e.1 (hupdk ▸ hne)]
              exact hc
          have hcovu : ∀ c ∈ destsOf { k with dests := insertKV k.dests (svcKey svc) ds' } (svcKey svc),
              (findKV (insertKV cmap (destKey d) { curr with weight := d.weight }) (destKey c)).isSome ∨ P (destKey c) := by
            rw [hLu]
            intro c hc
            have hkc : destKey c ∈ dkeys (destsOf k (svcKey svc)) := by
              rw [← hkeq]
              exact (mem_dkeys _ _).2 ⟨c, hc, rfl⟩
            obtain ⟨c1, hc1, hkc1⟩ := (mem_dkeys _ _).1 hkc
            rcases hcov c1 hc1 with h | h
            · exact Or.inl (hkc1 ▸ findKV_insertKV_isSome _ _ _ _ h)
            · exact Or.inr (hkc1 ▸ h)
          obtain ⟨ih1, ih2, ih3, ih4, ih5, ih6, ih7, ih8⟩ :=
            ih (insertKV cmap (destKey d) { curr with weight := d.weight })
              { k with dests := insertKV k.dests (svcKey svc) ds' }
              (calls ++ [.updateDestination svc { curr with weight := d.weight }]) P
              hLund hrestnd (keys_insertKV_nodup _ _ _ hcmnd) hcm1u hcm2u hcovu
              (fun d' hd' => hPds d' (List.mem_cons_of_mem _ hd'))
          refine ⟨ih1, ih2, ih3, ih4, ?_, ?_, ?_, ?_⟩
          · intro d' hd'
            rcases List.mem_cons.1 hd' with h | h
            · have hpres := ih7 (destKey d) hdnotinrest
              rw [h]
              refine ⟨{ curr with weight := d.weight }, ?_, rfl⟩
              rw [hpres, hLu]
              exact hupdk ▸ hself
            · exact ih5 d' h
          · intro c hc
            rcases ih6 c hc with h | h | h
            · exact Or.inl h
            · exact Or.inr (Or.inl h)
            · obtain ⟨d', hd', hk⟩ := h
              exact Or.inr (Or.inr ⟨d', List.mem_cons_of_mem _ hd', hk⟩)
          · intro K hK
            have hKrest : K ∉ dkeys rest := by
              intro hh
              refine hK ?_
              unfold dkeys at hh ⊢
              simp only [List.map_cons]
              exact List.mem_cons_of_mem _ hh
            have hKd : K ≠ destKey d := by
              intro hh
              refine hK ?_
              unfold dkeys
              simp only [List.map_cons]
              exact hh ▸ List.mem_cons_self _ _
            rw [ih7 K hKrest, hLu, hother K (hupdk ▸ hKd)]
          · intro K hsome
            exact ih8 K (findKV_insertKV_isSome _ _ _ _ hsome)
      · rw [if_neg hw]
        obtain ⟨ih1, ih2, ih3, ih4, ih5, ih6, ih7, ih8⟩ :=
          ih cmap k calls P hLnd hrestnd hcmnd hcm1 hcm2 hcov
            (fun d' hd' => hPds d' (List.mem_cons_of_mem _ hd'))
        refine ⟨ih1, ih2, ih3, ih4, ?_, ?_, ?_, ih8⟩
        · intro d' hd'
          rcases List.mem_cons.1 hd' with h | h
          · have hpres := ih7 (destKey d) hdnotinrest
            rw [h]
            refine ⟨c0, ?_, ?_⟩
            · rw [hpres]
              exact hc0
            · rw [hw0]
              exact Decidable.not_not.1 hw
          · exact ih5 d' h
        · intro c hc
          rcases ih6 c hc with h | h | h
          · exact Or.inl h
          · exact Or.inr (Or.inl h)
          · obtain ⟨d', hd', hk⟩ := h
            exact Or.inr (Or.inr ⟨d', List.mem_cons_of_mem _ hd', hk⟩)
        · intro K hK
          refine ih7 K ?_
          intro hh
          refine hK ?_
          unfold dkeys at hh ⊢
          simp only [List.map_cons]
          exact List.mem_cons_of_mem _ hh



theorem findDest_of_mem_nodup (l : List IpvsDest) (c : IpvsDest)
    (hmem : c ∈ l) (hnd : (dkeys l).Nodup) : findDest l (destKey c) = some c := by
  induction l with
  | nil => simp at hmem
  | cons c0 rest ih =>
    have hnd' := hnd
    unfold dkeys at hnd'
    simp only [List.map_cons, List.nodup_cons] at hnd'
    rw [findDest_cons]
    rcases List.mem_cons.1 hmem with h | h
    · subst h
      rw [if_pos rfl]
    · have hne : destKey c0 ≠ destKey c := by
        intro hh
        exact hnd'.1 (hh ▸ List.mem_map.2 ⟨c, h, rfl⟩)
      rw [if_neg hne]
      exact ih h hnd'.2

/-- Full functional specification of the destination delete loop under no
faults: it never errors, and afterwards every desired destination still
carries its desired weight while every remaining kernel destination is
desired. -/
theorem rdLoop2_correct (svc : IpvsService) (desired : List IpvsDest) :
    ∀ (Es : List (String × IpvsDest)) (k : KernelState) (calls : List MutationCall),
      (dkeys (destsOf k (svcKey svc))).Nodup →
      (∀ e ∈ Es, e.1 = destKey e.2) →
      (∀ d ∈ desired, ∃ c, findDest (destsOf k (svcKey svc)) (destKey d) = some c ∧
        c.weight = d.weight) →
      (∀ c ∈ destsOf k (svcKey svc),
        (∃ d ∈ desired, destKey d = destKey c) ∨ ∃ e ∈ Es, e.1 = destKey c) →
      (rdLoop2 noFaults svc desired Es k calls).1 = .ok () ∧
      (dkeys (destsOf (rdLoop2 noFaults svc desired Es k calls).2.1 (svcKey svc))).Nodup ∧
      (∀ d ∈ desired,
        ∃ c, findDest (destsOf (rdLoop2 noFaults svc desired Es k calls).2.1 (svcKey svc))
          (destKey d) = some c ∧ c.weight = d.weight) ∧
      (∀ c ∈ destsOf (rdLoop2 noFaults svc desired Es k calls).2.1 (svcKey svc),
        ∃ d ∈ desired, destKey d = destKey c) := by
  intro Es
  induction Es with
  | nil =>
    intro k calls hLnd hE hJ2 hJ3
    refine ⟨rfl, hLnd, hJ2, ?_⟩
    intro c hc
    rcases hJ3 c hc with h | h
    · exact h
    · simp at h
  | cons e rest ih =>
    intro k calls hLnd hE hJ2 hJ3
    obtain ⟨key, dest⟩ := e
    have hkey : key = destKey dest := hE _ (List.mem_cons_self _ _)
    rw [rdLoop2]
    by_cases hany : desired.any (fun d => destKey d = key)
    · rw [if_pos hany]
      refine ih k calls hLnd (fun e' he' => hE e' (List.mem_cons_of_mem _ he')) hJ2 ?_
      intro c hc
      rcases hJ3 c hc with h | h
      · exact Or.inl h
      · obtain ⟨e', he', hk'⟩ := h
        rcases List.mem_cons.1 he' with hh | hh
        · -- the head entry covers this key, but its key is desired anyway
          rw [hh] at hk'
          simp only [List.any_eq_true, decide_eq_true_eq] at hany
          obtain ⟨d, hd, hdk⟩ := hany
          exact Or.inl ⟨d, hd, by rw [hdk, ← hk']⟩
        · exact Or.inr ⟨e', hh, hk'⟩
    · rw [if_neg hany]
      rw [mgrDeleteDestination_noFaults]
      simp only []
      have hnotany : ∀ d ∈ desired, destKey d ≠ key := by
        intro d hd hh
        refine hany ?_
        rw [List.any_eq_true]
        exact ⟨d, hd, by simp [hh]⟩
      have hL' : destsOf { k with dests := insertKV k.dests (svcKey svc) ((destsOf k (svcKey svc)).filter (fun d0 => ¬(destKey d0 = destKey dest))) } (svcKey svc) =
          (destsOf k (svcKey svc)).filter (fun d0 => ¬(destKey d0 = destKey dest)) :=
        destsOf_insert_self k (svcKey svc) _
      have hLnd' : (dkeys (destsOf { k with dests := insertKV k.dests (svcKey svc) ((destsOf k (svcKey svc)).filter (fun d0 => ¬(destKey d0 = destKey dest))) } (svcKey svc))).Nodup := by
        rw [hL']
        exact dkeys_filter_nodup _ _ hLnd
      have hJ2' : ∀ d ∈ desired, ∃ c, findDest (destsOf { k with dests := insertKV k.dests (svcKey svc) ((destsOf k (svcKey svc)).filter (fun d0 => ¬(destKey d0 = destKey dest))) } (svcKey svc)) (destKey d) = some c ∧ c.weight = d.weight := by
        intro d hd
        obtain ⟨c, hc, hwc⟩ := hJ2 d hd
        refine ⟨c, ?_, hwc⟩
        rw [hL', findDest_filter_ne, if_neg (hkey ▸ hnotany d hd)]
        exact hc
      have hJ3' : ∀ c ∈ destsOf { k with dests := insertKV k.dests (svcKey svc) ((destsOf k (svcKey svc)).filter (fun d0 => ¬(destKey d0 = destKey dest))) } (svcKey svc),
          (∃ d ∈ desired, destKey d = destKey c) ∨ ∃ e ∈ rest, e.1 = destKey c := by
        rw [hL']
        intro c hc
        have hcfil := List.mem_filter.1 hc
        have hcne : destKey c ≠ destKey dest := by
          have := hcfil.2
          simp only [decide_eq_true_eq] at this
          exact this
        rcases hJ3 c hcfil.1 with h | h
        · exact Or.inl h
        · obtain ⟨e', he', hk'⟩ := h
          rcases List.mem_cons.1 he' with hh | hh
          · rw [hh] at hk'
            exact absurd hk'.symm (hkey ▸ hcne)
          · exact Or.inr ⟨e', hh, hk'⟩
      exact ih _ (calls ++ [.deleteDestination svc dest]) hLnd'
        (fun e' he' => hE e' (List.mem_cons_of_mem _ he')) hJ2' hJ3'

/-- Full functional specification of `reconcileDestinations` under no
faults: given the actual kernel destination list for the service and
duplicate-free desired keys, it converges the list to exactly the desired
destinations (matched by key, with desired weights) without touching any
other key or the service table. -/
theorem reconcileDestinations_correct (svc : IpvsService)
    (desired current : List IpvsDest) (k : KernelState)
    (hcur : destsOf k (svcKey svc) = current)
    (hLnd : (dkeys current).Nodup)
    (hdnd : (dkeys desired).Nodup) :
    (reconcileDestinations noFaults svc desired current k).1 = .ok () ∧
    (dkeys (destsOf (reconcileDestinations noFaults svc desired current k).2.1 (svcKey svc))).Nodup ∧
    (∀ d ∈ desired,
      ∃ c, findDest (destsOf (reconcileDestinations noFaults svc desired current k).2.1 (svcKey svc))
        (destKey d) = some c ∧ c.weight = d.weight) ∧
    (∀ c ∈ destsOf (reconcileDestinations noFaults svc desired current k).2.1 (svcKey svc),
      ∃ d ∈ desired, destKey d = destKey c) := by
  have hLnd0 : (dkeys (destsOf k (svcKey svc))).Nodup := hcur ▸ hLnd
  have hbm := buildDestMap_nodup current hLnd
  have hcmnd : ((buildDestMap current).map Prod.fst).Nodup := by
    rw [buildDestMap_eq_insFold]
    exact keys_nodup_insFold _ _ (by simp)
  have hcm1 : ∀ e ∈ buildDestMap current, e.1 = destKey e.2 :=
    fun e he => (mem_buildDestMap current e he).1
  have hcm2 : ∀ e ∈ buildDestMap current,
      ∃ c, findDest (destsOf k (svcKey svc)) e.1 = some c ∧ c.weight = e.2.weight := by
    intro e he
    obtain ⟨hk, hm⟩ := mem_buildDestMap current e he
    refine ⟨e.2, ?_, rfl⟩
    rw [hcur, hk]
    exact findDest_of_mem_nodup current e.2 hm hLnd
  have hcov : ∀ c ∈ destsOf k (svcKey svc),
      (findKV (buildDestMap current) (destKey c)).isSome ∨ False := by
    intro c hc
    rw [hcur] at hc
    rw [hbm, findKV_map_pair]
    rw [findDest_of_mem_nodup current c hc hLnd]
    exact Or.inl rfl
  obtain ⟨h1, h2, h3, h4, h5, h6, h7, h8⟩ :=
    rdLoop1_correct svc desired (buildDestMap current) k [] (fun _ => False)
      hLnd0 hdnd hcmnd hcm1 hcm2 hcov (fun d _ => not_false)
  unfold reconcileDestinations
  simp only [h1]
  have hJ3 : ∀ c ∈ destsOf (rdLoop1 noFaults svc desired (buildDestMap current) k []).2.2.1 (svcKey svc),
      (∃ d ∈ desired, destKey d = destKey c) ∨
      ∃ e ∈ (rdLoop1 noFaults svc desired (buildDestMap current) k []).2.1, e.1 = destKey c := by
    intro c hc
    rcases h6 c hc with h | h | h
    · cases hsome : findKV (rdLoop1 noFaults svc desired (buildDestMap current) k []).2.1 (destKey c) with
      | none => rw [hsome] at h; simp at h
      | some x =>
        exact Or.inr ⟨(destKey c, x), mem_of_findKV_eq_some _ _ _ hsome, rfl⟩
    · exact absurd h not_false
    · exact Or.inl h
  obtain ⟨g1, g2, g3, g4⟩ := rdLoop2_correct svc desired
    (rdLoop1 noFaults svc desired (buildDestMap current) k []).2.1
    (rdLoop1 noFaults svc desired (buildDestMap current) k []).2.2.1
    (rdLoop1 noFaults svc desired (buildDestMap current) k []).2.2.2
    h2 h4 h5 hJ3
  exact ⟨g1, g2, g3, g4⟩


theorem eraseKV_sublist {α : Type} (m : List (String × α)) (k : String) :
    (eraseKV m k).Sublist m := by
  induction m with
  | nil => simp [eraseKV]
  | cons p rest ih =>
    obtain ⟨k₀, v₀⟩ := p
    by_cases h₀ : k₀ = k
    · rw [eraseKV, if_pos h₀]
      exact (List.sublist_cons_self _ _)
    · rw [eraseKV, if_neg h₀]
      exact List.Sublist.cons₂ _ ih

theorem findKV_eq_none_iff {α : Type} (m : List (String × α)) (K : String) :
    findKV m K = none ↔ ∀ e ∈ m, e.1 ≠ K := by
  induction m with
  | nil => simp [findKV]
  | cons p rest ih =>
    obtain ⟨k₀, v₀⟩ := p
    rw [findKV_cons]
    by_cases h₀ : k₀ = K
    · simp only [h₀, if_pos rfl]
      constructor
      · intro h; cases h
      · intro h
        exact absurd rfl (h (K, v₀) (List.mem_cons_self _ _))
    · simp only [h₀, if_false, ih]
      constructor
      · intro h e he
        rcases List.mem_cons.1 he with hh | hh
        · rw [hh]; exact h₀
        · exact h e hh
      · intro h e he
        exact h e (List.mem_cons_of_mem _ he)

theorem findKV_eraseKV_self_nodup {α : Type} (m : List (String × α)) (k : String)
    (hnd : (m.map Prod.fst).Nodup) : findKV (eraseKV m k) k = none := by
  induction m with
  | nil => simp [eraseKV]
  | cons p rest ih =>
    obtain ⟨k₀, v₀⟩ := p
    simp only [List.map_cons, List.nodup_cons] at hnd
    by_cases h₀ : k₀ = k
    · rw [eraseKV, if_pos h₀]
      rw [findKV_eq_none_iff]
      intro e he hk
      subst h₀
      exact hnd.1 (hk ▸ List.mem_map.2 ⟨e, he, rfl⟩)
    · rw [eraseKV, if_neg h₀, findKV_cons, if_neg h₀]
      exact ih hnd.2

theorem findKV_none_of_sublist {α : Type} (m m' : List (String × α)) (K : String)
    (hsub : m'.Sublist m) (h : findKV m K = none) : findKV m' K = none := by
  rw [findKV_eq_none_iff] at h ⊢
  exact fun e he => h e (hsub.mem he)

/-- One add/update step, no faults, on a key whose state is still pristine
with respect to the snapshot `cmap`: it converges the kernel to the
desired record and destinations at that key. -/
theorem recAddStep_correct (cmap : List (String × IpvsService)) (k : KernelState)
    (entry : String × DesiredState)
    (hekey : entry.1 = svcKey entry.2.service)
    (hednd : (dkeys entry.2.destinations).Nodup)
    (hcm : ∀ e ∈ cmap, e.1 = svcKey e.2)
    (hsvc : findKV k.services entry.1 = findKV cmap entry.1)
    (hdst : (dkeys (destsOf k entry.1)).Nodup)
    (horph : findKV cmap entry.1 = none → destsOf k entry.1 = []) :
    (∃ svc', findKV (recAddStep noFaults cmap k entry).1.services entry.1 = some svc' ∧
      svc'.scheduler = entry.2.service.scheduler ∧ svcKey svc' = entry.1) ∧
    ((dkeys (destsOf (recAddStep noFaults cmap k entry).1 entry.1)).Nodup ∧
     (∀ d ∈ entry.2.destinations,
       ∃ c, findDest (destsOf (recAddStep noFaults cmap k entry).1 entry.1) (destKey d) =
         some c ∧ c.weight = d.weight) ∧
     (∀ c ∈ destsOf (recAddStep noFaults cmap k entry).1 entry.1,
       ∃ d ∈ entry.2.destinations, destKey d = destKey c)) ∧
    ((∃ svc', svcKey svc' = entry.1 ∧
       (recAddStep noFaults cmap k entry).1.services = insertKV k.services entry.1 svc') ∨
     (recAddStep noFaults cmap k entry).1.services = k.services) := by
  unfold recAddStep
  cases hf : findKV cmap entry.1 with
  | none =>
    simp only [hf]
    rw [mgrCreateService_noFaults]
    simp only []
    have hkey : svcKey entry.2.service = entry.1 := hekey.symm
    have hdempty : destsOf k entry.1 = [] := horph hf
    have hcur : destsOf { k with services := insertKV k.services (svcKey entry.2.service) entry.2.service } (svcKey entry.2.service) = [] := by
      show destsOf k (svcKey entry.2.service) = []
      rw [hkey]
      exact hdempty
    obtain ⟨hc1, hc2, hc3, hc4⟩ := reconcileDestinations_correct entry.2.service
      entry.2.destinations [] { k with services := insertKV k.services (svcKey entry.2.service) entry.2.service }
      hcur (by simp [dkeys]) hednd
    obtain ⟨hsp1, hsp2, hsp3⟩ := reconcileDestinations_spec noFaults entry.2.service
      entry.2.destinations [] { k with services := insertKV k.services (svcKey entry.2.service) entry.2.service }
    refine ⟨⟨entry.2.service, ?_, rfl, hkey⟩, ⟨hkey ▸ hc2, hkey ▸ hc3, hkey ▸ hc4⟩, ?_⟩
    · rw [congrArg (fun s => findKV s entry.1) hsp1]
      show findKV (insertKV k.services (svcKey entry.2.service) entry.2.service) entry.1 = _
      rw [hkey, findKV_insertKV_self]
    · refine Or.inl ⟨entry.2.service, hkey, ?_⟩
      rw [hsp1]
      show insertKV k.services (svcKey entry.2.service) entry.2.service = _
      rw [hkey]
  | some cs =>
    simp only [hf]
    have hcsk : entry.1 = svcKey cs := hcm _ (mem_of_findKV_eq_some _ _ _ hf)
    have hscur : findKV k.services entry.1 = some cs := by rw [hsvc, hf]
    by_cases hsch : cs.scheduler ≠ entry.2.service.scheduler
    · rw [if_pos hsch]
      rw [mgrUpdateService_noFaults]
      simp only []
      have hupdk : svcKey { cs with scheduler := entry.2.service.scheduler } = svcKey cs := rfl
      unfold recDests
      rw [mgrGetDestinations_noFaults]
      simp only []
      have hdku : destsOf { k with services := insertKV k.services (svcKey { cs with scheduler := entry.2.service.scheduler }) { cs with scheduler := entry.2.service.scheduler } } (svcKey { cs with scheduler := entry.2.service.scheduler }) = destsOf k entry.1 := by
        show destsOf k (svcKey { cs with scheduler := entry.2.service.scheduler }) = destsOf k entry.1
        rw [hupdk, ← hcsk]
      obtain ⟨hc1, hc2, hc3, hc4⟩ := reconcileDestinations_correct
        { cs with scheduler := entry.2.service.scheduler }
        entry.2.destinations
        (destsOf { k with services := insertKV k.services (svcKey { cs with scheduler := entry.2.service.scheduler }) { cs with scheduler := entry.2.service.scheduler } } (svcKey { cs with scheduler := entry.2.service.scheduler }))
        { k with services := insertKV k.services (svcKey { cs with scheduler := entry.2.service.scheduler }) { cs with scheduler := entry.2.service.scheduler } }
        rfl (by rw [hdku]; exact hdst) hednd
      obtain ⟨hsp1, hsp2, hsp3⟩ := reconcileDestinations_spec noFaults
        { cs with scheduler := entry.2.service.scheduler }
        entry.2.destinations
        (destsOf { k with services := insertKV k.services (svcKey { cs with scheduler := entry.2.service.scheduler }) { cs with scheduler := entry.2.service.scheduler } } (svcKey { cs with scheduler := entry.2.service.scheduler }))
        { k with services := insertKV k.services (svcKey { cs with scheduler := entry.2.service.scheduler }) { cs with scheduler := entry.2.service.scheduler } }
      have hkeyeq : svcKey { cs with scheduler := entry.2.service.scheduler } = entry.1 := by
        rw [hupdk, ← hcsk]
      refine ⟨⟨{ cs with scheduler := entry.2.service.scheduler }, ?_, rfl, hkeyeq⟩,
        ⟨hkeyeq ▸ hc2, hkeyeq ▸ hc3, hkeyeq ▸ hc4⟩, ?_⟩
      · rw [congrArg (fun s => findKV s entry.1) hsp1]
        show findKV (insertKV k.services (svcKey { cs with scheduler := entry.2.service.scheduler }) { cs with scheduler := entry.2.service.scheduler }) entry.1 = _
        rw [hkeyeq, findKV_insertKV_self]
      · refine Or.inl ⟨{ cs with scheduler := entry.2.service.scheduler }, hkeyeq, ?_⟩
        rw [hsp1]
        show insertKV k.services (svcKey { cs with scheduler := entry.2.service.scheduler }) { cs with scheduler := entry.2.service.scheduler } = _
        rw [hkeyeq]
    · rw [if_neg hsch]
      unfold recDests
      rw [mgrGetDestinations_noFaults]
      simp only []
      have hdkc : destsOf k (svcKey cs) = destsOf k entry.1 := by rw [← hcsk]
      obtain ⟨hc1, hc2, hc3, hc4⟩ := reconcileDestinations_correct cs
        entry.2.destinations (destsOf k (svcKey cs)) k rfl
        (by rw [hdkc]; exact hdst) hednd
      obtain ⟨hsp1, hsp2, hsp3⟩ := reconcileDestinations_spec noFaults cs
        entry.2.destinations (destsOf k (svcKey cs)) k
      refine ⟨⟨cs, ?_, Decidable.not_not.1 hsch, hcsk.symm⟩,
        ⟨hcsk ▸ hc2, hcsk ▸ hc3, hcsk ▸ hc4⟩, Or.inr hsp1⟩
      rw [congrArg (fun s => findKV s entry.1) hsp1]
      exact hscur


/-- Convergence of the add/update pass: starting from a state that is still
pristine (relative to the enumeration snapshot `cmap`) on all desired keys,
every desired entry ends converged, and kernel well-formedness is
preserved. -/
theorem recAdd_correct (cmap : List (String × IpvsService))
    (hcm : ∀ e ∈ cmap, e.1 = svcKey e.2) :
    ∀ (desired : List (String × DesiredState)) (k : KernelState) (calls : List MutationCall),
      (∀ e ∈ desired, e.1 = svcKey e.2.service) →
      ((desired.map Prod.fst).Nodup) →
      (∀ e ∈ desired, (dkeys e.2.destinations).Nodup) →
      (∀ e ∈ desired, findKV k.services e.1 = findKV cmap e.1 ∧
        (findKV cmap e.1 = none → destsOf k e.1 = [])) →
      (∀ e ∈ k.services, e.1 = svcKey e.2) →
      ((k.services.map Prod.fst).Nodup) →
      (∀ K, (dkeys (destsOf k K)).Nodup) →
      ((∀ e ∈ desired,
        (∃ svc', findKV (recAdd noFaults cmap desired k calls).1.services e.1 = some svc' ∧
          svc'.scheduler = e.2.service.scheduler ∧ svcKey svc' = e.1) ∧
        (∀ d ∈ e.2.destinations, ∃ c,
            findDest (destsOf (recAdd noFaults cmap desired k calls).1 e.1) (destKey d) = some c ∧
            c.weight = d.weight) ∧
        (∀ c ∈ destsOf (recAdd noFaults cmap desired k calls).1 e.1,
            ∃ d ∈ e.2.destinations, destKey d = destKey c)) ∧
      (∀ e ∈ (recAdd noFaults cmap desired k calls).1.services, e.1 = svcKey e.2) ∧
      (((recAdd noFaults cmap desired k calls).1.services.map Prod.fst).Nodup) ∧
      (∀ K, (dkeys (destsOf (recAdd noFaults cmap desired k calls).1 K)).Nodup)) := by
  intro desired
  induction desired with
  | nil =>
    intro k calls _ _ _ _ hS1 hS2 hKD
    exact ⟨fun e he => absurd he (List.not_mem_nil e), hS1, hS2, hKD⟩
  | cons entry rest ih =>
    intro k calls hdes hdnd hddnd hprist hS1 hS2 hKD
    simp only [List.map_cons, List.nodup_cons] at hdnd
    obtain ⟨hA, ⟨hBnd, hBfwd, hBbwd⟩, hform⟩ := recAddStep_correct cmap k entry
      (hdes entry (List.mem_cons_self _ _))
      (hddnd entry (List.mem_cons_self _ _)) hcm
      (hprist entry (List.mem_cons_self _ _)).1
      (hKD entry.1)
      (hprist entry (List.mem_cons_self _ _)).2
    obtain ⟨hstepF, hstepC⟩ := recAddStep_spec noFaults cmap k entry
      (hdes entry (List.mem_cons_self _ _)) hcm
    have hS1' : ∀ e ∈ (recAddStep noFaults cmap k entry).1.services, e.1 = svcKey e.2 := by
      rcases hform with ⟨svc', hsk, heq⟩ | heq
      · rw [heq]
        intro e he
        rcases mem_of_mem_insertKV _ _ _ _ he with h | h
        · rw [h]
          exact hsk.symm
        · exact hS1 e h
      · rw [heq]
        exact hS1
    have hS2' : (((recAddStep noFaults cmap k entry).1.services.map Prod.fst)).Nodup := by
      rcases hform with ⟨svc', hsk, heq⟩ | heq
      · rw [heq]
        exact keys_insertKV_nodup _ _ _ hS2
      · rw [heq]
        exact hS2
    have hKD' : ∀ K, (dkeys (destsOf (recAddStep noFaults cmap k entry).1 K)).Nodup := by
      intro K
      by_cases hk : K = entry.1
      · rw [hk]
        exact hBnd
      · rw [(hstepF K hk).2]
        exact hKD K
    have hprist' : ∀ e ∈ rest,
        findKV (recAddStep noFaults cmap k entry).1.services e.1 = findKV cmap e.1 ∧
        (findKV cmap e.1 = none →
          destsOf (recAddStep noFaults cmap k entry).1 e.1 = []) := by
      intro e he
      have hne : e.1 ≠ entry.1 := by
        intro hh
        exact hdnd.1 (hh ▸ List.mem_map.2 ⟨e, he, rfl⟩)
      obtain ⟨hfs, hfd⟩ := hstepF e.1 hne
      exact ⟨hfs.trans (hprist e (List.mem_cons_of_mem _ he)).1,
        fun hn => hfd.trans ((hprist e (List.mem_cons_of_mem _ he)).2 hn)⟩
    obtain ⟨ihconv, ihS1, ihS2, ihKD⟩ := ih (recAddStep noFaults cmap k entry).1
      (calls ++ (recAddStep noFaults cmap k entry).2)
      (fun e he => hdes e (List.mem_cons_of_mem _ he)) hdnd.2
      (fun e he => hddnd e (List.mem_cons_of_mem _ he)) hprist' hS1' hS2' hKD'
    rw [recAdd]
    refine ⟨?_, ihS1, ihS2, ihKD⟩
    intro e he
    rcases List.mem_cons.1 he with hh | hh
    · subst hh
      obtain ⟨ihframe, _⟩ := recAdd_spec noFaults cmap hcm rest
        (recAddStep noFaults cmap k e).1
        (calls ++ (recAddStep noFaults cmap k e).2)
        (fun q hq => hdes q (List.mem_cons_of_mem _ hq))
      have hfr := ihframe e.1 (fun q hq hq1 => hdnd.1 (hq1 ▸ List.mem_map.2 ⟨q, hq, rfl⟩))
      refine ⟨?_, ?_, ?_⟩
      · obtain ⟨svc', hfind, hsched, hsk⟩ := hA
        exact ⟨svc', hfr.1.trans hfind, hsched, hsk⟩
      · intro d hd
        rw [hfr.2]
        exact hBfwd d hd
      · intro c hc
        rw [hfr.2] at hc
        exact hBbwd c hc
    · exact ihconv e hh


theorem keys_eraseKV_nodup {α : Type} (m : List (String × α)) (k : String)
    (h : (m.map Prod.fst).Nodup) : ((eraseKV m k).map Prod.fst).Nodup :=
  h.sublist ((eraseKV_sublist m k).map Prod.fst)

theorem mgrCreateDestination_dests_nodup (f : Faults) (k : KernelState)
    (svc : IpvsService) (d : IpvsDest) (h : (k.dests.map Prod.fst).Nodup) :
    ((mgrCreateDestination f k svc d).2.dests.map Prod.fst).Nodup := by
  unfold mgrCreateDestination
  split
  · exact h
  · exact keys_insertKV_nodup _ _ _ h

theorem mgrUpdateDestination_dests_nodup (f : Faults) (k : KernelState)
    (svc : IpvsService) (d : IpvsDest) (h : (k.dests.map Prod.fst).Nodup) :
    ((mgrUpdateDestination f k svc d).2.dests.map Prod.fst).Nodup := by
  unfold mgrUpdateDestination
  split
  · exact h
  · split
    · exact keys_insertKV_nodup _ _ _ h
    · exact h

theorem mgrDeleteDestination_dests_nodup (f : Faults) (k : KernelState)
    (svc : IpvsService) (d : IpvsDest) (h : (k.dests.map Prod.fst).Nodup) :
    ((mgrDeleteDestination f k svc d).2.dests.map Prod.fst).Nodup := by
  unfold mgrDeleteDestination
  split
  · exact h
  · exact keys_insertKV_nodup _ _ _ h

theorem mgrDeleteService_dests_nodup (f : Faults) (k : KernelState)
    (svc : IpvsService) (h : (k.dests.map Prod.fst).Nodup) :
    ((mgrDeleteService f k svc).2.dests.map Prod.fst).Nodup := by
  unfold mgrDeleteService
  split
  · exact h
  · exact keys_eraseKV_nodup _ _ h

theorem rdLoop1_dests_nodup (f : Faults) (svc : IpvsService) :
    ∀ (ds : List IpvsDest) (cmap : List (String × IpvsDest)) (k : KernelState)
      (calls : List MutationCall),
      ((k.dests.map Prod.fst).Nodup) →
      (((rdLoop1 f svc ds cmap k calls).2.2.1.dests.map Prod.fst).Nodup) := by
  intro ds
  induction ds with
  | nil =>
    intro cmap k calls h
    exact h
  | cons d rest ih =>
    intro cmap k calls h
    rw [rdLoop1]
    cases hf : findKV cmap (destKey d) with
    | none =>
      simp only [hf]
      cases hr : (mgrCreateDestination f k svc d).1 with
      | error e =>
        simp only [hr]
        exact mgrCreateDestination_dests_nodup f k svc d h
      | ok u =>
        simp only [hr]
        exact ih _ _ _ (mgrCreateDestination_dests_nodup f k svc d h)
    | some curr =>
      simp only [hf]
      by_cases hw : curr.weight ≠ d.weight
      · rw [if_pos hw]
        cases hr : (mgrUpdateDestination f k svc { curr with weight := d.weight }).1 with
        | error e =>
          simp only [hr]
          exact mgrUpdateDestination_dests_nodup f k svc _ h
        | ok u =>
          simp only [hr]
          exact ih _ _ _ (mgrUpdateDestination_dests_nodup f k svc _ h)
      · rw [if_neg hw]
        exact ih _ _ _ h

theorem rdLoop2_dests_nodup (f : Faults) (svc : IpvsService) (desired : List IpvsDest) :
    ∀ (cmap : List (String × IpvsDest)) (k : KernelState) (calls : List MutationCall),
      ((k.dests.map Prod.fst).Nodup) →
      (((rdLoop2 f svc desired cmap k calls).2.1.dests.map Prod.fst).Nodup) := by
  intro cmap
  induction cmap with
  | nil =>
    intro k calls h
    exact h
  | cons p rest ih =>
    intro k calls h
    obtain ⟨key, dest⟩ := p
    rw [rdLoop2]
    by_cases ha : desired.any (fun d => destKey d = key)
    · rw [if_pos ha]
      exact ih _ _ h
    · rw [if_neg ha]
      cases hr : (mgrDeleteDestination f k svc dest).1 with
      | error e =>
        simp only [hr]
        exact mgrDeleteDestination_dests_nodup f k svc dest h
      | ok u =>
        simp only [hr]
        exact ih _ _ (mgrDeleteDestination_dests_nodup f k svc dest h)

theorem reconcileDestinations_dests_nodup (f : Faults) (svc : IpvsService)
    (desired current : List IpvsDest) (k : KernelState)
    (h : (k.dests.map Prod.fst).Nodup) :
    (((reconcileDestinations f svc desired current k).2.1.dests.map Prod.fst).Nodup) := by
  unfold reconcileDestinations
  cases hr : (rdLoop1 f svc desired (buildDestMap current) k []).1 with
  | error e =>
    simp only [hr]
    exact rdLoop1_dests_nodup f svc desired (buildDestMap current) k [] h
  | ok u =>
    simp only [hr]
    exact rdLoop2_dests_nodup f svc desired _ _ _
      (rdLoop1_dests_nodup f svc desired (buildDestMap current) k [] h)

theorem recDests_dests_nodup (f : Faults) (st : DesiredState) (svc' : IpvsService)
    (k1 : KernelState) (calls1 : List MutationCall)
    (h : (k1.dests.map Prod.fst).Nodup) :
    (((recDests f st svc' k1 calls1).1.dests.map Prod.fst).Nodup) := by
  unfold recDests
  cases hg : mgrGetDestinations f k1 (svcKey svc') with
  | error e =>
    exact h
  | ok currDests =>
    simp only [hg]
    exact reconcileDestinations_dests_nodup f svc' st.destinations currDests k1 h

theorem recAddStep_dests_nodup (f : Faults) (cmap : List (String × IpvsService))
    (k : KernelState) (entry : String × DesiredState)
    (h : (k.dests.map Prod.fst).Nodup) :
    (((recAddStep f cmap k entry).1.dests.map Prod.fst).Nodup) := by
  unfold recAddStep
  have hck : (mgrCreateService f k entry.2.service).2.dests = k.dests :=
    mgrCreateService_dests ..
  cases hf : findKV cmap entry.1 with
  | none =>
    simp only [hf]
    cases hr : (mgrCreateService f k entry.2.service).1 with
    | error e =>
      simp only [hr]
      rw [hck]
      exact h
    | ok u =>
      simp only [hr]
      exact reconcileDestinations_dests_nodup f entry.2.service entry.2.destinations []
        (mgrCreateService f k entry.2.service).2 (hck ▸ h)
  | some cs =>
    simp only [hf]
    by_cases hsch : cs.scheduler ≠ entry.2.service.scheduler
    · rw [if_pos hsch]
      have hud : (mgrUpdateService f k { cs with scheduler := entry.2.service.scheduler }).2.dests = k.dests :=
        mgrUpdateService_dests ..
      exact recDests_dests_nodup f entry.2 _ _ _ (hud ▸ h)
    · rw [if_neg hsch]
      exact recDests_dests_nodup f entry.2 cs k [] h

theorem recAdd_dests_nodup (f : Faults) (cmap : List (String × IpvsService)) :
    ∀ (desired : List (String × DesiredState)) (k : KernelState) (calls : List MutationCall),
      ((k.dests.map Prod.fst).Nodup) →
      (((recAdd f cmap desired k calls).1.dests.map Prod.fst).Nodup) := by
  intro desired
  induction desired with
  | nil =>
    intro k calls h
    exact h
  | cons entry rest ih =>
    intro k calls h
    rw [recAdd]
    exact ih _ _ (recAddStep_dests_nodup f cmap k entry h)


/-- Correctness of the delete pass under no faults: desired keys are left
untouched, every enumerated service at the managed VIP whose key is no
longer desired is gone afterwards, absent keys stay absent, and kernel
well-formedness is preserved. -/
theorem recDelete_correct (desired : List (String × DesiredState)) (vip : String) :
    ∀ (cmap : List (String × IpvsService)) (k : KernelState) (calls : List MutationCall),
      (∀ e ∈ cmap, e.1 = svcKey e.2) →
      (∀ e ∈ k.services, e.1 = svcKey e.2) →
      ((k.services.map Prod.fst).Nodup) →
      ((k.dests.map Prod.fst).Nodup) →
      (∀ K, (dkeys (destsOf k K)).Nodup) →
      ((∀ K, (findKV desired K).isSome →
        findKV (recDelete noFaults desired vip cmap k calls).1.services K = findKV k.services K ∧
        destsOf (recDelete noFaults desired vip cmap k calls).1 K = destsOf k K) ∧
      (∀ e ∈ cmap, e.2.address = vip → findKV desired e.1 = none →
        findKV (recDelete noFaults desired vip cmap k calls).1.services e.1 = none) ∧
      (∀ K, findKV k.services K = none →
        findKV (recDelete noFaults desired vip cmap k calls).1.services K = none) ∧
      (∀ e ∈ (recDelete noFaults desired vip cmap k calls).1.services, e.1 = svcKey e.2) ∧
      (((recDelete noFaults desired vip cmap k calls).1.services.map Prod.fst).Nodup) ∧
      (((recDelete noFaults desired vip cmap k calls).1.dests.map Prod.fst).Nodup) ∧
      (∀ K, (dkeys (destsOf (recDelete noFaults desired vip cmap k calls).1 K)).Nodup)) := by
  intro cmap
  induction cmap with
  | nil =>
    intro k calls _ hS1 hS2 hD2 hKD
    exact ⟨fun K _ => ⟨rfl, rfl⟩, fun e he => absurd he (List.not_mem_nil e),
      fun K h => h, hS1, hS2, hD2, hKD⟩
  | cons p rest ih =>
    intro k calls hcm hS1 hS2 hD2 hKD
    obtain ⟨key, svc⟩ := p
    have hkey : key = svcKey svc := hcm _ (List.mem_cons_self _ _)
    rw [recDelete]
    by_cases haddr : svc.address ≠ vip
    · rw [if_pos haddr]
      obtain ⟨ihA, ihB, ihC, ihS1, ihS2, ihD2, ihKD⟩ := ih k calls
        (fun e he => hcm e (List.mem_cons_of_mem _ he)) hS1 hS2 hD2 hKD
      refine ⟨ihA, ?_, ihC, ihS1, ihS2, ihD2, ihKD⟩
      intro e he hv hn
      rcases List.mem_cons.1 he with hh | hh
      · have hv' : svc.address = vip := by rw [hh] at hv; exact hv
        exact absurd hv' haddr
      · exact ihB e hh hv hn
    · rw [if_neg haddr]
      push_neg at haddr
      cases hfd : findKV desired key with
      | some st =>
        simp only [hfd]
        obtain ⟨ihA, ihB, ihC, ihS1, ihS2, ihD2, ihKD⟩ := ih k calls
          (fun e he => hcm e (List.mem_cons_of_mem _ he)) hS1 hS2 hD2 hKD
        refine ⟨ihA, ?_, ihC, ihS1, ihS2, ihD2, ihKD⟩
        intro e he hv hn
        rcases List.mem_cons.1 he with hh | hh
        · have hn' : findKV desired key = none := by rw [hh] at hn; exact hn
          rw [hfd] at hn'
          exact Option.noConfusion hn'
        · exact ihB e hh hv hn
      | none =>
        simp only [hfd]
        have hks : (mgrDeleteService noFaults k svc).2.services =
            eraseKV k.services (svcKey svc) := by
          rw [mgrDeleteService_noFaults]
        have hkd : (mgrDeleteService noFaults k svc).2.dests =
            eraseKV k.dests (svcKey svc) := by
          rw [mgrDeleteService_noFaults]
        have hfsself : findKV (mgrDeleteService noFaults k svc).2.services (svcKey svc) = none := by
          rw [hks]
          exact findKV_eraseKV_self_nodup _ _ hS2
        have hfsne : ∀ K, K ≠ svcKey svc →
            findKV (mgrDeleteService noFaults k svc).2.services K = findKV k.services K := by
          intro K hK
          rw [hks]
          exact findKV_eraseKV_ne _ _ _ (Ne.symm hK)
        have hfsnone : ∀ K, findKV k.services K = none →
            findKV (mgrDeleteService noFaults k svc).2.services K = none := by
          intro K h
          rw [hks]
          exact findKV_none_of_sublist _ _ _ (eraseKV_sublist _ _) h
        have hdoself : destsOf (mgrDeleteService noFaults k svc).2 (svcKey svc) = [] := by
          unfold destsOf
          rw [hkd, findKV_eraseKV_self_nodup _ _ hD2]
          rfl
        have hdone : ∀ K, K ≠ svcKey svc →
            destsOf (mgrDeleteService noFaults k svc).2 K = destsOf k K := by
          intro K hK
          unfold destsOf
          rw [hkd, findKV_eraseKV_ne _ _ _ (Ne.symm hK)]
        have hS1' : ∀ e ∈ (mgrDeleteService noFaults k svc).2.services, e.1 = svcKey e.2 := by
          rw [hks]
          exact fun e he => hS1 e ((eraseKV_sublist _ _).subset he)
        have hS2' : ((mgrDeleteService noFaults k svc).2.services.map Prod.fst).Nodup := by
          rw [hks]
          exact keys_eraseKV_nodup _ _ hS2
        have hD2' : ((mgrDeleteService noFaults k svc).2.dests.map Prod.fst).Nodup := by
          rw [hkd]
          exact keys_eraseKV_nodup _ _ hD2
        have hKD' : ∀ K, (dkeys (destsOf (mgrDeleteService noFaults k svc).2 K)).Nodup := by
          intro K
          by_cases hK : K = svcKey svc
          · rw [hK, hdoself]
            simp [dkeys]
          · rw [hdone K hK]
            exact hKD K
        obtain ⟨ihA, ihB, ihC, ihS1, ihS2, ihD2, ihKD⟩ := ih (mgrDeleteService noFaults k svc).2
          (calls ++ [.deleteService svc])
          (fun e he => hcm e (List.mem_cons_of_mem _ he)) hS1' hS2' hD2' hKD'
        refine ⟨?_, ?_, ?_, ihS1, ihS2, ihD2, ihKD⟩
        · intro K hsome
          have hKne : K ≠ svcKey svc := by
            intro hh
            rw [hh, ← hkey, hfd] at hsome
            exact Bool.noConfusion hsome
          obtain ⟨h1, h2⟩ := ihA K hsome
          exact ⟨h1.trans (hfsne K hKne), h2.trans (hdone K hKne)⟩
        · intro e he hv hn
          rcases List.mem_cons.1 he with hh | hh
          · have he1 : e.1 = key := by rw [hh]
            rw [he1, hkey]
            exact ihC (svcKey svc) hfsself
          · exact ihB e hh hv hn
        · intro K h
          exact ihC K (hfsnone K h)


/-- First destination loop is a no-op when every desired destination is
already present with the desired weight. -/
theorem rdLoop1_stable (svc : IpvsService) :
    ∀ (ds : List IpvsDest) (cmap : List (String × IpvsDest)) (k : KernelState)
      (calls : List MutationCall),
      (∀ d ∈ ds, ∃ c, findKV cmap (destKey d) = some c ∧ c.weight = d.weight) →
      rdLoop1 noFaults svc ds cmap k calls = (.ok (), cmap, k, calls) := by
  intro ds
  induction ds with
  | nil =>
    intro cmap k calls _
    rfl
  | cons d rest ih =>
    intro cmap k calls hconv
    obtain ⟨c, hc, hw⟩ := hconv d (List.mem_cons_self _ _)
    rw [rdLoop1]
    simp only [hc]
    rw [if_neg (not_not_intro hw)]
    exact ih cmap k calls (fun d' hd' => hconv d' (List.mem_cons_of_mem _ hd'))

/-- Second destination loop is a no-op when every current destination key
is still desired. -/
theorem rdLoop2_stable (svc : IpvsService) (desired : List IpvsDest) :
    ∀ (cmap : List (String × IpvsDest)) (k : KernelState) (calls : List MutationCall),
      (∀ e ∈ cmap, ∃ d ∈ desired, destKey d = e.1) →
      rdLoop2 noFaults svc desired cmap k calls = (.ok (), k, calls) := by
  intro cmap
  induction cmap with
  | nil =>
    intro k calls _
    rfl
  | cons p rest ih =>
    intro k calls hcov
    obtain ⟨key, dest⟩ := p
    obtain ⟨d, hd, hk⟩ := hcov (key, dest) (List.mem_cons_self _ _)
    rw [rdLoop2, if_pos (by rw [List.any_eq_true]; exact ⟨d, hd, by simp [hk]⟩)]
    exact ih k calls (fun e he => hcov e (List.mem_cons_of_mem _ he))

/-- Destination reconciliation is a no-op on an already-converged
destination list. -/
theorem reconcileDestinations_stable (svc : IpvsService)
    (desired current : List IpvsDest) (k : KernelState)
    (hnd : (dkeys current).Nodup)
    (hfwd : ∀ d ∈ desired, ∃ c, findDest current (destKey d) = some c ∧ c.weight = d.weight)
    (hbwd : ∀ c ∈ current, ∃ d ∈ desired, destKey d = destKey c) :
    reconcileDestinations noFaults svc desired current k = (.ok (), k, []) := by
  unfold reconcileDestinations
  have h1 : rdLoop1 noFaults svc desired (buildDestMap current) k [] =
      (.ok (), buildDestMap current, k, []) := by
    refine rdLoop1_stable svc desired _ k [] ?_
    intro d hd
    obtain ⟨c, hc, hw⟩ := hfwd d hd
    refine ⟨c, ?_, hw⟩
    rw [buildDestMap_nodup current hnd, findKV_map_pair]
    exact hc
  simp only [h1]
  refine rdLoop2_stable svc desired _ k [] ?_
  intro e he
  obtain ⟨hk, hm⟩ := mem_buildDestMap current e he
  obtain ⟨d, hd, hdk⟩ := hbwd e.2 hm
  exact ⟨d, hd, by rw [hdk, hk]⟩


theorem findKV_of_mem_nodup {α : Type} (m : List (String × α)) (e : String × α)
    (he : e ∈ m) (hnd : (m.map Prod.fst).Nodup) : findKV m e.1 = some e.2 := by
  induction m with
  | nil => cases he
  | cons p rest ih =>
    simp only [List.map_cons, List.nodup_cons] at hnd
    rcases List.mem_cons.1 he with hh | hh
    · rw [hh, findKV_cons, if_pos rfl]
    · rw [findKV_cons, if_neg ?_]
      · exact ih hh hnd.2
      · intro hk
        exact hnd.1 (hk ▸ List.mem_map.2 ⟨e, hh, rfl⟩)

/-- Every expansion entry is keyed by its own service key, carries the
managed VIP as address, and the expansion map has duplicate-free keys. -/
theorem expandConfig_wf (services : List ConfigService) (vip : String)
    (desired : List (String × DesiredState))
    (hexp : expandConfig services vip = .ok desired) :
    (∀ e ∈ desired, e.1 = svcKey e.2.service ∧ e.2.service.address = vip) ∧
    ((desired.map Prod.fst).Nodup) := by
  cases hp : parseIP vip with
  | none =>
    unfold expandConfig at hexp
    simp only [hp] at hexp
    exact Except.noConfusion hexp
  | some pv =>
    have hv : pv = vip := parseIP_eq_self vip pv hp
    rw [expandConfig_eq_insFold services vip pv hp] at hexp
    injection hexp with h
    subst h
    constructor
    · refine insFold_pred _ _ _ (by simp) ?_
      intro e he
      unfold expandEntries at he
      rw [List.mem_flatMap] at he
      obtain ⟨svc, hsvc, he2⟩ := he
      rw [List.mem_map] at he2
      obtain ⟨port, hport, he3⟩ := he2
      rw [← he3]
      exact ⟨rfl, hv⟩
    · exact keys_nodup_insFold _ _ (by simp)

/-- A single add/update step is a no-op when the kernel (used as its own
enumeration snapshot) is already converged at the entry's key. -/
theorem recAddStep_stable (k : KernelState) (entry : String × DesiredState)
    (svc' : IpvsService)
    (hfind : findKV k.services entry.1 = some svc')
    (hsched : svc'.scheduler = entry.2.service.scheduler)
    (hsk : svcKey svc' = entry.1)
    (hnd : (dkeys (destsOf k entry.1)).Nodup)
    (hfwd : ∀ d ∈ entry.2.destinations,
      ∃ c, findDest (destsOf k entry.1) (destKey d) = some c ∧ c.weight = d.weight)
    (hbwd : ∀ c ∈ destsOf k entry.1, ∃ d ∈ entry.2.destinations, destKey d = destKey c) :
    recAddStep noFaults k.services k entry = (k, []) := by
  unfold recAddStep
  simp only [hfind]
  rw [if_neg (not_not_intro hsched)]
  unfold recDests
  rw [mgrGetDestinations_noFaults]
  simp only []
  rw [hsk]
  have hst := reconcileDestinations_stable svc' entry.2.destinations
    (destsOf k entry.1) k hnd hfwd hbwd
  simp only [hst]
  rfl

/-- The add/update pass is a no-op on a fully converged kernel. -/
theorem recAdd_stable (k : KernelState) :
    ∀ (desired : List (String × DesiredState)) (calls : List MutationCall),
      (∀ e ∈ desired, ∃ svc', findKV k.services e.1 = some svc' ∧
        svc'.scheduler = e.2.service.scheduler ∧ svcKey svc' = e.1) →
      (∀ e ∈ desired, (dkeys (destsOf k e.1)).Nodup) →
      (∀ e ∈ desired, ∀ d ∈ e.2.destinations,
        ∃ c, findDest (destsOf k e.1) (destKey d) = some c ∧ c.weight = d.weight) →
      (∀ e ∈ desired, ∀ c ∈ destsOf k e.1, ∃ d ∈ e.2.destinations, destKey d = destKey c) →
      recAdd noFaults k.services desired k calls = (k, calls) := by
  intro desired
  induction desired with
  | nil =>
    intro calls _ _ _ _
    rfl
  | cons entry rest ih =>
    intro calls hconv hnd hfwd hbwd
    obtain ⟨svc', hfind, hsched, hsk⟩ := hconv entry (List.mem_cons_self _ _)
    have hstep := recAddStep_stable k entry svc' hfind hsched hsk
      (hnd entry (List.mem_cons_self _ _))
      (hfwd entry (List.mem_cons_self _ _))
      (hbwd entry (List.mem_cons_self _ _))
    rw [recAdd]
    simp only [hstep, List.append_nil]
    exact ih calls (fun e he => hconv e (List.mem_cons_of_mem _ he))
      (fun e he => hnd e (List.mem_cons_of_mem _ he))
      (fun e he => hfwd e (List.mem_cons_of_mem _ he))
      (fun e he => hbwd e (List.mem_cons_of_mem _ he))

/-- The delete pass is a no-op when every enumerated service at the managed
VIP is still desired. -/
theorem recDelete_stable (desired : List (String × DesiredState)) (vip : String) :
    ∀ (cmap : List (String × IpvsService)) (k : KernelState) (calls : List MutationCall),
      (∀ e ∈ cmap, e.2.address = vip → (findKV desired e.1).isSome) →
      recDelete noFaults desired vip cmap k calls = (k, calls) := by
  intro cmap
  induction cmap with
  | nil =>
    intro k calls _
    rfl
  | cons p rest ih =>
    intro k calls hcov
    obtain ⟨key, svc⟩ := p
    rw [recDelete]
    by_cases haddr : svc.address ≠ vip
    · rw [if_pos haddr]
      exact ih k calls (fun e he => hcov e (List.mem_cons_of_mem _ he))
    · rw [if_neg haddr]
      push_neg at haddr
      have hsome : (findKV desired key).isSome := hcov (key, svc) (List.mem_cons_self _ _) haddr
      cases hfd : findKV desired key with
      | none =>
        rw [hfd] at hsome
        exact Bool.noConfusion hsome
      | some st =>
        simp only [hfd]
        exact ih k calls (fun e he => hcov e (List.mem_cons_of_mem _ he))


/-- After one fault-free reconcile pass from a well-formed kernel, every
desired entry is converged (service present with the desired scheduler,
destinations matching the desired set key-for-key and weight-for-weight),
every remaining service at the managed VIP is desired, and the kernel is
again well-formed. -/
theorem reconcile_correct (desired : List (String × DesiredState)) (vip : String)
    (k0 : KernelState)
    (hdes : ∀ e ∈ desired, e.1 = svcKey e.2.service)
    (hdnd : (desired.map Prod.fst).Nodup)
    (hddnd : ∀ e ∈ desired, (dkeys e.2.destinations).Nodup)
    (hS1 : ∀ e ∈ k0.services, e.1 = svcKey e.2)
    (hS2 : (k0.services.map Prod.fst).Nodup)
    (hD2 : (k0.dests.map Prod.fst).Nodup)
    (hKD : ∀ K, (dkeys (destsOf k0 K)).Nodup)
    (horph : ∀ K, findKV k0.services K = none → destsOf k0 K = []) :
    (∀ e ∈ desired,
      (∃ svc', findKV (reconcile noFaults desired (k0.services.map Prod.snd) vip k0).1.services e.1 = some svc' ∧
        svc'.scheduler = e.2.service.scheduler ∧ svcKey svc' = e.1) ∧
      (∀ d ∈ e.2.destinations, ∃ c,
        findDest (destsOf (reconcile noFaults desired (k0.services.map Prod.snd) vip k0).1 e.1) (destKey d) = some c ∧ c.weight = d.weight) ∧
      (∀ c ∈ destsOf (reconcile noFaults desired (k0.services.map Prod.snd) vip k0).1 e.1, ∃ d ∈ e.2.destinations, destKey d = destKey c)) ∧
    (∀ q ∈ (reconcile noFaults desired (k0.services.map Prod.snd) vip k0).1.services, q.2.address = vip → (findKV desired q.1).isSome) ∧
    (∀ e ∈ (reconcile noFaults desired (k0.services.map Prod.snd) vip k0).1.services, e.1 = svcKey e.2) ∧
    ((reconcile noFaults desired (k0.services.map Prod.snd) vip k0).1.services.map Prod.fst).Nodup ∧
    (∀ K, (dkeys (destsOf (reconcile noFaults desired (k0.services.map Prod.snd) vip k0).1 K)).Nodup) := by
  have hrec : reconcile noFaults desired (k0.services.map Prod.snd) vip k0 =
      recDelete noFaults desired vip k0.services (recAdd noFaults k0.services desired k0 []).1 (recAdd noFaults k0.services desired k0 []).2 := by
    unfold reconcile
    rw [buildSvcMap_values k0.services hS1 hS2]
  rw [hrec]
  obtain ⟨hconv, hS1p, hS2p, hKDp⟩ := recAdd_correct k0.services hS1 desired k0 []
    hdes hdnd hddnd (fun e he => ⟨rfl, fun hn => horph e.1 hn⟩) hS1 hS2 hKD
  have hD2p := recAdd_dests_nodup noFaults k0.services desired k0 [] hD2
  obtain ⟨hdelA, hdelB, hdelC, hS1f, hS2f, hD2f, hKDf⟩ :=
    recDelete_correct desired vip k0.services (recAdd noFaults k0.services desired k0 []).1 (recAdd noFaults k0.services desired k0 []).2 hS1 hS1p hS2p hD2p hKDp
  refine ⟨?_, ?_, hS1f, hS2f, hKDf⟩
  · intro e he
    have hsome : (findKV desired e.1).isSome := by
      rw [findKV_of_mem_nodup desired e he hdnd]
      rfl
    obtain ⟨hf1, hf2⟩ := hdelA e.1 hsome
    obtain ⟨⟨svc', hsv, hsc, hsk⟩, hfwd, hbwd⟩ := hconv e he
    refine ⟨⟨svc', hf1.trans hsv, hsc, hsk⟩, ?_, ?_⟩
    · intro d hd
      rw [hf2]
      exact hfwd d hd
    · intro c hc
      rw [hf2] at hc
      exact hbwd c hc
  · intro q hq hqv
    cases hcase : findKV desired q.1 with
    | some st => rfl
    | none =>
      exfalso
      have hfq : findKV (recDelete noFaults desired vip k0.services (recAdd noFaults k0.services desired k0 []).1 (recAdd noFaults k0.services desired k0 []).2).1.services q.1 = some q.2 :=
        findKV_of_mem_nodup _ q hq hS2f
      have hne : ∀ e ∈ desired, e.1 ≠ q.1 := (findKV_eq_none_iff desired q.1).1 hcase
      obtain ⟨hframeA, _⟩ := recAdd_spec noFaults k0.services hS1 desired k0 [] hdes
      have hfr := hframeA q.1 hne
      cases hc0 : findKV k0.services q.1 with
      | none =>
        have h1 : findKV (recAdd noFaults k0.services desired k0 []).1.services q.1 = none := by
          rw [hfr.1, hc0]
        have h2 := hdelC q.1 h1
        rw [hfq] at h2
        exact Option.noConfusion h2
      | some svc0 =>
        have h1 : findKV (recAdd noFaults k0.services desired k0 []).1.services q.1 = some svc0 := by
          rw [hfr.1, hc0]
        by_cases hsv : svc0.address = vip
        · have h2 := hdelB (q.1, svc0) (mem_of_findKV_eq_some _ _ _ hc0) hsv hcase
          have h2p : findKV (recDelete noFaults desired vip k0.services (recAdd noFaults k0.services desired k0 []).1 (recAdd noFaults k0.services desired k0 []).2).1.services q.1 = none := h2
          rw [hfq] at h2p
          exact Option.noConfusion h2p
        · obtain ⟨hdelF, _⟩ := recDelete_spec noFaults desired vip k0.services
            (recAdd noFaults k0.services desired k0 []).1 (recAdd noFaults k0.services desired k0 []).2 hS1
          have hcond : ∀ e ∈ k0.services, e.1 = q.1 → ¬(e.2.address = vip) := by
            intro e hem hek
            have hfk := findKV_of_mem_nodup k0.services e hem hS2
            rw [hek, hc0] at hfk
            have he2 : e.2 = svc0 := (Option.some.inj hfk).symm
            rw [he2]
            exact hsv
          have h2 := (hdelF q.1 hcond).1
          rw [hfq, h1] at h2
          exact hsv ((Option.some.inj h2) ▸ hqv)

/-- A fault-free reconcile pass over an already-converged kernel issues no
mutation calls. -/
theorem reconcile_stable (desired : List (String × DesiredState)) (vip : String)
    (k1 : KernelState)
    (hS1 : ∀ e ∈ k1.services, e.1 = svcKey e.2)
    (hS2 : (k1.services.map Prod.fst).Nodup)
    (hKD : ∀ K, (dkeys (destsOf k1 K)).Nodup)
    (hconv : ∀ e ∈ desired,
      (∃ svc', findKV k1.services e.1 = some svc' ∧
        svc'.scheduler = e.2.service.scheduler ∧ svcKey svc' = e.1) ∧
      (∀ d ∈ e.2.destinations, ∃ c,
        findDest (destsOf k1 e.1) (destKey d) = some c ∧ c.weight = d.weight) ∧
      (∀ c ∈ destsOf k1 e.1, ∃ d ∈ e.2.destinations, destKey d = destKey c))
    (hcov : ∀ q ∈ k1.services, q.2.address = vip → (findKV desired q.1).isSome) :
    reconcile noFaults desired (k1.services.map Prod.snd) vip k1 = (k1, []) := by
  unfold reconcile
  rw [buildSvcMap_values k1.services hS1 hS2]
  show recDelete noFaults desired vip k1.services
    (recAdd noFaults k1.services desired k1 []).1
    (recAdd noFaults k1.services desired k1 []).2 = (k1, [])
  have hadd := recAdd_stable k1 desired []
    (fun e he => (hconv e he).1)
    (fun e he => hKD e.1)
    (fun e he => (hconv e he).2.1)
    (fun e he => (hconv e he).2.2)
  simp only [hadd]
  exact recDelete_stable desired vip k1.services k1 [] hcov


/-- C2 (amended): `Reconciler.Apply` is idempotent provided no desired
service carries two backends that resolve to the same destination key
(address plus resolved port) — without that proviso the counterexample
shows a second Apply keeps issuing `UpdateDestination` calls forever.
Starting from any well-formed kernel state, a second fault-free Apply with
the same config and VIP, run on the kernel produced by the first Apply,
issues zero mutation calls. -/
theorem C2_apply_idempotent (services : List ConfigService) (vip : String)
    (k0 : KernelState) (desired : List (String × DesiredState))
    (hexp : expandConfig services vip = .ok desired)
    (hddnd : ∀ e ∈ desired, (dkeys e.2.destinations).Nodup)
    (hS1 : ∀ e ∈ k0.services, e.1 = svcKey e.2)
    (hS2 : (k0.services.map Prod.fst).Nodup)
    (hD2 : (k0.dests.map Prod.fst).Nodup)
    (hKD : ∀ K, (dkeys (destsOf k0 K)).Nodup)
    (horph : ∀ K, findKV k0.services K = none → destsOf k0 K = []) :
    (Apply noFaults services vip (Apply noFaults services vip k0).kernel).calls = [] := by
  obtain ⟨hwf, hdnd⟩ := expandConfig_wf services vip desired hexp
  have hdes : ∀ e ∈ desired, e.1 = svcKey e.2.service := fun e he => (hwf e he).1
  obtain ⟨hconv1, hcov, hS1f, hS2f, hKDf⟩ :=
    reconcile_correct desired vip k0 hdes hdnd hddnd hS1 hS2 hD2 hKD horph
  have happ1 : (Apply noFaults services vip k0).kernel = (reconcile noFaults desired (k0.services.map Prod.snd) vip k0).1 := by
    unfold Apply
    simp only [hexp, mgrGetServices_noFaults]
  rw [happ1]
  unfold Apply
  simp only [hexp, mgrGetServices_noFaults]
  show (reconcile noFaults desired ((reconcile noFaults desired (k0.services.map Prod.snd) vip k0).1.services.map Prod.snd) vip (reconcile noFaults desired (k0.services.map Prod.snd) vip k0).1).2 = []
  rw [reconcile_stable desired vip (reconcile noFaults desired (k0.services.map Prod.snd) vip k0).1 hS1f hS2f hKDf hconv1 hcov]

/-! ## Config validation (internal/config/validator.go, per-service part) -/

def isValidNameChar (c : Char) : Bool :=
  (decide (97 ≤ c.toNat) && decide (c.toNat ≤ 122)) ||
  (decide (65 ≤ c.toNat) && decide (c.toNat ≤ 90)) ||
  (decide (48 ≤ c.toNat) && decide (c.toNat ≤ 57)) ||
  c = Char.ofNat 95 || c = Char.ofNat 45

def injectionChars : List Char :=
  [Char.ofNat 59, Char.ofNat 39, Char.ofNat 34, Char.ofNat 96,
   Char.ofNat 38, Char.ofNat 124, Char.ofNat 62, Char.ofNat 60]

def containsInjectionChars (s : String) : Bool :=
  injectionChars.any (fun c => s.data.contains c)

/-- `isValidName`: nonempty, matches `^[a-zA-Z0-9_-]+$`, and holds no
injection character. -/
def isValidName (s : String) : Bool :=
  !(s.data.isEmpty) && s.data.all isValidNameChar && !(containsInjectionChars s)

/-- ASCII `strings.ToLower`. -/
def lowerStr (s : String) : String :=
  ⟨s.data.map charToLower⟩

/-- The per-service body of `validateServices`, in source order: name,
protocol, scheduler, ports, port ranges, backends, health check. -/
def validateService (svc : ConfigService) : Bool :=
  isValidName svc.name &&
  decide (svc.name.length ≤ 64) &&
  (lowerStr svc.protocol = "tcp" || lowerStr svc.protocol = "udp") &&
  (lowerStr svc.scheduler = "rr" || lowerStr svc.scheduler = "wrr" ||
    lowerStr svc.scheduler = "sh") &&
  !(svc.ports.isEmpty && svc.portRanges.isEmpty) &&
  svc.ports.all (fun p => decide (1 ≤ p) && decide (p ≤ 65535)) &&
  svc.portRanges.all (fun pr =>
    decide (1 ≤ pr.start) && decide (pr.start ≤ 65535) &&
    decide (1 ≤ pr.stop) && decide (pr.stop ≤ 65535) &&
    decide (pr.start ≤ pr.stop)) &&
  svc.backends.all (fun be =>
    (parseIP be.address).isSome &&
    decide (1 ≤ be.weight) &&
    (decide (be.port = 0) || (decide (1 ≤ be.port) && decide (be.port ≤ 65535)))) &&
  (!svc.health.enabled ||
    (lowerStr svc.health.type = "tcp" &&
     decide (1 ≤ svc.health.port) && decide (svc.health.port ≤ 65535) &&
     decide (100 ≤ svc.health.intervalMS) &&
     decide (100 ≤ svc.health.timeoutMS) &&
     decide (1 ≤ svc.health.failAfter) &&
     decide (1 ≤ svc.health.recoverAfter)))

/-- `validateServices`: every service valid, names pairwise distinct. -/
def validateServices (services : List ConfigService) : Bool :=
  services.all validateService &&
  decide ((services.map (fun s => s.name)).Nodup)

/-- A service with two backends that resolve to the same destination key
(same address, both ports 0) but different weights.  The validator accepts
it: each backend is checked in isolation. -/
def c2svc : ConfigService :=
  { name := "svc-dup", protocol := "tcp", ports := [80], portRanges := [],
    scheduler := "rr",
    backends := [{ address := "10.0.0.1", port := 0, weight := 1 },
                 { address := "10.0.0.1", port := 0, weight := 2 }],
    health := healthOff }

def c2k0 : KernelState := { services := [], dests := [] }

/-- C2 counterexample: the config `[c2svc]` passes validation and its
first Apply succeeds, yet the second Apply from the resulting kernel state
still issues mutation calls — the two same-key backends make the
destination loop update the shared kernel destination's weight on every
pass, so Apply is not idempotent for every valid config. -/
theorem C2_counterexample :
    validateServices [c2svc] = true ∧
    (Apply noFaults [c2svc] "192.0.2.10" c2k0).result = .ok () ∧
    (Apply noFaults [c2svc] "192.0.2.10"
      (Apply noFaults [c2svc] "192.0.2.10" c2k0).kernel).calls ≠ [] := by
  refine ⟨by decide, by rfl, by decide⟩

def c2wsvc : ConfigService :=
  { name := "web", protocol := "tcp", ports := [80], portRanges := [],
    scheduler := "rr",
    backends := [{ address := "10.0.0.1", port := 0, weight := 1 }],
    health := healthOff }

theorem C2_apply_idempotent_witness :
    (Apply noFaults [c2wsvc] "192.0.2.10"
      (Apply noFaults [c2wsvc] "192.0.2.10" ⟨[], []⟩).kernel).calls = [] := by
  refine C2_apply_idempotent [c2wsvc] "192.0.2.10" ⟨[], []⟩
    [("tcp:192.0.2.10:80",
      { service := { address := "192.0.2.10", protocol := "tcp", port := 80,
                     scheduler := "rr" },
        destinations := [{ address := some "10.0.0.1", port := 80, weight := 1 }] })]
    (by rfl) ?_ ?_ ?_ ?_ ?_ ?_
  · intro e he
    rw [List.mem_singleton.1 he]
    decide
  · intro e he
    cases he
  · exact List.nodup_nil
  · exact List.nodup_nil
  · intro K
    exact List.nodup_nil
  · intro K _
    rfl

def c3kernel : KernelState :=
  { services := [("tcp:203.0.113.5:443",
      { address := "203.0.113.5", protocol := "tcp", port := 443, scheduler := "rr" })],
    dests := [("tcp:203.0.113.5:443",
      [{ address := some "10.9.9.9", port := 443, weight := 1 }])] }

theorem C3_tenancy_witness :
    (∀ c ∈ (Apply noFaults [c2wsvc] "192.0.2.10" c3kernel).calls,
      c.svcOf.address = "192.0.2.10") ∧
    (∀ e ∈ c3kernel.services, e.2.address ≠ "192.0.2.10" →
      findKV (Apply noFaults [c2wsvc] "192.0.2.10" c3kernel).kernel.services e.1 = some e.2 ∧
      destsOf (Apply noFaults [c2wsvc] "192.0.2.10" c3kernel).kernel e.1 =
        destsOf c3kernel e.1) :=
  C3_tenancy noFaults [c2wsvc] "192.0.2.10" c3kernel (by rfl)
    (by intro e he; rw [List.mem_singleton.1 he]; decide)
    (by decide)
    (by intro e he; rw [List.mem_singleton.1 he]; decide)

/-! ## Health checker (internal/health/checker.go) -/

inductive HState where
  | unknown
  | healthy
  | unhealthy
  deriving DecidableEq, Repr

structure BackendKey where
  service : String
  backend : String
  deriving DecidableEq, Repr

structure Target where
  key : BackendKey
  checkPort : Int
  interval : Int
  timeout : Int
  failAfter : Int
  recoverAfter : Int
  configuredWeight : Int
  deriving DecidableEq, Repr

structure RunnerState where
  state : HState
  consecutiveSuccesses : Int
  consecutiveFailures : Int
  effectiveWeight : Int
  deriving DecidableEq, Repr

/-- The runner state `Scheduler.Start` installs for each target. -/
def initialRunner : RunnerState :=
  { state := .unknown, consecutiveSuccesses := 0, consecutiveFailures := 0,
    effectiveWeight := -1 }

/-- `Scheduler.tick`, given the probe outcome (`success := err == nil`):
counter and state update, then weight assignment, then the emitted
state-change and weight-change events (emitted iff changed). -/
def tick (t : Target) (r : RunnerState) (success : Bool) :
    RunnerState × Option (HState × HState) × Option (Int × Int) :=
  let r1 : RunnerState :=
    if success then
      let cs := r.consecutiveSuccesses + 1
      let st : HState :=
        match r.state with
        | .unknown => .healthy
        | .unhealthy => if cs ≥ t.recoverAfter then .healthy else .unhealthy
        | .healthy => .healthy
      { state := st, consecutiveSuccesses := cs, consecutiveFailures := 0,
        effectiveWeight := r.effectiveWeight }
    else
      let cf := r.consecutiveFailures + 1
      let st : HState :=
        match r.state with
        | .unknown => .unhealthy
        | .healthy => if cf ≥ t.failAfter then .unhealthy else .healthy
        | .unhealthy => .unhealthy
      { state := st, consecutiveSuccesses := 0, consecutiveFailures := cf,
        effectiveWeight := r.effectiveWeight }
  let ew : Int :=
    if r1.state = .healthy then t.configuredWeight
    else if r1.state = .unhealthy then 0 else r1.effectiveWeight
  let r2 : RunnerState := { r1 with effectiveWeight := ew }
  (r2,
   if r.state ≠ r2.state then some (r.state, r2.state) else none,
   if r.effectiveWeight ≠ ew then some (r.effectiveWeight, ew) else none)

/-- The spec's transition table, written from its words: counters update on
every probe with the opposite counter reset; Unknown resolves on the first
probe; Healthy falls iff the failure streak reaches fail_after; Unhealthy
recovers iff the success streak reaches recover_after; the effective
weight becomes the configured weight on each transition to Healthy, 0 on
each transition to Unhealthy, and is untouched otherwise; events are
emitted exactly when the state or weight changed. -/
def specTick (t : Target) (r : RunnerState) (success : Bool) :
    RunnerState × Option (HState × HState) × Option (Int × Int) :=
  let cs : Int := if success then r.consecutiveSuccesses + 1 else 0
  let cf : Int := if success then 0 else r.consecutiveFailures + 1
  let st : HState :=
    match r.state, success with
    | .unknown, true => .healthy
    | .unknown, false => .unhealthy
    | .healthy, true => .healthy
    | .healthy, false => if cf ≥ t.failAfter then .unhealthy else .healthy
    | .unhealthy, true => if cs ≥ t.recoverAfter then .healthy else .unhealthy
    | .unhealthy, false => .unhealthy
  let ew : Int :=
    if st = .healthy ∧ r.state ≠ .healthy then t.configuredWeight
    else if st = .unhealthy ∧ r.state ≠ .unhealthy then 0
    else r.effectiveWeight
  (⟨st, cs, cf, ew⟩,
   if r.state ≠ st then some (r.state, st) else none,
   if r.effectiveWeight ≠ ew then some (r.effectiveWeight, ew) else none)

/-- States reachable from `initialRunner`: while Unknown nothing has been
counted or published (weight still the -1 sentinel); Healthy always
carries the configured weight; Unhealthy always carries 0. -/
def reachInv (t : Target) (r : RunnerState) : Prop :=
  (r.state = .unknown → r.effectiveWeight = -1 ∧
    r.consecutiveSuccesses = 0 ∧ r.consecutiveFailures = 0) ∧
  (r.state = .healthy → r.effectiveWeight = t.configuredWeight) ∧
  (r.state = .unhealthy → r.effectiveWeight = 0)

instance (t : Target) (r : RunnerState) : Decidable (reachInv t r) := by
  unfold reachInv
  infer_instance

theorem reachInv_intro (t : Target) (r : RunnerState)
    (h1 : r.state = .unknown → r.effectiveWeight = -1 ∧
      r.consecutiveSuccesses = 0 ∧ r.consecutiveFailures = 0)
    (h2 : r.state = .healthy → r.effectiveWeight = t.configuredWeight)
    (h3 : r.state = .unhealthy → r.effectiveWeight = 0) : reachInv t r :=
  ⟨h1, h2, h3⟩

/-- C6: from the initial Unknown/0/0/unpublished runner state, every tick
updates counters, state, weight, and emitted events exactly as the spec
table prescribes (`specTick`), and the reachability invariant — no weight
published while Unknown, configured weight while Healthy, zero while
Unhealthy — is preserved. -/
theorem C6_health_state_machine (t : Target) (r : RunnerState) (b : Bool)
    (hinv : reachInv t r) :
    reachInv t initialRunner ∧
    tick t r b = specTick t r b ∧
    reachInv t (tick t r b).1 := by
  obtain ⟨hu, hh, huh⟩ := hinv
  refine ⟨reachInv_intro _ _ (fun _ => ⟨rfl, rfl, rfl⟩)
    (fun h => nomatch h) (fun h => nomatch h), ?_⟩
  rcases r with ⟨st, cs, cf, ew⟩
  cases st with
  | unknown =>
    cases b with
    | true =>
      exact ⟨rfl, reachInv_intro _ _ (fun h => nomatch h) (fun _ => rfl)
        (fun h => nomatch h)⟩
    | false =>
      exact ⟨rfl, reachInv_intro _ _ (fun h => nomatch h) (fun h => nomatch h)
        (fun _ => rfl)⟩
  | healthy =>
    have hew : ew = t.configuredWeight := hh rfl
    subst hew
    cases b with
    | true =>
      exact ⟨rfl, reachInv_intro _ _ (fun h => nomatch h) (fun _ => rfl)
        (fun h => nomatch h)⟩
    | false =>
      by_cases hfa : (cf + 1 : Int) ≥ t.failAfter
      · constructor
        · simp [tick, specTick, hfa]
        · simp [tick, reachInv, hfa]
      · constructor
        · simp [tick, specTick, hfa]
        · simp [tick, reachInv, hfa]
  | unhealthy =>
    have hew : ew = 0 := huh rfl
    subst hew
    cases b with
    | true =>
      by_cases hra : (cs + 1 : Int) ≥ t.recoverAfter
      · constructor
        · simp [tick, specTick, hra]
        · simp [tick, reachInv, hra]
      · constructor
        · simp [tick, specTick, hra]
        · simp [tick, reachInv, hra]
    | false =>
      exact ⟨rfl, reachInv_intro _ _ (fun h => nomatch h) (fun h => nomatch h)
        (fun _ => rfl)⟩

theorem C6_health_state_machine_witness :
    reachInv ⟨⟨"web", "10.0.0.1"⟩, 80, 1000, 500, 3, 2, 5⟩ initialRunner ∧
    tick ⟨⟨"web", "10.0.0.1"⟩, 80, 1000, 500, 3, 2, 5⟩ initialRunner true =
      specTick ⟨⟨"web", "10.0.0.1"⟩, 80, 1000, 500, 3, 2, 5⟩ initialRunner true ∧
    reachInv ⟨⟨"web", "10.0.0.1"⟩, 80, 1000, 500, 3, 2, 5⟩
      (tick ⟨⟨"web", "10.0.0.1"⟩, 80, 1000, 500, 3, 2, 5⟩ initialRunner true).1 :=
  C6_health_state_machine ⟨⟨"web", "10.0.0.1"⟩, 80, 1000, 500, 3, 2, 5⟩
    initialRunner true (by decide)

/-! ## Engine signal handling (internal/daemon/signals.go)

The engine state is modelled with the fields `onReload` / `onVIPTick` /
`tryReconcile` / `tryDisable` read and write; the config type is abstract.
External effects — config loading, validation, hashing, the VIP presence
check, `reconciler.Apply`, clock and jitter reads — enter as parameters. -/

structure EngineState (Cfg : Type) where
  cfg : Option Cfg
  cfgHash : String
  backendWeights : List (BackendKey × Int)
  scheduler : Option (List Target)
  active : Bool
  pendingReconcile : Bool
  pendingDisable : Bool
  reconcileAttempts : Int
  nextReconcileRetry : Int
  deriving Repr

/-- `calculateBackoff` in milliseconds; `nanos` is the
`time.Now().UnixNano()` read used for jitter. -/
def calculateBackoff (attempt : Int) (nanos : Int) : Int :=
  if attempt ≤ 1 then 0
  else if attempt = 2 then 5000 + nanos % 1000
  else 10000 + nanos % 2000

/-- `Engine.tryReconcile`: backoff gate first, then the
config/active/pending gate, then Apply; failure bumps the attempt counter
and defers the next retry, success resets both. -/
def tryReconcile {Cfg : Type} (now nanos : Int) (applyRes : Except String Unit)
    (e : EngineState Cfg) : EngineState Cfg :=
  if ¬(now > e.nextReconcileRetry) then e
  else if e.cfg.isNone ∨ e.active = false ∨ e.pendingReconcile = false then e
  else
    match applyRes with
    | .error _ =>
      { e with pendingReconcile := true
               reconcileAttempts := e.reconcileAttempts + 1
               nextReconcileRetry := now + calculateBackoff (e.reconcileAttempts + 1) nanos }
    | .ok _ =>
      { e with pendingReconcile := false
               reconcileAttempts := 0
               nextReconcileRetry := 0 }

/-- `Engine.tryDisable` (no backoff gate). -/
def tryDisable {Cfg : Type} (disableRes : Except String Unit)
    (e : EngineState Cfg) : EngineState Cfg :=
  if e.cfg.isNone ∨ e.active = true ∨ e.pendingDisable = false then e
  else
    match disableRes with
    | .error _ => { e with pendingDisable := true }
    | .ok _ => { e with pendingDisable := false }

/-- `Engine.loadAndSetConfig`: the snapshot, hash and weight map are
replaced only after load, validation and hashing all succeed. -/
def loadAndSetConfig {Cfg : Type} (load : Except String Cfg)
    (validate : Cfg → Except String Unit) (hash : Cfg → Except String String)
    (e : EngineState Cfg) : Except String Unit × EngineState Cfg :=
  match load with
  | .error err => (.error err, e)
  | .ok cfg =>
    match validate cfg with
    | .error err => (.error err, e)
    | .ok _ =>
      match hash cfg with
      | .error err => (.error err, e)
      | .ok h =>
        (.ok (), { e with cfg := some cfg, cfgHash := h, backendWeights := [] })

def stopHealthScheduler {Cfg : Type} (e : EngineState Cfg) : EngineState Cfg :=
  { e with scheduler := none }

/-- `Engine.startHealthScheduler`, with the target expansion of the loaded
config and the `Scheduler.Start` outcome injected: on success the new
scheduler is installed, on failure (or with no targets) none is. -/
def startHealthScheduler {Cfg : Type} (targets : Cfg → List Target)
    (startOk : Bool) (e : EngineState Cfg) : EngineState Cfg :=
  match e.cfg with
  | none => stopHealthScheduler e
  | some cfg =>
    let e1 := stopHealthScheduler e
    if (targets cfg).isEmpty then e1
    else if startOk then { e1 with scheduler := some (targets cfg) } else e1


theorem tryReconcile_frame {Cfg : Type} (now nanos : Int)
    (applyRes : Except String Unit) (e : EngineState Cfg) :
    (tryReconcile now nanos applyRes e).cfg = e.cfg ∧
    (tryReconcile now nanos applyRes e).cfgHash = e.cfgHash ∧
    (tryReconcile now nanos applyRes e).backendWeights = e.backendWeights ∧
    (tryReconcile now nanos applyRes e).scheduler = e.scheduler ∧
    (tryReconcile now nanos applyRes e).active = e.active := by
  unfold tryReconcile
  split
  · exact ⟨rfl, rfl, rfl, rfl, rfl⟩
  · split
    · exact ⟨rfl, rfl, rfl, rfl, rfl⟩
    · split
      · exact ⟨rfl, rfl, rfl, rfl, rfl⟩
      · exact ⟨rfl, rfl, rfl, rfl, rfl⟩

theorem startHealthScheduler_frame {Cfg : Type} (targets : Cfg → List Target)
    (startOk : Bool) (e : EngineState Cfg) :
    (startHealthScheduler targets startOk e).cfg = e.cfg ∧
    (startHealthScheduler targets startOk e).cfgHash = e.cfgHash ∧
    (startHealthScheduler targets startOk e).backendWeights = e.backendWeights ∧
    (startHealthScheduler targets startOk e).active = e.active ∧
    (startHealthScheduler targets startOk e).pendingReconcile = e.pendingReconcile := by
  unfold startHealthScheduler stopHealthScheduler
  split
  · exact ⟨rfl, rfl, rfl, rfl, rfl⟩
  · split
    · exact ⟨rfl, rfl, rfl, rfl, rfl⟩
    · split
      · exact ⟨rfl, rfl, rfl, rfl, rfl⟩
      · exact ⟨rfl, rfl, rfl, rfl, rfl⟩

/-- The success tail of `onReload`: restart the scheduler, set
pending-reconcile, reconcile immediately when active. -/
def reloadFinish {Cfg : Type} (targets : Cfg → List Target) (startOk : Bool)
    (now nanos : Int) (applyRes : Except String Unit)
    (e1 : EngineState Cfg) : EngineState Cfg :=
  if ({ startHealthScheduler targets startOk (stopHealthScheduler e1) with
        pendingReconcile := true } : EngineState Cfg).active then
    tryReconcile now nanos applyRes
      { startHealthScheduler targets startOk (stopHealthScheduler e1) with
        pendingReconcile := true }
  else
    { startHealthScheduler targets startOk (stopHealthScheduler e1) with
      pendingReconcile := true }

/-- `Engine.onReload`: load and validate first; on failure keep everything;
on success restart the health scheduler, mark a reconcile pending, and
reconcile immediately when active. -/
def onReload {Cfg : Type} (load : Except String Cfg)
    (validate : Cfg → Except String Unit) (hash : Cfg → Except String String)
    (targets : Cfg → List Target) (startOk : Bool)
    (now nanos : Int) (applyRes : Except String Unit)
    (e : EngineState Cfg) : EngineState Cfg :=
  match (loadAndSetConfig load validate hash e).1 with
  | .error _ => (loadAndSetConfig load validate hash e).2
  | .ok _ =>
    reloadFinish targets startOk now nanos applyRes
      (loadAndSetConfig load validate hash e).2

theorem reloadFinish_fields {Cfg : Type} (targets : Cfg → List Target) (startOk : Bool)
    (now nanos : Int) (applyRes : Except String Unit) (e1 : EngineState Cfg) :
    (reloadFinish targets startOk now nanos applyRes e1).cfg = e1.cfg ∧
    (reloadFinish targets startOk now nanos applyRes e1).cfgHash = e1.cfgHash ∧
    (reloadFinish targets startOk now nanos applyRes e1).backendWeights = e1.backendWeights := by
  unfold reloadFinish
  obtain ⟨hf1, hf2, hf3, _, _⟩ := startHealthScheduler_frame targets startOk
    (stopHealthScheduler e1)
  split
  · obtain ⟨hg1, hg2, hg3, _, _⟩ := tryReconcile_frame now nanos applyRes
      { startHealthScheduler targets startOk (stopHealthScheduler e1) with
        pendingReconcile := true }
    exact ⟨hg1.trans hf1, hg2.trans hf2, hg3.trans hf3⟩
  · exact ⟨hf1, hf2, hf3⟩

/-- C4: reload safety.  If loading or validating the new config fails, the
reload handler returns with the engine state exactly as it was (snapshot,
hash, scheduler, weight map, flags all identical); on the success path the
snapshot and hash are replaced and the weight map cleared; and any change
to snapshot, hash or weight map implies load and validation both
succeeded. -/
theorem C4_reload_safety {Cfg : Type} (load : Except String Cfg)
    (validate : Cfg → Except String Unit) (hash : Cfg → Except String String)
    (targets : Cfg → List Target) (startOk : Bool) (now nanos : Int)
    (applyRes : Except String Unit) (e : EngineState Cfg) :
    (((∃ s, load = .error s) ∨ (∃ c s, load = .ok c ∧ validate c = .error s)) →
      onReload load validate hash targets startOk now nanos applyRes e = e) ∧
    (∀ c h, load = .ok c → validate c = .ok () → hash c = .ok h →
      (onReload load validate hash targets startOk now nanos applyRes e).cfg = some c ∧
      (onReload load validate hash targets startOk now nanos applyRes e).cfgHash = h ∧
      (onReload load validate hash targets startOk now nanos applyRes e).backendWeights = []) ∧
    (((onReload load validate hash targets startOk now nanos applyRes e).cfg ≠ e.cfg ∨
      (onReload load validate hash targets startOk now nanos applyRes e).cfgHash ≠ e.cfgHash ∨
      (onReload load validate hash targets startOk now nanos applyRes e).backendWeights ≠
        e.backendWeights) →
      ∃ c, load = .ok c ∧ validate c = .ok ()) := by
  refine ⟨?_, ?_, ?_⟩
  · rintro (⟨s, hs⟩ | ⟨c, s, hc, hv⟩)
    · subst hs
      rfl
    · subst hc
      unfold onReload loadAndSetConfig
      simp only [hv]
  · intro c h hc hv hh
    subst hc
    have hred : onReload (.ok c) validate hash targets startOk now nanos applyRes e =
        reloadFinish targets startOk now nanos applyRes
          { e with cfg := some c, cfgHash := h, backendWeights := [] } := by
      unfold onReload loadAndSetConfig
      simp only [hv, hh]
    rw [hred]
    obtain ⟨h1, h2, h3⟩ := reloadFinish_fields targets startOk now nanos applyRes
      { e with cfg := some c, cfgHash := h, backendWeights := [] }
    exact ⟨h1, h2, h3⟩
  · intro hchg
    cases hload : load with
    | error s =>
      have heq : onReload load validate hash targets startOk now nanos applyRes e = e := by
        rw [hload]
        rfl
      rw [heq] at hchg
      rcases hchg with h | h | h <;> exact absurd rfl h
    | ok c =>
      cases hv : validate c with
      | error s =>
        have heq : onReload load validate hash targets startOk now nanos applyRes e = e := by
          rw [hload]
          unfold onReload loadAndSetConfig
          simp only [hv]
        rw [heq] at hchg
        rcases hchg with h | h | h <;> exact absurd rfl h
      | ok u =>
        cases hh : hash c with
        | error s =>
          have heq : onReload load validate hash targets startOk now nanos applyRes e = e := by
            rw [hload]
            unfold onReload loadAndSetConfig
            simp only [hv, hh]
          rw [heq] at hchg
          rcases hchg with h | h | h <;> exact absurd rfl h
        | ok h =>
          exact ⟨c, rfl, hv⟩

def c4engine : EngineState String :=
  { cfg := some "old", cfgHash := "oldhash", backendWeights := [(⟨"svc", "10.0.0.1"⟩, 3)],
    scheduler := some [], active := false, pendingReconcile := false,
    pendingDisable := false, reconcileAttempts := 0, nextReconcileRetry := 0 }

theorem C4_reload_safety_witness :
    (onReload (Except.error "read failed") (fun _ => Except.ok ())
      (fun c => Except.ok c) (fun _ => []) true 5 0 (Except.ok ()) c4engine = c4engine) ∧
    ((onReload (Except.ok "new") (fun _ => Except.ok ())
      (fun c => Except.ok c) (fun _ => []) true 5 0 (Except.ok ()) c4engine).cfg = some "new" ∧
     (onReload (Except.ok "new") (fun _ => Except.ok ())
      (fun c => Except.ok c) (fun _ => []) true 5 0 (Except.ok ()) c4engine).cfgHash = "new" ∧
     (onReload (Except.ok "new") (fun _ => Except.ok ())
      (fun c => Except.ok c) (fun _ => []) true 5 0 (Except.ok ()) c4engine).backendWeights = []) :=
  ⟨(C4_reload_safety (Except.error "read failed") (fun _ => Except.ok ())
      (fun c => Except.ok c) (fun _ => []) true 5 0 (Except.ok ()) c4engine).1
      (Or.inl ⟨"read failed", rfl⟩),
   (C4_reload_safety (Except.ok "new") (fun _ => Except.ok ())
      (fun c => Except.ok c) (fun _ => []) true 5 0 (Except.ok ()) c4engine).2.1
      "new" "new" rfl rfl rfl⟩

/-- C8: the backoff schedule.  `calculateBackoff` returns 0 for the first
attempt, 5 s plus sub-second jitter for the second, 10 s plus sub-2 s
jitter from the third on; a failed reconcile run bumps the attempt counter
to `k` and defers the next retry to `now + backoff(k)` while keeping the
reconcile pending; a successful run resets the counter and clears the
deadline; and while the deadline has not passed, `tryReconcile` is a
no-op. -/
theorem C8_backoff_schedule {Cfg : Type} (nanos now : Int) (e : EngineState Cfg)
    (k : Int) (s : String) (e' : EngineState Cfg) (now' : Int)
    (r : Except String Unit)
    (hk : 3 ≤ k)
    (hgate : now > e.nextReconcileRetry) (hcfg : e.cfg.isSome)
    (hact : e.active = true) (hpend : e.pendingReconcile = true)
    (hgate' : ¬(now' > e'.nextReconcileRetry)) :
    (calculateBackoff 1 nanos = 0) ∧
    (5000 ≤ calculateBackoff 2 nanos ∧ calculateBackoff 2 nanos < 6000) ∧
    (10000 ≤ calculateBackoff k nanos ∧ calculateBackoff k nanos < 12000) ∧
    ((tryReconcile now nanos (.error s) e).reconcileAttempts =
        e.reconcileAttempts + 1 ∧
      (tryReconcile now nanos (.error s) e).nextReconcileRetry =
        now + calculateBackoff (e.reconcileAttempts + 1) nanos ∧
      (tryReconcile now nanos (.error s) e).pendingReconcile = true) ∧
    ((tryReconcile now nanos (.ok ()) e).reconcileAttempts = 0 ∧
      (tryReconcile now nanos (.ok ()) e).nextReconcileRetry = 0 ∧
      (tryReconcile now nanos (.ok ()) e).pendingReconcile = false) ∧
    (tryReconcile now' nanos r e' = e') := by
  have hm1 : 0 ≤ nanos % 1000 := Int.emod_nonneg nanos (by norm_num)
  have hm2 : nanos % 1000 < 1000 := Int.emod_lt_of_pos nanos (by norm_num)
  have hm3 : 0 ≤ nanos % 2000 := Int.emod_nonneg nanos (by norm_num)
  have hm4 : nanos % 2000 < 2000 := Int.emod_lt_of_pos nanos (by norm_num)
  have hg2 : ¬(e.cfg.isNone = true ∨ e.active = false ∨ e.pendingReconcile = false) := by
    rintro (h | h | h)
    · rw [Option.isNone_iff_eq_none] at h
      rw [h] at hcfg
      exact Bool.noConfusion hcfg
    · rw [hact] at h
      exact Bool.noConfusion h
    · rw [hpend] at h
      exact Bool.noConfusion h
  refine ⟨by simp [calculateBackoff], ⟨?_, ?_⟩, ?_, ?_, ?_, ?_⟩
  · simp only [calculateBackoff]
    norm_num
    omega
  · simp only [calculateBackoff]
    norm_num
    omega
  · have hk1 : ¬(k ≤ 1) := by omega
    have hk2 : ¬(k = 2) := by omega
    rw [calculateBackoff, if_neg hk1, if_neg hk2]
    omega
  · rw [tryReconcile.eq_def, if_neg (not_not_intro hgate), if_neg hg2]
    exact ⟨rfl, rfl, rfl⟩
  · rw [tryReconcile.eq_def, if_neg (not_not_intro hgate), if_neg hg2]
    exact ⟨rfl, rfl, rfl⟩
  · rw [tryReconcile.eq_def, if_pos hgate']

def c8engine : EngineState String :=
  { cfg := some "cfg", cfgHash := "h", backendWeights := [],
    scheduler := none, active := true, pendingReconcile := true,
    pendingDisable := false, reconcileAttempts := 1, nextReconcileRetry := 0 }

def c8idle : EngineState String :=
  { cfg := some "cfg", cfgHash := "h", backendWeights := [],
    scheduler := none, active := true, pendingReconcile := true,
    pendingDisable := false, reconcileAttempts := 2, nextReconcileRetry := 9 }

theorem C8_backoff_schedule_witness :
    (calculateBackoff 1 7 = 0) ∧
    (5000 ≤ calculateBackoff 2 7 ∧ calculateBackoff 2 7 < 6000) ∧
    (10000 ≤ calculateBackoff 3 7 ∧ calculateBackoff 3 7 < 12000) ∧
    ((tryReconcile 1 7 (.error "apply failed") c8engine).reconcileAttempts =
        c8engine.reconcileAttempts + 1 ∧
      (tryReconcile 1 7 (.error "apply failed") c8engine).nextReconcileRetry =
        1 + calculateBackoff (c8engine.reconcileAttempts + 1) 7 ∧
      (tryReconcile 1 7 (.error "apply failed") c8engine).pendingReconcile = true) ∧
    ((tryReconcile 1 7 (.ok ()) c8engine).reconcileAttempts = 0 ∧
      (tryReconcile 1 7 (.ok ()) c8engine).nextReconcileRetry = 0 ∧
      (tryReconcile 1 7 (.ok ()) c8engine).pendingReconcile = false) ∧
    (tryReconcile 4 7 (.error "apply failed") c8idle = c8idle) :=
  C8_backoff_schedule 7 1 c8engine 3 "apply failed" c8idle 4
    (.error "apply failed") (by decide) (by decide) (by decide) (by decide)
    (by decide) (by decide)

/-! ## VIP edge trigger (`Engine.onVIPTick`) -/

inductive VIPEvent where
  | acquired
  | released
  deriving DecidableEq, Repr

/-- The mutex-guarded flag block of `onVIPAcquired`. -/
def acquireFlags {Cfg : Type} (e : EngineState Cfg) : EngineState Cfg :=
  { e with active := true, pendingDisable := false, pendingReconcile := true }

/-- The mutex-guarded flag block of `onVIPReleased`. -/
def releaseFlags {Cfg : Type} (e : EngineState Cfg) : EngineState Cfg :=
  { e with active := false, pendingReconcile := false, pendingDisable := true }

def onVIPAcquired {Cfg : Type} (now nanos : Int) (applyRes : Except String Unit)
    (e : EngineState Cfg) : EngineState Cfg :=
  tryReconcile now nanos applyRes (acquireFlags e)

def onVIPReleased {Cfg : Type} (disableRes : Except String Unit)
    (e : EngineState Cfg) : EngineState Cfg :=
  tryDisable disableRes (releaseFlags e)

/-- `Engine.onVIPTick` with the presence check injected (`none` models a
failed check): no config or failed check returns immediately; a rising
edge runs the acquired handler, a falling edge the released handler; then
the tick always attempts a reconcile (present) or a disable (absent). -/
def onVIPTick {Cfg : Type} (check : Option Bool) (now nanos : Int)
    (applyRes disableRes : Except String Unit) (e : EngineState Cfg) :
    EngineState Cfg × List VIPEvent :=
  match e.cfg with
  | none => (e, [])
  | some _ =>
    match check with
    | none => (e, [])
    | some present =>
      if present && !e.active then
        (tryReconcile now nanos applyRes (onVIPAcquired now nanos applyRes e),
         [VIPEvent.acquired])
      else if !present && e.active then
        (tryDisable disableRes (onVIPReleased disableRes e), [VIPEvent.released])
      else
        (if present then tryReconcile now nanos applyRes e
         else tryDisable disableRes e, [])

structure TickInput where
  check : Option Bool
  applyRes : Except String Unit
  disableRes : Except String Unit
  now : Int
  nanos : Int

def runTicks {Cfg : Type} : List TickInput → EngineState Cfg →
    EngineState Cfg × List VIPEvent
  | [], e => (e, [])
  | i :: rest, e =>
    ((runTicks rest (onVIPTick i.check i.now i.nanos i.applyRes i.disableRes e).1).1,
     (onVIPTick i.check i.now i.nanos i.applyRes i.disableRes e).2 ++
       (runTicks rest (onVIPTick i.check i.now i.nanos i.applyRes i.disableRes e).1).2)

/-- Rising edges of a presence sequence relative to a starting level. -/
def countRises : Bool → List Bool → Nat
  | _, [] => 0
  | prev, p :: rest => (if p && !prev then 1 else 0) + countRises p rest

/-- Falling edges of a presence sequence relative to a starting level. -/
def countFalls : Bool → List Bool → Nat
  | _, [] => 0
  | prev, p :: rest => (if !p && prev then 1 else 0) + countFalls p rest

theorem tryDisable_frame {Cfg : Type} (disableRes : Except String Unit)
    (e : EngineState Cfg) :
    (tryDisable disableRes e).cfg = e.cfg ∧
    (tryDisable disableRes e).active = e.active := by
  unfold tryDisable
  split
  · exact ⟨rfl, rfl⟩
  · split
    · exact ⟨rfl, rfl⟩
    · exact ⟨rfl, rfl⟩

theorem onVIPTick_facts {Cfg : Type} (check : Option Bool) (now nanos : Int)
    (applyRes disableRes : Except String Unit) (e : EngineState Cfg)
    (hcfg : e.cfg.isSome) :
    (onVIPTick check now nanos applyRes disableRes e).1.cfg = e.cfg ∧
    (onVIPTick check now nanos applyRes disableRes e).1.active =
      (match check with | none => e.active | some p => p) ∧
    (onVIPTick check now nanos applyRes disableRes e).2 =
      (match check with
       | none => []
       | some p =>
         if p && !e.active then [VIPEvent.acquired]
         else if !p && e.active then [VIPEvent.released]
         else []) := by
  cases hc : e.cfg with
  | none =>
    rw [hc] at hcfg
    exact Bool.noConfusion hcfg
  | some c =>
    unfold onVIPTick
    cases check with
    | none =>
      simp only [hc]
      exact ⟨by trivial, by trivial, by trivial⟩
    | some p =>
      simp only [hc]
      by_cases hb1 : (p && !e.active) = true
      · rw [if_pos hb1]
        have hb1' := hb1
        rw [Bool.and_eq_true] at hb1'
        obtain ⟨hp, hna⟩ := hb1'
        obtain ⟨hq1, _, _, _, hq5⟩ := tryReconcile_frame now nanos applyRes
          (acquireFlags e)
        obtain ⟨hr1, _, _, _, hr5⟩ := tryReconcile_frame now nanos applyRes
          (onVIPAcquired now nanos applyRes e)
        refine ⟨(hr1.trans hq1).trans hc, ?_, (if_pos hb1).symm⟩
        rw [hr5]
        show (tryReconcile now nanos applyRes (acquireFlags e)).active = p
        rw [hq5, hp]
        rfl
      · rw [if_neg hb1]
        by_cases hb2 : (!p && e.active) = true
        · rw [if_pos hb2]
          have hb2' := hb2
          rw [Bool.and_eq_true] at hb2'
          obtain ⟨hnp, ha⟩ := hb2'
          obtain ⟨hq1, hq5⟩ := tryDisable_frame disableRes (releaseFlags e)
          obtain ⟨hr1, hr5⟩ := tryDisable_frame disableRes
            (onVIPReleased disableRes e)
          refine ⟨(hr1.trans hq1).trans hc, ?_, by rw [if_neg hb1, if_pos hb2]⟩
          rw [hr5]
          show (tryDisable disableRes (releaseFlags e)).active = p
          rw [hq5]
          show false = p
          cases p with
          | false => rfl
          | true => exact Bool.noConfusion hnp
        · rw [if_neg hb2]
          have hpa : p = e.active := by
            cases p with
            | true =>
              cases ha : e.active with
              | true => rfl
              | false =>
                exfalso
                refine hb1 ?_
                rw [ha]
                rfl
            | false =>
              cases ha : e.active with
              | false => rfl
              | true =>
                exfalso
                refine hb2 ?_
                rw [ha]
                rfl
          cases hp : p with
          | true =>
            obtain ⟨hq1, _, _, _, hq5⟩ := tryReconcile_frame now nanos applyRes e
            rw [if_pos rfl]
            subst hp
            refine ⟨hq1.trans hc, ?_, by rw [if_neg hb1, if_neg hb2]⟩
            rw [hq5, ← hpa]
          | false =>
            obtain ⟨hq1, hq5⟩ := tryDisable_frame disableRes e
            rw [if_neg (by simp)]
            subst hp
            refine ⟨hq1.trans hc, ?_, by rw [if_neg hb1, if_neg hb2]⟩
            rw [hq5, ← hpa]

theorem runTicks_counts {Cfg : Type} (inputs : List TickInput) :
    ∀ e0 : EngineState Cfg, e0.cfg.isSome →
      (runTicks inputs e0).2.count VIPEvent.acquired =
        countRises e0.active (inputs.filterMap TickInput.check) ∧
      (runTicks inputs e0).2.count VIPEvent.released =
        countFalls e0.active (inputs.filterMap TickInput.check) := by
  induction inputs with
  | nil =>
    intro e0 _
    exact ⟨rfl, rfl⟩
  | cons i rest ih =>
    intro e0 hcfg
    obtain ⟨hfc, hfa, hfe⟩ := onVIPTick_facts i.check i.now i.nanos i.applyRes
      i.disableRes e0 hcfg
    have hcfg' : (onVIPTick i.check i.now i.nanos i.applyRes i.disableRes e0).1.cfg.isSome := by
      rw [hfc]
      exact hcfg
    obtain ⟨ih1, ih2⟩ := ih (onVIPTick i.check i.now i.nanos i.applyRes i.disableRes e0).1 hcfg'
    rw [runTicks]
    cases hchk : i.check with
    | none =>
      simp only [hchk] at hfe hfa
      rw [hchk] at ih1 ih2
      rw [hfa] at ih1 ih2
      simp only [List.filterMap_cons, hchk]
      constructor
      · simp [hfe, ih1]
      · simp [hfe, ih2]
    | some p =>
      simp only [hchk] at hfe hfa
      rw [hchk] at ih1 ih2
      rw [hfa] at ih1 ih2
      simp only [List.filterMap_cons, hchk]
      constructor
      · rw [List.count_append, hfe, countRises, ih1]
        by_cases h1 : (p && !e0.active) = true
        · simp [h1]
        · by_cases h2 : (!p && e0.active) = true
          · simp [h1, h2]
          · simp [h1, h2]
      · rw [List.count_append, hfe, countFalls, ih2]
        by_cases h1 : (p && !e0.active) = true
        · have h2 : ¬((!p && e0.active) = true) := by
            rw [Bool.and_eq_true] at h1 ⊢
            rintro ⟨hnp, ha⟩
            rw [h1.1] at hnp
            exact Bool.noConfusion hnp
          simp [h1, h2]
        · by_cases h2 : (!p && e0.active) = true
          · simp [h1, h2]
          · simp [h1, h2]

/-- C9: VIP edge triggering.  Over any tick sequence, the number of
`vip_acquired` events equals the number of absent-to-present transitions of
the successfully-observed presence sequence (relative to the engine's
starting activity), `vip_released` likewise for present-to-absent — so no
event is emitted while presence is stable and exactly one per edge; the
acquire handler sets active, clears pending-disable and sets
pending-reconcile before attempting a reconcile, and the release handler
sets standby, clears pending-reconcile and sets pending-disable before
attempting a disable. -/
theorem C9_vip_edge_trigger {Cfg : Type} (inputs : List TickInput)
    (e0 : EngineState Cfg) (hcfg : e0.cfg.isSome) :
    ((runTicks inputs e0).2.count VIPEvent.acquired =
      countRises e0.active (inputs.filterMap TickInput.check)) ∧
    ((runTicks inputs e0).2.count VIPEvent.released =
      countFalls e0.active (inputs.filterMap TickInput.check)) ∧
    (∀ e : EngineState Cfg,
      (acquireFlags e).active = true ∧
      (acquireFlags e).pendingDisable = false ∧
      (acquireFlags e).pendingReconcile = true) ∧
    (∀ e : EngineState Cfg,
      (releaseFlags e).active = false ∧
      (releaseFlags e).pendingReconcile = false ∧
      (releaseFlags e).pendingDisable = true) ∧
    (∀ (now nanos : Int) (r : Except String Unit) (e : EngineState Cfg),
      onVIPAcquired now nanos r e = tryReconcile now nanos r (acquireFlags e)) ∧
    (∀ (r : Except String Unit) (e : EngineState Cfg),
      onVIPReleased r e = tryDisable r (releaseFlags e)) :=
  ⟨(runTicks_counts inputs e0 hcfg).1, (runTicks_counts inputs e0 hcfg).2,
   fun _ => ⟨rfl, rfl, rfl⟩, fun _ => ⟨rfl, rfl, rfl⟩,
   fun _ _ _ _ => rfl, fun _ _ => rfl⟩

def c9engine : EngineState String :=
  { cfg := some "cfg", cfgHash := "h", backendWeights := [],
    scheduler := none, active := false, pendingReconcile := false,
    pendingDisable := false, reconcileAttempts := 0, nextReconcileRetry := 0 }

def c9inputs : List TickInput :=
  [{ check := some true, applyRes := .ok (), disableRes := .ok (), now := 1, nanos := 0 },
   { check := some true, applyRes := .ok (), disableRes := .ok (), now := 2, nanos := 0 },
   { check := some false, applyRes := .ok (), disableRes := .ok (), now := 3, nanos := 0 },
   { check := none, applyRes := .ok (), disableRes := .ok (), now := 4, nanos := 0 },
   { check := some true, applyRes := .ok (), disableRes := .ok (), now := 5, nanos := 0 }]

theorem C9_vip_edge_trigger_witness :
    ((runTicks c9inputs c9engine).2.count VIPEvent.acquired =
      countRises c9engine.active (c9inputs.filterMap TickInput.check)) ∧
    ((runTicks c9inputs c9engine).2.count VIPEvent.released =
      countFalls c9engine.active (c9inputs.filterMap TickInput.check)) ∧
    (∀ e : EngineState String,
      (acquireFlags e).active = true ∧
      (acquireFlags e).pendingDisable = false ∧
      (acquireFlags e).pendingReconcile = true) ∧
    (∀ e : EngineState String,
      (releaseFlags e).active = false ∧
      (releaseFlags e).pendingReconcile = false ∧
      (releaseFlags e).pendingDisable = true) ∧
    (∀ (now nanos : Int) (r : Except String Unit) (e : EngineState String),
      onVIPAcquired now nanos r e = tryReconcile now nanos r (acquireFlags e)) ∧
    (∀ (r : Except String Unit) (e : EngineState String),
      onVIPReleased r e = tryDisable r (releaseFlags e)) :=
  C9_vip_edge_trigger c9inputs c9engine (by rfl)

/-! ## Scheduler.Start (internal/health/checker.go) -/

structure SchedulerState where
  runners : List (BackendKey × RunnerState)
  stopped : Bool
  deriving DecidableEq, Repr

def findTK : List (BackendKey × RunnerState) → BackendKey → Option RunnerState
  | [], _ => none
  | (k, v) :: rest, key => if k = key then some v else findTK rest key

/-- `validateTarget`, checks in source order. -/
def validateTarget (t : Target) : Except String Unit :=
  if t.key.service = "" then .error "missing service name"
  else if t.key.backend = "" then .error "missing backend address"
  else if t.checkPort < 1 ∨ t.checkPort > 65535 then .error "invalid check port"
  else if t.interval ≤ 0 then .error "invalid interval"
  else if t.timeout ≤ 0 then .error "invalid timeout"
  else if t.failAfter < 1 then .error "invalid fail_after"
  else if t.recoverAfter < 1 then .error "invalid recover_after"
  else .ok ()

/-- The loop body of `Scheduler.Start`: each valid, fresh target is
registered (state Unknown, weight -1) and its prober goroutine started
before the next target is examined; the first invalid or duplicate target
aborts with an error, with no rollback of earlier registrations. -/
def startLoop : List Target → SchedulerState → Except String Unit × SchedulerState
  | [], s => (.ok (), s)
  | t :: rest, s =>
    match validateTarget t with
    | .error e => (.error e, s)
    | .ok _ =>
      if (findTK s.runners t.key).isSome then
        (.error ("duplicate target: " ++ t.key.service ++ "/" ++ t.key.backend), s)
      else startLoop rest { s with runners := s.runners ++ [(t.key, initialRunner)] }

/-- `Scheduler.Start` (the missing-checker guard is a constructor
invariant and not modelled). -/
def SchedulerStart (targets : List Target) (s : SchedulerState) :
    Except String Unit × SchedulerState :=
  if s.stopped then (.error "scheduler stopped", s)
  else startLoop targets s

theorem findTK_isSome_iff (m : List (BackendKey × RunnerState)) (key : BackendKey) :
    (findTK m key).isSome = true ↔ key ∈ m.map Prod.fst := by
  induction m with
  | nil => simp [findTK]
  | cons p rest ih =>
    obtain ⟨k, v⟩ := p
    by_cases h : k = key
    · simp [findTK, h]
    · simp only [findTK, if_neg h, List.map_cons, List.mem_cons, ih]
      constructor
      · exact Or.inr
      · rintro (hh | hh)
        · exact absurd hh.symm h
        · exact hh

theorem findTK_append_not_mem (a b : List (BackendKey × RunnerState))
    (k : BackendKey) (h : k ∉ a.map Prod.fst) : findTK (a ++ b) k = findTK b k := by
  induction a with
  | nil => rfl
  | cons p rest ih =>
    obtain ⟨k0, v0⟩ := p
    simp only [List.map_cons, List.mem_cons] at h
    push_neg at h
    rw [List.cons_append]
    show (if k0 = k then some v0 else findTK (rest ++ b) k) = findTK b k
    rw [if_neg (fun hh => h.1 hh.symm), ih h.2]

theorem findTK_map_init (l : List Target) (k : BackendKey)
    (h : k ∈ l.map Target.key) :
    findTK (l.map (fun tj => (tj.key, initialRunner))) k = some initialRunner := by
  induction l with
  | nil => cases h
  | cons t0 rest ih =>
    rw [List.map_cons]
    show (if t0.key = k then some initialRunner else
      findTK (rest.map (fun tj => (tj.key, initialRunner))) k) = some initialRunner
    by_cases h0 : t0.key = k
    · rw [if_pos h0]
    · rw [if_neg h0]
      rw [List.map_cons] at h
      rcases List.mem_cons.1 h with hh | hh
      · exact absurd hh.symm h0
      · exact ih hh

theorem startLoop_fail (t : Target) (rest : List Target) :
    ∀ (pre : List Target) (s : SchedulerState),
      (∀ tj ∈ pre, validateTarget tj = .ok ()) →
      ((s.runners.map Prod.fst ++ pre.map Target.key).Nodup) →
      ((∃ msg, validateTarget t = .error msg) ∨
        (validateTarget t = .ok () ∧
          (t.key ∈ s.runners.map Prod.fst ∨ t.key ∈ pre.map Target.key))) →
      (∃ msg, (startLoop (pre ++ t :: rest) s).1 = .error msg) ∧
      (startLoop (pre ++ t :: rest) s).2.runners =
        s.runners ++ pre.map (fun tj => (tj.key, initialRunner)) := by
  intro pre
  induction pre with
  | nil =>
    intro s _ hnd hfail
    rcases hfail with ⟨msg, hv⟩ | ⟨hv, hmem⟩
    · rw [List.nil_append, startLoop, hv]
      exact ⟨⟨msg, rfl⟩, (List.append_nil s.runners).symm⟩
    · rcases hmem with hmem | hmem
      · rw [List.nil_append, startLoop, hv]
        simp only []
        rw [if_pos ((findTK_isSome_iff s.runners t.key).2 hmem)]
        exact ⟨⟨"duplicate target: " ++ t.key.service ++ "/" ++ t.key.backend, rfl⟩,
          (List.append_nil s.runners).symm⟩
      · cases hmem
  | cons tj pre' ih =>
    intro s hpre hnd hfail
    have hvj : validateTarget tj = .ok () := hpre tj (List.mem_cons_self _ _)
    have hnd' := hnd
    rw [List.map_cons] at hnd'
    have hnotin : tj.key ∉ s.runners.map Prod.fst := by
      intro hmem
      have := (List.nodup_append.1 hnd').2.2
      exact this hmem (List.mem_cons_self _ _)
    rw [List.cons_append, startLoop, hvj]
    simp only []
    have hfind : (findTK s.runners tj.key).isSome = false := by
      rw [Bool.eq_false_iff]
      intro hs
      exact hnotin ((findTK_isSome_iff s.runners tj.key).1 hs)
    rw [if_neg (by rw [hfind]; exact Bool.noConfusion)]
    have hndnext : (({ s with runners := s.runners ++ [(tj.key, initialRunner)] } :
        SchedulerState).runners.map Prod.fst ++ pre'.map Target.key).Nodup := by
      show ((s.runners ++ [(tj.key, initialRunner)]).map Prod.fst ++
        pre'.map Target.key).Nodup
      rw [List.map_append, List.append_assoc]
      simpa using hnd'
    have hfail' : (∃ msg, validateTarget t = .error msg) ∨
        (validateTarget t = .ok () ∧
          (t.key ∈ (({ s with runners := s.runners ++ [(tj.key, initialRunner)] } :
            SchedulerState).runners.map Prod.fst) ∨ t.key ∈ pre'.map Target.key)) := by
      rcases hfail with h | ⟨hv, hmem⟩
      · exact Or.inl h
      · refine Or.inr ⟨hv, ?_⟩
        rcases hmem with h | h
        · refine Or.inl ?_
          show t.key ∈ (s.runners ++ [(tj.key, initialRunner)]).map Prod.fst
          rw [List.map_append]
          exact List.mem_append_left _ h
        · rw [List.map_cons] at h
          rcases List.mem_cons.1 h with hh | hh
          · refine Or.inl ?_
            show t.key ∈ (s.runners ++ [(tj.key, initialRunner)]).map Prod.fst
            rw [List.map_append]
            refine List.mem_append_right _ ?_
            simp [hh]
          · exact Or.inr hh
    obtain ⟨ih1, ih2⟩ := ih { s with runners := s.runners ++ [(tj.key, initialRunner)] }
      (fun x hx => hpre x (List.mem_cons_of_mem _ hx)) hndnext hfail'
    refine ⟨ih1, ?_⟩
    rw [ih2]
    show s.runners ++ [(tj.key, initialRunner)] ++ pre'.map (fun x => (x.key, initialRunner)) = _
    rw [List.append_assoc, List.map_cons]
    rfl

/-- C10: `Scheduler.Start` is not atomic on error.  When the targets split
as `pre ++ t :: rest` with every target of `pre` valid and fresh and `t`
the first to fail validation or duplicate an earlier key, Start returns an
error, yet every target of `pre` is already registered in the runner map
(with its prober started at registration); nothing is rolled back. -/
theorem C10_start_not_atomic (pre : List Target) (t : Target) (rest : List Target)
    (s0 : SchedulerState)
    (hstopped : s0.stopped = false)
    (hpre : ∀ tj ∈ pre, validateTarget tj = .ok ())
    (hfresh : (s0.runners.map Prod.fst ++ pre.map Target.key).Nodup)
    (hfail : (∃ msg, validateTarget t = .error msg) ∨
      (validateTarget t = .ok () ∧
        (t.key ∈ s0.runners.map Prod.fst ∨ t.key ∈ pre.map Target.key))) :
    (∃ msg, (SchedulerStart (pre ++ t :: rest) s0).1 = .error msg) ∧
    (SchedulerStart (pre ++ t :: rest) s0).2.runners =
      s0.runners ++ pre.map (fun tj => (tj.key, initialRunner)) ∧
    (∀ tj ∈ pre, findTK (SchedulerStart (pre ++ t :: rest) s0).2.runners tj.key =
      some initialRunner) := by
  have hgate : SchedulerStart (pre ++ t :: rest) s0 = startLoop (pre ++ t :: rest) s0 := by
    unfold SchedulerStart
    rw [hstopped]
    rfl
  obtain ⟨h1, h2⟩ := startLoop_fail t rest pre s0 hpre hfresh hfail
  rw [hgate]
  refine ⟨h1, h2, ?_⟩
  intro tj htj
  rw [h2]
  obtain ⟨hnds, hndp, hdisj⟩ := List.nodup_append.1 hfresh
  have hnotin : tj.key ∉ s0.runners.map Prod.fst := by
    intro hmem
    exact hdisj hmem (List.mem_map.2 ⟨tj, htj, rfl⟩)
  rw [findTK_append_not_mem _ _ _ hnotin]
  exact findTK_map_init pre tj.key (List.mem_map.2 ⟨tj, htj, rfl⟩)

def c10good : Target :=
  { key := ⟨"web", "10.0.0.1"⟩, checkPort := 80, interval := 1000, timeout := 500,
    failAfter := 3, recoverAfter := 2, configuredWeight := 5 }

def c10bad : Target :=
  { key := ⟨"web", "10.0.0.2"⟩, checkPort := 0, interval := 1000, timeout := 500,
    failAfter := 3, recoverAfter := 2, configuredWeight := 5 }

theorem C10_start_not_atomic_witness :
    (∃ msg, (SchedulerStart ([c10good] ++ c10bad :: []) ⟨[], false⟩).1 = .error msg) ∧
    (SchedulerStart ([c10good] ++ c10bad :: []) ⟨[], false⟩).2.runners =
      ([] : List (BackendKey × RunnerState)) ++
        [c10good].map (fun tj => (tj.key, initialRunner)) ∧
    (∀ tj ∈ [c10good],
      findTK (SchedulerStart ([c10good] ++ c10bad :: []) ⟨[], false⟩).2.runners tj.key =
        some initialRunner) :=
  C10_start_not_atomic [c10good] c10bad [] ⟨[], false⟩ rfl
    (by intro tj htj; rw [List.mem_singleton.1 htj]; rfl)
    (by decide)
    (Or.inl ⟨"invalid check port", by rfl⟩)

/-! ## State cache (internal/ipvs/cache.go, enabled CachedManager)

Time is an integer clock; the zero `time.Time` is 0.  The inner manager's
outcome enters as a parameter.  Hit counters are omitted. -/

structure CacheState where
  services : Option (List IpvsService)
  destCache : List (String × List IpvsDest)
  destFetchedAt : List (String × Int)
  fetchedAt : Int
  deriving DecidableEq, Repr

/-- `CachedManager.Invalidate`: clears both caches entirely. -/
def Invalidate (c : CacheState) : CacheState :=
  { services := none, destCache := [], destFetchedAt := [], fetchedAt := 0 }

/-- `isValidLocked`. -/
def isValid (c : CacheState) (now ttl : Int) : Bool :=
  match c.services with
  | none => false
  | some _ => now - c.fetchedAt < ttl

/-- `CachedManager.GetServices` (enabled): a valid cache is served without
touching the inner manager (third component `true` = served from cache);
otherwise the inner manager is consulted and, on success, the cache
refilled. -/
def cacheGetServices (inner : Except String (List IpvsService)) (now ttl : Int)
    (c : CacheState) : Except String (List IpvsService) × CacheState × Bool :=
  if isValid c now ttl then (.ok (c.services.getD []), c, true)
  else
    match inner with
    | .error e => (.error e, c, false)
    | .ok svcs =>
      (.ok svcs,
       { services := some svcs, destCache := [], destFetchedAt := [], fetchedAt := now },
       false)

def cacheCreateService (innerRes : Except String Unit) (c : CacheState) :
    Except String Unit × CacheState :=
  match innerRes with
  | .ok _ => (.ok (), Invalidate c)
  | .error e => (.error e, c)

def cacheUpdateService (innerRes : Except String Unit) (c : CacheState) :
    Except String Unit × CacheState :=
  match innerRes with
  | .ok _ => (.ok (), Invalidate c)
  | .error e => (.error e, c)

def cacheDeleteService (innerRes : Except String Unit) (c : CacheState) :
    Except String Unit × CacheState :=
  match innerRes with
  | .ok _ => (.ok (), Invalidate c)
  | .error e => (.error e, c)

def cacheCreateDestination (innerRes : Except String Unit) (c : CacheState) :
    Except String Unit × CacheState :=
  match innerRes with
  | .ok _ => (.ok (), Invalidate c)
  | .error e => (.error e, c)

def cacheUpdateDestination (innerRes : Except String Unit) (c : CacheState) :
    Except String Unit × CacheState :=
  match innerRes with
  | .ok _ => (.ok (), Invalidate c)
  | .error e => (.error e, c)

def cacheDeleteDestination (innerRes : Except String Unit) (c : CacheState) :
    Except String Unit × CacheState :=
  match innerRes with
  | .ok _ => (.ok (), Invalidate c)
  | .error e => (.error e, c)

def c7svc : IpvsService :=
  { address := "192.0.2.10", protocol := "tcp", port := 80, scheduler := "rr" }

def c7cache : CacheState :=
  { services := some [c7svc],
    destCache := [("tcp:192.0.2.10:80", [{ address := some "10.0.0.1", port := 80, weight := 1 }])],
    destFetchedAt := [("tcp:192.0.2.10:80", 10)],
    fetchedAt := 10 }

/-- C7 counterexample: when the underlying `CreateService` fails, the
write does NOT invalidate the cache — the state is untouched, the service
cache is still populated and still valid, and the next `GetServices` is
served from the cache instead of fetching from the underlying manager —
falsifying "regardless of whether the underlying operation succeeds or
returns an error". -/
theorem C7_counterexample :
    (cacheCreateService (.error "netlink failure") c7cache).2 = c7cache ∧
    (cacheCreateService (.error "netlink failure") c7cache).2.services ≠ none ∧
    (cacheCreateService (.error "netlink failure") c7cache).2.destCache ≠ [] ∧
    isValid (cacheCreateService (.error "netlink failure") c7cache).2 11 5 = true ∧
    (cacheGetServices (.error "inner manager consulted") 11 5
      (cacheCreateService (.error "netlink failure") c7cache).2).1 = .ok [c7svc] ∧
    (cacheGetServices (.error "inner manager consulted") 11 5
      (cacheCreateService (.error "netlink failure") c7cache).2).2.2 = true :=
  ⟨rfl, by decide, by decide, by decide, by rfl, by rfl⟩

/-- C7 (amended): every write operation on an enabled CachedManager
invalidates both caches entirely — but only when the underlying operation
succeeds.  On success both caches are fully cleared, so the next read
consults the underlying manager; on error the cache state is returned
unchanged. -/
theorem C7_cache_write_invalidation (e : String) (c : CacheState) :
    (cacheCreateService (.error e) c = (.error e, c) ∧
     cacheUpdateService (.error e) c = (.error e, c) ∧
     cacheDeleteService (.error e) c = (.error e, c) ∧
     cacheCreateDestination (.error e) c = (.error e, c) ∧
     cacheUpdateDestination (.error e) c = (.error e, c) ∧
     cacheDeleteDestination (.error e) c = (.error e, c)) ∧
    (cacheCreateService (.ok ()) c = (.ok (), Invalidate c) ∧
     cacheUpdateService (.ok ()) c = (.ok (), Invalidate c) ∧
     cacheDeleteService (.ok ()) c = (.ok (), Invalidate c) ∧
     cacheCreateDestination (.ok ()) c = (.ok (), Invalidate c) ∧
     cacheUpdateDestination (.ok ()) c = (.ok (), Invalidate c) ∧
     cacheDeleteDestination (.ok ()) c = (.ok (), Invalidate c)) ∧
    ((Invalidate c).services = none ∧
     (Invalidate c).destCache = [] ∧
     (Invalidate c).destFetchedAt = [] ∧
     (∀ now ttl : Int, isValid (Invalidate c) now ttl = false) ∧
     (∀ (inner : Except String (List IpvsService)) (now ttl : Int),
       (cacheGetServices inner now ttl (Invalidate c)).2.2 = false)) :=
  ⟨⟨rfl, rfl, rfl, rfl, rfl, rfl⟩, ⟨rfl, rfl, rfl, rfl, rfl, rfl⟩,
   rfl, rfl, rfl, fun _ _ => rfl,
   fun inner _ _ => by cases inner <;> rfl⟩
end LibraFlux
